import Mathlib

/-!
# Verification of the Graph-Analyzer core

Shallow embedding of the repository's computational core
(`src/lib/matrices.py`, `src/lib/cycles.py`, `src/lib/topo.py`,
`src/lib/methods/{dp,dijkstra,bellman_ford,floyd_warshall}.py`,
`src/lib/DiGraph.py`) together with proofs about the embedded
definitions.

Conventions:
* An adjacency matrix is a `List (List Int)`; entry `(i, j)` is read with
  `getD`, yielding `0` (= "no edge") outside the stored rectangle, matching
  Python's indexing on the square matrices the code is used with.
* Python's `float("inf")` sentinel is modelled by `⊤ : WithTop Int`.
* Python loops that are not structurally recursive are modelled with an
  explicit fuel parameter; exhaustion is mapped to `none` where the Python
  source would diverge or crash, and the proofs show the fuel chosen
  suffices on the inputs the claims quantify over.
-/

namespace GraphAnalyzer

abbrev Mat := List (List Int)

/-- Entry `(i, j)` of an adjacency matrix, `0` outside the stored rectangle
(Python: `adj_matrix[i][j]`, which the code only evaluates in range). -/
def entry (m : Mat) (i j : Nat) : Int :=
  (m.getD i []).getD j 0

/-- The matrix is square: every row has length `len(m)`.  Python's code
implicitly assumes this (`n = len(adj_matrix)` indexes rows and columns). -/
def IsSquare (m : Mat) : Prop :=
  ∀ r ∈ m, r.length = m.length

instance (m : Mat) : Decidable (IsSquare m) := by
  unfold IsSquare; infer_instance

/-- The directed-edge relation of an adjacency matrix: a nonzero entry. -/
def Edge (m : Mat) (u v : Nat) : Prop := entry m u v ≠ 0

instance (m : Mat) (u v : Nat) : Decidable (Edge m u v) := by
  unfold Edge; infer_instance

theorem entry_eq_zero_of_len_le {m : Mat} {a b : Nat} (h : m.length ≤ a) :
    entry m a b = 0 := by
  have h2 : entry m a b = List.getD (List.getD m a []) b 0 := rfl
  rw [h2, List.getD_eq_default m [] h]
  rfl

theorem entry_eq_zero_of_row_le {m : Mat} {a b : Nat}
    (h : (List.getD m a []).length ≤ b) : entry m a b = 0 := by
  have h2 : entry m a b = List.getD (List.getD m a []) b 0 := rfl
  rw [h2, List.getD_eq_default _ _ h]

theorem Edge.src_lt {m : Mat} {u v : Nat} (h : Edge m u v) : u < m.length := by
  by_contra hu
  apply h
  unfold entry
  rw [List.getD_eq_default _ _ (Nat.le_of_not_lt hu)]
  simp [List.getD]

theorem Edge.tgt_lt_row {m : Mat} {u v : Nat} (h : Edge m u v) :
    v < (m.getD u []).length := by
  by_contra hv
  exact h (List.getD_eq_default _ _ (Nat.le_of_not_lt hv))

theorem Edge.tgt_lt {m : Mat} {u v : Nat} (hsq : IsSquare m) (h : Edge m u v) :
    v < m.length := by
  have hu := h.src_lt
  have hrow : m.getD u [] ∈ m := by
    rw [List.getD_eq_getElem m [] hu]; exact List.getElem_mem hu
  have := hsq _ hrow
  exact this ▸ h.tgt_lt_row

/-! ## MatrixConversion (`src/lib/matrices.py`) -/

/-- The edge list collected by `adjacency_to_incidence`'s first double loop:
row-major scan of all `(i, j)` with a nonzero entry, recording
`(i, j, weight)`. -/
def edgeScan (m : Mat) : List (Nat × Nat × Int) :=
  (List.range m.length).flatMap fun i =>
    (List.range m.length).filterMap fun j =>
      if entry m i j ≠ 0 then some (i, j, entry m i j) else none

/-- The entry written into row `r` of the incidence matrix for edge column
`(i, j, w)`: `w` at the source row; for a non-self-loop also `-w` at the
target row (Python writes `incidence_matrix[i][k] = w` and, when `i ≠ j`,
`incidence_matrix[j][k] = -w`). -/
def incEntry (r : Nat) (e : Nat × Nat × Int) : Int :=
  if r = e.1 then e.2.2
  else if r = e.2.1 ∧ e.1 ≠ e.2.1 then -e.2.2
  else 0

/-- `adjacency_to_incidence`: one row per vertex, one column per scanned
edge. -/
def adjacency_to_incidence (m : Mat) : Mat :=
  (List.range m.length).map fun r => (edgeScan m).map fun e => incEntry r e

/-- The column scan of `incidence_to_adjacency` over rows `0..n-1` of column
`k`: the fold keeps the last positive row as `source` (with its value as
`weight`) and the last negative row as `target`. -/
def colScanAux (inc : Mat) (k : Nat) :
    Nat → Option Nat × Option Nat × Int
  | 0 => (none, none, 0)
  | r + 1 =>
    let st := colScanAux inc k r
    let x := entry inc r k
    if 0 < x then (some r, st.2.1, x)
    else if x < 0 then (st.1, some r, st.2.2)
    else st

def colScan (inc : Mat) (k : Nat) : Option Nat × Option Nat × Int :=
  colScanAux inc k inc.length

/-- Write `w` at position `(i, j)` of a matrix (Python
`adj_matrix[source][target] = weight`). -/
def setEntry (m : Mat) (i j : Nat) (w : Int) : Mat :=
  m.set i ((m.getD i []).set j w)

/-- The all-zero `n × n` matrix (`[[0] * n for _ in range(n)]`). -/
def zeroMat (n : Nat) : Mat :=
  List.replicate n (List.replicate n 0)

/-- Apply one column of the incidence matrix to the adjacency matrix under
construction: if a positive entry (source) was found, write the weight at
`(source, target)`, where a missing negative entry makes the column a
self-loop; a column with no positive entry is silently skipped (the Python
source has no error path here). -/
def applyColumn (inc : Mat) (adj : Mat) (k : Nat) : Mat :=
  match colScan inc k with
  | (some src, tgt, w) => setEntry adj src (tgt.getD src) w
  | (none, _, _) => adj

/-- `incidence_to_adjacency`. -/
def incidence_to_adjacency (inc : Mat) : Mat :=
  let n := inc.length
  let ncols := if 0 < n then (inc.getD 0 []).length else 0
  (List.range ncols).foldl (applyColumn inc) (zeroMat n)

/-! ### Facts about `setEntry` and writes -/

theorem getD_set_ne {l : List (List Int)} {i a : Nat} {r : List Int} (h : i ≠ a) :
    (l.set i r).getD a [] = l.getD a [] := by
  rw [List.getD_eq_getElem?_getD, List.getD_eq_getElem?_getD,
    List.getElem?_set, if_neg h]

theorem getD_set_self {l : List (List Int)} {i : Nat} {r : List Int}
    (h : i < l.length) : (l.set i r).getD i [] = r := by
  rw [List.getD_eq_getElem?_getD, List.getElem?_set, if_pos rfl, if_pos h]
  rfl

theorem length_setEntry (m : Mat) (i j : Nat) (w : Int) :
    (setEntry m i j w).length = m.length := by
  simp [setEntry]

theorem rowlen_setEntry (m : Mat) (i j : Nat) (w : Int) (a : Nat) :
    ((setEntry m i j w).getD a []).length = (m.getD a []).length := by
  unfold setEntry
  by_cases h : i = a
  · subst h
    by_cases hi : i < m.length
    · rw [getD_set_self hi, List.length_set]
    · rw [List.set_eq_of_length_le (Nat.le_of_not_lt hi)]
  · rw [getD_set_ne h]

theorem entry_setEntry_same {m : Mat} {i j : Nat} {w : Int}
    (hi : i < m.length) (hj : j < (m.getD i []).length) :
    entry (setEntry m i j w) i j = w := by
  unfold entry setEntry
  rw [getD_set_self hi, List.getD_eq_getElem?_getD, List.getElem?_set,
    if_pos rfl, if_pos hj]
  rfl

theorem entry_setEntry_other {m : Mat} {i j a b : Nat} {w : Int}
    (h : (i, j) ≠ (a, b)) :
    entry (setEntry m i j w) a b = entry m a b := by
  unfold entry setEntry
  by_cases hia : i = a
  · subst hia
    have hjb : j ≠ b := fun hjb => h (by rw [hjb])
    by_cases hi : i < m.length
    · rw [getD_set_self hi, List.getD_eq_getElem?_getD,
        List.getD_eq_getElem?_getD, List.getElem?_set, if_neg hjb,
        List.getD_eq_getElem?_getD]
    · rw [List.set_eq_of_length_le (Nat.le_of_not_lt hi)]
  · rw [getD_set_ne hia]

/-- The write performed for one incidence column holding edge `(i, j, w)`. -/
def writeEdge (adj : Mat) (e : Nat × Nat × Int) : Mat :=
  setEntry adj e.1 e.2.1 e.2.2

theorem length_foldl_writeEdge (L : List (Nat × Nat × Int)) (adj : Mat) :
    (L.foldl writeEdge adj).length = adj.length := by
  induction L generalizing adj with
  | nil => rfl
  | cons e t ih =>
    rw [List.foldl_cons, ih]
    exact length_setEntry adj e.1 e.2.1 e.2.2

theorem rowlen_foldl_writeEdge (L : List (Nat × Nat × Int)) (adj : Mat) (a : Nat) :
    ((L.foldl writeEdge adj).getD a []).length = (adj.getD a []).length := by
  induction L generalizing adj with
  | nil => rfl
  | cons e t ih =>
    rw [List.foldl_cons, ih]
    exact rowlen_setEntry adj e.1 e.2.1 e.2.2 a

theorem entry_foldl_writeEdge_of_not_mem {L : List (Nat × Nat × Int)} {adj : Mat}
    {a b : Nat} (h : ∀ e ∈ L, (e.1, e.2.1) ≠ (a, b)) :
    entry (L.foldl writeEdge adj) a b = entry adj a b := by
  induction L generalizing adj with
  | nil => rfl
  | cons e t ih =>
    rw [List.foldl_cons, ih (fun x hx => h x (List.mem_cons_of_mem _ hx))]
    exact entry_setEntry_other (h e (List.mem_cons_self _ _))

theorem entry_foldl_writeEdge_of_mem {L : List (Nat × Nat × Int)} {adj : Mat}
    {a b : Nat} {w : Int}
    (hnd : L.Pairwise fun e₁ e₂ => (e₁.1, e₁.2.1) ≠ (e₂.1, e₂.2.1))
    (hmem : (a, b, w) ∈ L)
    (ha : a < adj.length) (hb : b < (adj.getD a []).length) :
    entry (L.foldl writeEdge adj) a b = w := by
  induction L generalizing adj with
  | nil => cases hmem
  | cons e t ih =>
    rcases List.mem_cons.mp hmem with he | ht
    · subst he
      rw [List.foldl_cons]
      have hnot : ∀ x ∈ t, (x.1, x.2.1) ≠ (a, b) := by
        intro x hx
        exact fun hxe => ((List.pairwise_cons.mp hnd).1 x hx) hxe.symm
      rw [entry_foldl_writeEdge_of_not_mem hnot]
      exact entry_setEntry_same ha hb
    · rw [List.foldl_cons]
      exact ih (List.pairwise_cons.mp hnd).2 ht
        (by rw [writeEdge, length_setEntry]; exact ha)
        (by rw [writeEdge, rowlen_setEntry]; exact hb)

/-! ### Structure of the scanned edge list -/

theorem mem_edgeScan {m : Mat} {i j : Nat} {w : Int} :
    (i, j, w) ∈ edgeScan m ↔
      i < m.length ∧ j < m.length ∧ entry m i j ≠ 0 ∧ w = entry m i j := by
  unfold edgeScan
  simp only [List.mem_flatMap, List.mem_filterMap, List.mem_range,
    Option.ite_none_right_eq_some, Option.some.injEq, Prod.mk.injEq]
  constructor
  · rintro ⟨a, ha, b, hb, hne, rfl, rfl, rfl⟩
    exact ⟨ha, hb, hne, rfl⟩
  · rintro ⟨hi, hj, hne, rfl⟩
    exact ⟨i, hi, j, hj, hne, rfl, rfl, rfl⟩

theorem nodup_flatMap_keyed {α β : Type} {l : List α} {f : α → List β}
    (κ : β → α) (hl : l.Nodup) (hf : ∀ a, (f a).Nodup)
    (hκ : ∀ a, ∀ b ∈ f a, κ b = a) : (l.flatMap f).Nodup := by
  induction l with
  | nil => simp
  | cons a t ih =>
    rw [List.flatMap_cons, List.nodup_append]
    refine ⟨hf a, ih (List.nodup_cons.mp hl).2, ?_⟩
    intro b hb hb'
    rcases List.mem_flatMap.mp hb' with ⟨a', ha', hba'⟩
    have h1 : κ b = a := hκ a b hb
    have h2 : κ b = a' := hκ a' b hba'
    exact (List.nodup_cons.mp hl).1 (by rw [← h1, h2]; exact ha')

theorem edgeScan_pairs_nodup (m : Mat) :
    (edgeScan m).Pairwise fun e₁ e₂ => (e₁.1, e₁.2.1) ≠ (e₂.1, e₂.2.1) := by
  have h : ((edgeScan m).map fun e => (e.1, e.2.1)).Nodup := by
    unfold edgeScan
    rw [List.map_flatMap]
    refine nodup_flatMap_keyed Prod.fst (List.nodup_range _) ?_ ?_
    · intro a
      refine List.Nodup.map_on ?_ ?_
      · rintro ⟨i, j, w⟩ hmem ⟨i', j', w'⟩ hmem' heq
        simp only [List.mem_filterMap, List.mem_range,
          Option.ite_none_right_eq_some, Option.some.injEq, Prod.mk.injEq] at hmem hmem'
        obtain ⟨b, _, _, rfl, rfl, rfl⟩ := hmem
        obtain ⟨b', _, _, rfl, rfl, rfl⟩ := hmem'
        have hbb : b = b' := by simpa using heq
        subst hbb
        rfl
      · refine List.Nodup.filterMap ?_ (List.nodup_range _)
        intro j j' x hx hx'
        rw [Option.mem_def] at hx hx'
        simp only [Option.ite_none_right_eq_some, Option.some.injEq] at hx hx'
        obtain ⟨_, rfl⟩ := hx
        have h := congrArg (fun p => p.2.1) hx'.2
        simpa using h.symm
    · rintro a ⟨i, j⟩ hmem
      simp only [List.mem_map, List.mem_filterMap, List.mem_range,
        Option.ite_none_right_eq_some, Option.some.injEq] at hmem
      obtain ⟨⟨i', j', w'⟩, ⟨b, _, _, hb⟩, heq⟩ := hmem
      have h1 := congrArg (fun p => p.1) hb
      have h2 := congrArg (fun p => p.1) heq
      simp only at h1 h2
      rw [← h2, ← h1]
  exact List.pairwise_map.mp h

/-! ### The round trip -/

theorem entry_adjacency_to_incidence (m : Mat) {r k : Nat} (hr : r < m.length)
    (hk : k < (edgeScan m).length) :
    entry (adjacency_to_incidence m) r k =
      incEntry r ((edgeScan m).get ⟨k, hk⟩) := by
  have hrow : (adjacency_to_incidence m).getD r []
      = (edgeScan m).map (incEntry r) := by
    unfold adjacency_to_incidence
    rw [List.getD_eq_getElem _ _
      (show r < ((List.range m.length).map
        (fun r => (edgeScan m).map (incEntry r))).length by simpa using hr)]
    rw [List.getElem_map, List.getElem_range]
  unfold entry
  rw [hrow, List.getD_eq_getElem _ _ (by simpa using hk), List.getElem_map]
  rfl

theorem colScanAux_char (m : Mat) {k : Nat} (hk : k < (edgeScan m).length)
    (hw : 0 < ((edgeScan m).get ⟨k, hk⟩).2.2) :
    ∀ r, r ≤ m.length →
      colScanAux (adjacency_to_incidence m) k r =
        (if ((edgeScan m).get ⟨k, hk⟩).1 < r
            then some ((edgeScan m).get ⟨k, hk⟩).1 else none,
         if ((edgeScan m).get ⟨k, hk⟩).1 ≠ ((edgeScan m).get ⟨k, hk⟩).2.1 ∧
            ((edgeScan m).get ⟨k, hk⟩).2.1 < r
            then some ((edgeScan m).get ⟨k, hk⟩).2.1 else none,
         if ((edgeScan m).get ⟨k, hk⟩).1 < r
            then ((edgeScan m).get ⟨k, hk⟩).2.2 else 0) := by
  set e := (edgeScan m).get ⟨k, hk⟩ with he
  intro r hr
  induction r with
  | zero => simp [colScanAux]
  | succ r ih =>
    have hrlt : r < m.length := Nat.lt_of_succ_le hr
    have hent : entry (adjacency_to_incidence m) r k = incEntry r e := by
      rw [entry_adjacency_to_incidence m hrlt hk]
    rw [colScanAux, ih (Nat.le_of_lt hrlt)]
    simp only [hent, incEntry]
    by_cases hri : r = e.1
    · subst hri
      rw [if_pos rfl, if_pos hw]
      have ha : e.1 < e.1 + 1 := Nat.lt_succ_self _
      have hb : (e.1 ≠ e.2.1 ∧ e.2.1 < e.1 + 1) ↔ (e.1 ≠ e.2.1 ∧ e.2.1 < e.1) := by
        omega
      rw [if_pos ha, if_pos ha]
      simp only [hb]
    · rw [if_neg hri]
      by_cases hrj : r = e.2.1 ∧ e.1 ≠ e.2.1
      · rw [if_pos hrj]
        obtain ⟨hrj1, hij⟩ := hrj
        rw [hrj1] at hri ⊢
        rw [if_neg (by omega : ¬ (0 : Int) < -e.2.2),
          if_pos (by omega : -e.2.2 < 0)]
        have hiff1 : (e.1 < e.2.1 + 1) ↔ (e.1 < e.2.1) := by omega
        have hcnd : e.1 ≠ e.2.1 ∧ e.2.1 < e.2.1 + 1 := ⟨hij, Nat.lt_succ_self _⟩
        rw [if_pos hcnd]
        simp only [hiff1]
      · rw [if_neg hrj]
        rw [if_neg (by omega : ¬ (0 : Int) < 0),
          if_neg (by omega : ¬ (0 : Int) < 0)]
        have hiff1 : (e.1 < r + 1) ↔ (e.1 < r) := by omega
        have hiff2 : (e.1 ≠ e.2.1 ∧ e.2.1 < r + 1) ↔ (e.1 ≠ e.2.1 ∧ e.2.1 < r) := by
          omega
        simp only [hiff1, hiff2]

theorem applyColumn_eq_writeEdge (m : Mat) {k : Nat}
    (hk : k < (edgeScan m).length)
    (hw : 0 < ((edgeScan m).get ⟨k, hk⟩).2.2) (adj : Mat) :
    applyColumn (adjacency_to_incidence m) adj k =
      writeEdge adj ((edgeScan m).get ⟨k, hk⟩) := by
  set e := (edgeScan m).get ⟨k, hk⟩ with he
  have hn : (adjacency_to_incidence m).length = m.length := by
    simp [adjacency_to_incidence]
  have hcol := colScanAux_char m hk hw m.length (le_refl _)
  have hmem : e ∈ edgeScan m := List.get_mem _ _ _
  obtain ⟨hi, hj, _, _⟩ := mem_edgeScan.mp
    (show (e.1, e.2.1, e.2.2) ∈ edgeScan m from hmem)
  unfold applyColumn colScan
  rw [hn, hcol, if_pos hi, if_pos hi]
  by_cases hij : e.1 ≠ e.2.1
  · rw [if_pos ⟨hij, hj⟩]
    rfl
  · rw [if_neg (fun h => hij h.1)]
    show setEntry adj e.1 e.1 e.2.2 = setEntry adj e.1 e.2.1 e.2.2
    rw [not_not.mp hij]

theorem foldl_range_eq_foldl {α β : Type} (f : β → Nat → β) (g : β → α → β)
    (L : List α)
    (h : ∀ (acc : β) (k : Nat) (hk : k < L.length), f acc k = g acc (L.get ⟨k, hk⟩)) :
    ∀ t, t ≤ L.length → ∀ z : β,
      (List.range t).foldl f z = (L.take t).foldl g z := by
  intro t
  induction t with
  | zero => intro _ z; simp
  | succ t ih =>
    intro ht z
    have htL : t < L.length := Nat.lt_of_succ_le ht
    rw [List.range_succ, List.foldl_append, ih (Nat.le_of_lt htL) z]
    have : L.take (t + 1) = L.take t ++ [L.get ⟨t, htL⟩] := by
      rw [List.take_succ]
      congr 1
      rw [List.getElem?_eq_getElem htL]
      rfl
    rw [this, List.foldl_append]
    simp only [List.foldl_cons, List.foldl_nil]
    exact h _ t htL

theorem entry_zeroMat (n a b : Nat) : entry (zeroMat n) a b = 0 := by
  unfold entry zeroMat
  rw [List.getD_eq_getElem?_getD (List.replicate n (List.replicate n 0)) a [],
    List.getElem?_replicate]
  by_cases ha : a < n
  · rw [if_pos ha, Option.getD_some, List.getD_eq_getElem?_getD,
      List.getElem?_replicate]
    by_cases hb : b < n
    · rw [if_pos hb]
      rfl
    · rw [if_neg hb]
      rfl
  · rw [if_neg ha]
    simp [List.getD]

theorem mat_ext {m₁ m₂ : Mat} (hlen : m₁.length = m₂.length)
    (hrow : ∀ a, (m₁.getD a []).length = (m₂.getD a []).length)
    (hent : ∀ a b, entry m₁ a b = entry m₂ a b) : m₁ = m₂ := by
  refine List.ext_getElem hlen ?_
  intro a ha₁ ha₂
  refine List.ext_getElem ?_ ?_
  · have h := hrow a
    rwa [List.getD_eq_getElem m₁ [] ha₁, List.getD_eq_getElem m₂ [] ha₂] at h
  · intro b hb₁ hb₂
    have h := hent a b
    unfold entry at h
    rw [List.getD_eq_getElem m₁ [] ha₁, List.getD_eq_getElem m₂ [] ha₂] at h
    rwa [List.getD_eq_getElem (m₁[a]) 0 hb₁,
      List.getD_eq_getElem (m₂[a]) 0 hb₂] at h

/-- Round trip for square matrices with non-negative entries. -/
theorem incidence_roundtrip (m : Mat) (hsq : IsSquare m)
    (hnn : ∀ i j, 0 ≤ entry m i j) :
    incidence_to_adjacency (adjacency_to_incidence m) = m := by
  rcases Nat.eq_zero_or_pos m.length with hn | hn
  · have hm : m = [] := List.length_eq_zero.mp hn
    subst hm
    rfl
  · have hwpos : ∀ {k : Nat} (hk : k < (edgeScan m).length),
        0 < ((edgeScan m).get ⟨k, hk⟩).2.2 := by
      intro k hk
      have hmem : (edgeScan m).get ⟨k, hk⟩ ∈ edgeScan m := List.get_mem _ _ _
      set e := (edgeScan m).get ⟨k, hk⟩
      obtain ⟨_, _, hne, hwe⟩ := mem_edgeScan.mp
        (show (e.1, e.2.1, e.2.2) ∈ edgeScan m from hmem)
      have := hnn e.1 e.2.1
      omega
    have hinc_len : (adjacency_to_incidence m).length = m.length := by
      simp [adjacency_to_incidence]
    have hncols : ((adjacency_to_incidence m).getD 0 []).length
        = (edgeScan m).length := by
      unfold adjacency_to_incidence
      rw [List.getD_eq_getElem _ _ (by simpa using hn), List.getElem_map]
      simp
    have hfold : incidence_to_adjacency (adjacency_to_incidence m) =
        (edgeScan m).foldl writeEdge (zeroMat m.length) := by
      simp only [incidence_to_adjacency]
      rw [hinc_len, if_pos hn, hncols]
      have := foldl_range_eq_foldl (applyColumn (adjacency_to_incidence m))
        writeEdge (edgeScan m)
        (fun adj k hk => applyColumn_eq_writeEdge m hk (hwpos hk) adj)
        (edgeScan m).length (le_refl _) (zeroMat m.length)
      rw [this, List.take_length]
    rw [hfold]
    have hzlen : (zeroMat m.length).length = m.length := by simp [zeroMat]
    have hzrow : ∀ a, ((zeroMat m.length).getD a []).length
        = (m.getD a []).length := by
      intro a
      unfold zeroMat
      rw [List.getD_eq_getElem?_getD, List.getElem?_replicate]
      by_cases ha : a < m.length
      · rw [if_pos ha, Option.getD_some, List.length_replicate,
          List.getD_eq_getElem _ _ ha]
        have : m[a] ∈ m := List.getElem_mem ha
        exact (hsq _ this).symm
      · rw [if_neg ha,
          List.getD_eq_default _ _ (Nat.le_of_not_lt ha)]
        rfl
    refine mat_ext ?_ ?_ ?_
    · rw [length_foldl_writeEdge, hzlen]
    · intro a
      rw [rowlen_foldl_writeEdge]
      exact hzrow a
    · intro a b
      by_cases hab : a < m.length ∧ b < m.length
      · obtain ⟨ha, hb⟩ := hab
        by_cases hz : entry m a b = 0
        · rw [hz]
          have hno : ∀ e ∈ edgeScan m, (e.1, e.2.1) ≠ (a, b) := by
            rintro ⟨i, j, w⟩ hmem heq
            obtain ⟨hi1, hi2⟩ : i = a ∧ j = b := by
              constructor
              · exact congrArg Prod.fst heq
              · exact congrArg Prod.snd heq
            subst hi1; subst hi2
            obtain ⟨_, _, hne, _⟩ := mem_edgeScan.mp hmem
            exact hne hz
          rw [entry_foldl_writeEdge_of_not_mem hno]
          exact entry_zeroMat _ _ _
        · have hmem : (a, b, entry m a b) ∈ edgeScan m :=
            mem_edgeScan.mpr ⟨ha, hb, hz, rfl⟩
          refine entry_foldl_writeEdge_of_mem (edgeScan_pairs_nodup m) hmem ?_ ?_
          · rw [hzlen]; exact ha
          · rw [hzrow a]
            have : m[a] ∈ m := List.getElem_mem ha
            rw [List.getD_eq_getElem _ _ ha]
            rw [hsq _ this]
            exact hb
      · have hout : ∀ e ∈ edgeScan m, (e.1, e.2.1) ≠ (a, b) := by
          rintro ⟨i, j, w⟩ hmem heq
          obtain ⟨hi, hj, _, _⟩ := mem_edgeScan.mp hmem
          have h1 : i = a := congrArg Prod.fst heq
          have h2 : j = b := congrArg Prod.snd heq
          subst h1; subst h2
          exact hab ⟨hi, hj⟩
        have hzero : entry m a b = 0 := by
          rcases Decidable.not_and_iff_or_not.mp hab with ha | hb
          · exact entry_eq_zero_of_len_le (Nat.le_of_not_lt ha)
          · refine entry_eq_zero_of_row_le ?_
            by_cases ham : a < m.length
            · rw [List.getD_eq_getElem _ _ ham]
              have : m[a] ∈ m := List.getElem_mem ham
              rw [hsq _ this]
              exact Nat.le_of_not_lt hb
            · rw [List.getD_eq_default _ _ (Nat.le_of_not_lt ham)]
              exact Nat.zero_le _
        rw [entry_foldl_writeEdge_of_not_mem hout, entry_zeroMat, hzero]

theorem nonneg_entries_of_forall_lt {m : Mat}
    (h : ∀ i, i < m.length → ∀ j, j < (m.getD i []).length → 0 ≤ entry m i j) :
    ∀ i j, 0 ≤ entry m i j := by
  intro i j
  by_cases hi : i < m.length
  · by_cases hj : j < (m.getD i []).length
    · exact h i hi j hj
    · rw [entry_eq_zero_of_row_le (Nat.le_of_not_lt hj)]
  · rw [entry_eq_zero_of_len_le (Nat.le_of_not_lt hi)]

/-! ## Mutation of the caller's matrix (`dijkstra` lines 31-34,
`floyd_warshall` lines 27-30) -/

/-- Embedding of a caller-supplied integer matrix into the value space that
also contains the infinity sentinel. -/
def liftMat (m : Mat) : List (List (WithTop Int)) :=
  m.map fun r => r.map fun w => (w : WithTop Int)

/-- The state of the caller's matrix after `dijkstra`'s preprocessing loop:
`for i in range(n): for j in range(n): if i != j and adj_matrix[i][j] == 0:
adj_matrix[i][j] = INF`.  The loop writes into the argument itself (no copy
is taken), and the remainder of `dijkstra` only reads the matrix, so this is
the caller's matrix when the call returns. -/
def dijkstra_matrix_after (m : Mat) : List (List (WithTop Int)) :=
  (List.range m.length).map fun i => (List.range m.length).map fun j =>
    if i ≠ j ∧ entry m i j = 0 then ⊤ else (entry m i j : WithTop Int)

/-- The state of the caller's matrix after `floyd_warshall`'s identical
preprocessing loop, which likewise writes into the argument in place. -/
def floyd_warshall_matrix_after (m : Mat) : List (List (WithTop Int)) :=
  (List.range m.length).map fun i => (List.range m.length).map fun j =>
    if i ≠ j ∧ entry m i j = 0 then ⊤ else (entry m i j : WithTop Int)

/-! ## ShortestPathEngine: shared state

All three single-source algorithms initialise
`dp = [INF] * n; dp[source] = 0` and
`paths = [[] for _ in range(n)]; paths[source] = [[source]]`,
and update a distance list together with a list of tied shortest paths. -/

abbrev Dist := WithTop Int

/-- Distance lookup `dp[i]` (indices are in range in the Python source). -/
def wget (dp : List Dist) (i : Nat) : Dist := dp.getD i ⊤

/-- Path-set lookup `paths[i]`. -/
def pget (paths : List (List (List Nat))) (i : Nat) : List (List Nat) :=
  paths.getD i []

structure SPState where
  dp : List Dist
  paths : List (List (List Nat))
  deriving DecidableEq

/-- The common initial state of `shortest_paths_dp`, `dijkstra` and
`bellman_ford`. -/
def sp_init (n s : Nat) : SPState :=
  ⟨(List.replicate n (⊤ : Dist)).set s 0,
   (List.replicate n ([] : List (List Nat))).set s [[s]]⟩

/-! ## Bellman-Ford (`src/lib/methods/bellman_ford.py`) -/

/-- The edge list built once at the start (lines 36-40): row-major scan of
all off-diagonal nonzero entries. -/
def bf_edges (m : Mat) : List (Nat × Nat × Int) :=
  (List.range m.length).flatMap fun i =>
    (List.range m.length).filterMap fun j =>
      if i ≠ j ∧ entry m i j ≠ 0 then some (i, j, entry m i j) else none

/-- One relaxation step
(`if dp[u] != INF and dp[u] + w < dp[v]: dp[v] = ...; paths[v] = ...;
updated = True`); the Bool records the `updated` flag. -/
def bf_relax (st : SPState × Bool) (e : Nat × Nat × Int) : SPState × Bool :=
  if wget st.1.dp e.1 ≠ ⊤ ∧
      wget st.1.dp e.1 + (e.2.2 : Dist) < wget st.1.dp e.2.1 then
    (⟨st.1.dp.set e.2.1 (wget st.1.dp e.1 + (e.2.2 : Dist)),
      st.1.paths.set e.2.1 ((pget st.1.paths e.1).map fun p => p ++ [e.2.1])⟩,
     true)
  else st

/-- One full pass over the edge list with a fresh `updated = False` flag. -/
def bf_pass (edges : List (Nat × Nat × Int)) (st : SPState) : SPState × Bool :=
  edges.foldl bf_relax (st, false)

/-- The main loop `for _ in range(n - 1)`, stopping early when a pass makes
no update. -/
def bf_loop (edges : List (Nat × Nat × Int)) : Nat → SPState → SPState
  | 0, st => st
  | k + 1, st =>
    let r := bf_pass edges st
    if r.2 then bf_loop edges k r.1 else r.1

/-- The state after the main relaxation loop. -/
def bf_after_loop (m : Mat) (s : Nat) : SPState :=
  bf_loop (bf_edges m) (m.length - 1) (sp_init m.length s)

/-- Some edge can still be relaxed (the final check, lines 58-60). -/
def bf_relaxable (edges : List (Nat × Nat × Int)) (dp : List Dist) : Prop :=
  ∃ e ∈ edges, wget dp e.1 ≠ ⊤ ∧ wget dp e.1 + (e.2.2 : Dist) < wget dp e.2.1

instance (edges : List (Nat × Nat × Int)) (dp : List Dist) :
    Decidable (bf_relaxable edges dp) := by
  unfold bf_relaxable; infer_instance

/-- `bellman_ford`: `None` (modelling `return None, None`) when an edge is
still relaxable after the main loop, otherwise the distances and paths. -/
def bellman_ford (m : Mat) (s : Nat) :
    Option (List Dist × List (List (List Nat))) :=
  if bf_relaxable (bf_edges m) (bf_after_loop m s).dp then none
  else some ((bf_after_loop m s).dp, (bf_after_loop m s).paths)

/-! ## DAG dynamic programming (`src/lib/methods/dp.py`) -/

/-- Relaxation of edge `(u, v)` in `shortest_paths_dp`: a strict improvement
replaces the distance and path set, an exact tie extends the path set. -/
def dp_relax (m : Mat) (u : Nat) (st : SPState) (v : Nat) : SPState :=
  if entry m u v ≠ 0 then
    if wget st.dp u + (entry m u v : Dist) < wget st.dp v then
      ⟨st.dp.set v (wget st.dp u + (entry m u v : Dist)),
       st.paths.set v ((pget st.paths u).map fun p => p ++ [v])⟩
    else if wget st.dp u + (entry m u v : Dist) = wget st.dp v then
      ⟨st.dp,
       st.paths.set v
         (pget st.paths v ++ (pget st.paths u).map fun p => p ++ [v])⟩
    else st
  else st

/-- The body of the outer loop over `u` (`if dp[u] == INF: continue`). -/
def dp_outer (m : Mat) (st : SPState) (u : Nat) : SPState :=
  if wget st.dp u = ⊤ then st
  else (List.range m.length).foldl (dp_relax m u) st

def shortest_paths_dp (m : Mat) (s : Nat) :
    List Dist × List (List (List Nat)) :=
  let st := (List.range m.length).foldl (dp_outer m) (sp_init m.length s)
  (st.dp, st.paths)

/-- The matrix with every diagonal entry replaced by zero; `bellman_ford`
never reads the diagonal, so it computes the same result on `m` and on
`zeroDiag m`. -/
def zeroDiag (m : Mat) : Mat :=
  m.mapIdx fun i row => row.mapIdx fun j w => if i = j then 0 else w

/-! ## Dijkstra (`src/lib/methods/dijkstra.py`)

The preprocessing loop overwrites every off-diagonal zero of the matrix
with `float("inf")` (in place, see C4); the rest of the function reads
only entries at indices below `n`, so the value it sees at `(i, j)` is
`mutw m i j` below. -/

/-- The entry the post-mutation matrix holds at `(i, j)` for
`i, j < n`. -/
def mutw (m : Mat) (i j : Nat) : Dist :=
  if i ≠ j ∧ entry m i j = 0 then ⊤ else (entry m i j : Dist)

/-- Strict lexicographic order on Python's `(distance, vertex)` heap
tuples. -/
def heapLt (a b : Dist × Nat) : Prop :=
  a.1 < b.1 ∨ (a.1 = b.1 ∧ a.2 < b.2)

instance (a b : Dist × Nat) : Decidable (heapLt a b) := by
  unfold heapLt
  infer_instance

/-- `heapq.heappop` returns the least tuple of the heap's contents; the
fold keeps the earliest minimal element. -/
def heapMin : List (Dist × Nat) → Option (Dist × Nat)
  | [] => none
  | p :: t =>
    some (t.foldl (fun best q => if heapLt q best then q else best) p)

/-- One iteration of `for v in range(n)` inside Dijkstra's while loop: a
strict improvement updates the distance, replaces the path set and pushes
`(dp[v], v)`; an exact finite tie extends the path set. -/
def dij_visit (m : Mat) (u : Nat)
    (st : SPState × List (Dist × Nat)) (v : Nat) :
    SPState × List (Dist × Nat) :=
  if mutw m u v ≠ 0 then
    if wget st.1.dp u + mutw m u v < wget st.1.dp v then
      (⟨st.1.dp.set v (wget st.1.dp u + mutw m u v),
        st.1.paths.set v ((pget st.1.paths u).map fun p => p ++ [v])⟩,
       st.2 ++ [(wget st.1.dp u + mutw m u v, v)])
    else if wget st.1.dp u + mutw m u v = wget st.1.dp v ∧
        wget st.1.dp v ≠ ⊤ then
      (⟨st.1.dp,
        st.1.paths.set v
          (pget st.1.paths v ++ (pget st.1.paths u).map fun p => p ++ [v])⟩,
       st.2)
    else st
  else st

/-- The `while min_heap:` loop: pop the least tuple, skip it when stale
(`curr_dist > dp[u]`), otherwise scan the row.  `fuel` bounds the
iteration count; `none` marks exhaustion (the top-level call supplies
enough fuel for any run the claims consider). -/
def dij_loop (m : Mat) : Nat → SPState → List (Dist × Nat) →
    Option (List Dist × List (List (List Nat)))
  | 0, _, _ => none
  | fuel + 1, st, heap =>
    match heapMin heap with
    | none => some (st.dp, st.paths)
    | some e =>
      if wget st.dp e.2 < e.1 then dij_loop m fuel st (heap.erase e)
      else
        let r := (List.range m.length).foldl (dij_visit m e.2)
          (st, heap.erase e)
        dij_loop m fuel r.1 r.2

/-- The largest entry of the matrix (at least `0`): every finite distance
the run manipulates is bounded by `n` of these. -/
def maxW (m : Mat) : Int :=
  m.foldl (fun acc row => row.foldl max acc) 0

def dij_fuel (m : Mat) : Nat :=
  m.length * (m.length * (maxW m).toNat + 2) + 2

/-- `dijkstra`: initial heap `[(0, source)]`, initial state as the other
engines. -/
def dijkstra (m : Mat) (s : Nat) :
    Option (List Dist × List (List (List Nat))) :=
  dij_loop m (dij_fuel m) (sp_init m.length s) [((0 : Dist), s)]

/-! ## CycleDetector (`src/lib/cycles.py`) -/

/-- `shift(arr, n) = arr[-n:] + arr[:-n]`: rotate right by `n` (for `n = 0`
Python returns `arr[0:] + arr[:0] = arr`, matching `arr.length - 0`
below). -/
def shift (arr : List Nat) (n : Nat) : List Nat :=
  arr.drop (arr.length - n) ++ arr.take (arr.length - n)

/-- The neighbors scanned by the DFS:
`for neighbor, has_edge in enumerate(adj_matrix[node]): if has_edge`. -/
def rowNeighbors (m : Mat) (node : Nat) : List Nat :=
  (List.range (m.getD node []).length).filter
    fun j => decide ((m.getD node []).getD j 0 ≠ 0)

/-- The recursive DFS of `find_cycles`.  In the source, `visited` and
`stack` are passed as copies (`visited.copy()`, `stack.copy()`), so only
the shared `cycles` accumulator flows back out of a call; `stack` is kept
as a list here (the source uses a set holding the same elements).  `fuel`
bounds the recursion depth; the top-level call supplies enough for any
square matrix. -/
def dfs_outer (m : Mat) : Nat → Nat → Nat → List Nat → List Nat →
    List (List Nat) → List (List Nat)
  | 0, _, _, _, _, cycles => cycles
  | fuel + 1, node, start, visited, stack, cycles =>
    if node ∈ stack then
      if node = start then
        if ∃ i ∈ List.range visited.length, shift visited i ∈ cycles then
          cycles
        else cycles ++ [visited]
      else cycles
    else if node ∈ visited then cycles
    else
      (rowNeighbors m node).foldl
        (fun acc nb =>
          dfs_outer m fuel nb start (visited ++ [node]) (stack ++ [node]) acc)
        cycles

/-- The open cycles accumulated over all start vertices
(`for start_node in range(len(adj_matrix)): dfs(...)`). -/
def recorded_cycles (m : Mat) : List (List Nat) :=
  (List.range m.length).foldl
    (fun acc v => dfs_outer m (m.length + 1) v v [] [] acc) []

/-- `find_cycles`: every recorded cycle closed with its start vertex
(`cycle + [cycle[0]]`). -/
def find_cycles (m : Mat) : List (List Nat) :=
  (recorded_cycles m).map fun c => c ++ [c.getD 0 0]

/-! ## AcyclicReducer (`remove_min_edges_to_acyclic` and friends) -/

/-- The adjacency-set representation built at the start of
`remove_min_edges_to_acyclic`: `graph = {i: set()}` filled with every `j`
such that `adj_matrix[i][j]` is nonzero (kept as an ascending list). -/
def build_graph (m : Mat) : List (List Nat) :=
  (List.range m.length).map fun i =>
    (List.range m.length).filter fun j => decide (entry m i j ≠ 0)

/-- Edge relation of the adjacency-set representation. -/
def EdgeG (G : List (List Nat)) (u v : Nat) : Prop := v ∈ G.getD u []

instance (G : List (List Nat)) (u v : Nat) : Decidable (EdgeG G u v) := by
  unfold EdgeG; infer_instance

/-- The shared state of the nested `find_cycles` detector inside
`remove_min_edges_to_acyclic`: the recursion path, the global visited set
(kept as a list in insertion order) and the accumulated `cycles_found`. -/
structure InnerSt where
  path : List Nat
  visited : List Nat
  found : List (List Nat)

/-- Its recursive DFS: a hit on the current path records
`path[path.index(node):] + [node]`; a hit on `visited` returns; otherwise
the node is pushed, all its neighbors explored, and the path popped. -/
def dfs_inner (G : List (List Nat)) : Nat → Nat → InnerSt → InnerSt
  | 0, _, st => st
  | fuel + 1, node, st =>
    if node ∈ st.path then
      { st with
        found := st.found ++ [st.path.drop (st.path.indexOf node) ++ [node]] }
    else if node ∈ st.visited then st
    else
      let st1 : InnerSt := ⟨st.path ++ [node], st.visited ++ [node], st.found⟩
      let st2 := (G.getD node []).foldl (fun s nb => dfs_inner G fuel nb s) st1
      ⟨st2.path.dropLast, st2.visited, st2.found⟩

/-- The list of cycles found by the nested detector
(`for v in graph: dfs(v)`), used by the reducer only as an emptiness
test. -/
def inner_find_cycles (G : List (List Nat)) : List (List Nat) :=
  ((List.range G.length).foldl (fun s v => dfs_inner G (G.length + 1) v s)
    ⟨[], [], []⟩).found

/-- Consecutive pairs scanned by the edge-count builder
(`for i in range(len(cycle) - 1): edge = (cycle[i], cycle[i + 1])`). -/
def cyclePairs (c : List Nat) : List (Nat × Nat) := c.zip c.tail

/-- `edge_counts[edge] += 1` on a `defaultdict(int)`: an existing key is
bumped in place, a new key is appended (dicts preserve insertion order). -/
def bump_edge : List ((Nat × Nat) × Nat) → Nat × Nat →
    List ((Nat × Nat) × Nat)
  | [], e => [(e, 1)]
  | p :: rest, e =>
    if p.1 = e then (p.1, p.2 + 1) :: rest else p :: bump_edge rest e

/-- The `edge_counts` table built from the supplied cycle list. -/
def build_counts (cycles : List (List Nat)) : List ((Nat × Nat) × Nat) :=
  cycles.foldl (fun counts c => (cyclePairs c).foldl bump_edge counts) []

/-- `max(edge_counts, key=edge_counts.get)`: the first key attaining the
maximal count in iteration (= insertion) order; `none` models the
`ValueError` that `max` raises on an empty dict. -/
def counts_max : List ((Nat × Nat) × Nat) → Option (Nat × Nat)
  | [] => none
  | p :: rest =>
    some ((rest.foldl (fun best q => if best.2 < q.2 then q else best) p).1)

/-- `del edge_counts[edge]` (the table holds at most one entry per key). -/
def erase_key (counts : List ((Nat × Nat) × Nat)) (e : Nat × Nat) :
    List ((Nat × Nat) × Nat) :=
  counts.eraseP fun p => decide (p.1 = e)

/-- `graph[edge_to_remove[0]].remove(edge_to_remove[1])`. -/
def remove_edge (G : List (List Nat)) (e : Nat × Nat) : List (List Nat) :=
  G.set e.1 ((G.getD e.1 []).erase e.2)

/-- The `while find_cycles():` loop of `remove_min_edges_to_acyclic`:
while the adjacency-set graph still has a cycle, remove the edge of
highest remaining count from the graph and delete it from the table.
Fuel exhaustion and `max` on an empty table both yield `none`. -/
def reduce_loop : Nat → List (List Nat) → List ((Nat × Nat) × Nat) →
    List (Nat × Nat) → Option (List (Nat × Nat))
  | 0, _, _, _ => none
  | fuel + 1, G, counts, removed =>
    if inner_find_cycles G = [] then some removed
    else
      match counts_max counts with
      | none => none
      | some e =>
        reduce_loop fuel (remove_edge G e) (erase_key counts e)
          (removed ++ [e])

/-- `remove_min_edges_to_acyclic(adj_matrix, cycles)`; the removed set is
kept as a list in removal order. -/
def remove_min_edges_to_acyclic (m : Mat) (cycles : List (List Nat)) :
    Option (List (Nat × Nat)) :=
  reduce_loop (build_counts cycles).length.succ (build_graph m)
    (build_counts cycles) []

/-- `remove_edges_from_matrix`: `adj_matrix[v][u] = 0` on a deep copy for
every removed edge `(v, u)`. -/
def remove_edges_from_matrix (m : Mat) (removed : List (Nat × Nat)) : Mat :=
  removed.foldl (fun mm e => setEntry mm e.1 e.2 0) m

/-- `convert_to_acyclic(adj_matrix)`: enumerate the cycles, remove a
feedback edge set, zero the removed entries out of a copy. -/
def convert_to_acyclic (m : Mat) : Option Mat :=
  (remove_min_edges_to_acyclic m (find_cycles m)).map
    (remove_edges_from_matrix m)

/-! ## TopologicalOrderer (`topo.py`) -/

/-- `is_topo_sorted`: no edge `(i, j)` with `j < i`
(`for i in range(n): for j in range(i): if adj_matrix[i][j] != 0`). -/
def is_topo_sorted (m : Mat) : Bool :=
  (List.range m.length).all fun i =>
    (List.range i).all fun j => decide (entry m i j = 0)

/-- The in-degree table of `topo_sort_order`
(`in_degree[v] += 1` for every nonzero entry `(u, v)`): the number of
nonzero entries in column `v`, kept as Python ints. -/
def in_degrees (m : Mat) : List Int :=
  (List.range m.length).map fun v =>
    (((List.range m.length).filter
      fun u => decide (entry m u v ≠ 0)).length : Int)

/-- One iteration of `for v in range(n)` inside Kahn's while loop: a
nonzero entry `(u, v)` decrements `in_degree[v]`, and `v` is enqueued when
the decremented value is zero. -/
def kahn_visit (m : Mat) (u : Nat) (st : List Int × List Nat) (v : Nat) :
    List Int × List Nat :=
  if entry m u v ≠ 0 then
    let c2 := st.1.set v (st.1.getD v 0 - 1)
    if c2.getD v 0 = 0 then (c2, st.2 ++ [v]) else (c2, st.2)
  else st

/-- The `while queue:` loop of `topo_sort_order`: pop the queue head,
append it to the order, scan its row.  `fuel` bounds the iteration count;
`none` marks exhaustion (the top-level call supplies enough fuel for any
run that the claims consider). -/
def kahn_loop (m : Mat) : Nat → List Int → List Nat → List Nat →
    Option (List Nat)
  | 0, _, _, _ => none
  | fuel + 1, cnt, queue, order =>
    match queue with
    | [] => some order
    | u :: rest =>
      let st := (List.range m.length).foldl (kahn_visit m u) (cnt, rest)
      kahn_loop m fuel st.1 st.2 (order ++ [u])

/-- `topo_sort_order`: Kahn's algorithm.  The queue is seeded with the
in-degree-zero vertices in ascending order; the result is `None` unless
the final order covers every vertex. -/
def topo_sort_order (m : Mat) : Option (List Nat) :=
  match kahn_loop m (m.length + 1) (in_degrees m)
      ((List.range m.length).filter fun i => (in_degrees m).getD i 0 = 0)
      [] with
  | none => none
  | some order => if order.length = m.length then some order else none

/-- `index_map = {topo_order[i]: i for i in range(n)}` followed by a
lookup: the last position of `v` in the order (later dict insertions win);
`0` stands in for the `KeyError` a vertex absent from the order would
raise, which cannot happen when the order is complete. -/
def index_map (order : List Nat) (v : Nat) : Nat :=
  order.enum.foldl (fun acc p => if p.2 = v then p.1 else acc) 0

/-- `rearrange_adj_matrix`: write `adj_matrix[i][j]` into the cell
`(index_map[i], index_map[j])` of a fresh all-zero `n × n` matrix. -/
def rearrange_adj_matrix (m : Mat) (order : List Nat) : Mat :=
  (List.range m.length).foldl
    (fun sm i => (List.range m.length).foldl
      (fun sm j => setEntry sm (index_map order i) (index_map order j)
        (entry m i j)) sm)
    (List.replicate m.length (List.replicate m.length 0))

/-- `topo_sort`: compute the order, rearrange the matrix.  The `none`
propagation models the `TypeError` that `rearrange_adj_matrix` raises
when `topo_sort_order` returned `None`. -/
def topo_sort (m : Mat) : Option Mat :=
  (topo_sort_order m).map (rearrange_adj_matrix m)

/-! ## The DiGraph facade -/

/-- The fields `DiGraph.__init__` computes eagerly from an adjacency
matrix. -/
structure DiGraph where
  adj_matrix : Mat
  cycles : List (List Nat)
  incidence_matrix : Mat
  is_topologically_sorted : Bool
deriving DecidableEq

/-- `DiGraph(adj_matrix)`: every derived field is recomputed. -/
def mkDiGraph (m : Mat) : DiGraph :=
  ⟨m, find_cycles m, adjacency_to_incidence m, is_topo_sorted m⟩

/-- `DiGraph.make_acyclic`: returns `self` when the cycle list is empty.
Otherwise the source evaluates `convert_to_acyclic(self.adj_matrix,
self.cycles)` — a two-argument call to the one-parameter
`convert_to_acyclic` of `cycles.py`, which raises `TypeError` before any
reduction runs; the crash is modeled as `none`. -/
def make_acyclic (g : DiGraph) : Option DiGraph :=
  if g.cycles = [] then some g else none

/-- The observable outcomes of `DiGraph.topological_sort`:
`notAcyclic` is the `raise Exception("Graph is not acyclic")` path,
`crashed` the `TypeError` that `rearrange_adj_matrix` raises when
`topo_sort_order` returned `None`. -/
inductive TopoResult where
  | notAcyclic : TopoResult
  | crashed : TopoResult
  | ok : DiGraph → TopoResult
deriving DecidableEq

/-- `DiGraph.topological_sort`: raise if the cycle list is non-empty,
return `self` if already sorted, otherwise build a new graph from
`topo_sort(self.adj_matrix)`. -/
def topological_sort (g : DiGraph) : TopoResult :=
  if g.cycles ≠ [] then .notAcyclic
  else if g.is_topologically_sorted then .ok g
  else
    match topo_sort g.adj_matrix with
    | none => .crashed
    | some m2 => .ok (mkDiGraph m2)

end GraphAnalyzer

namespace GraphAnalyzer

/-! ## Claim theorems for the matrix-conversion component -/

/-- C3 counterexample: the round trip `toAdjacency (toIncidence m)` does not
return `m` for every adjacency matrix.  The matrix `[[0, -5], [0, 0]]`
(a single edge `0 → 1` of negative weight) comes back as `[[0, 0], [5, 0]]`,
because the signed incidence encoding makes the negative source entry look
like the target and the positive target entry look like the source. -/
theorem c3_roundtrip_counterexample :
    incidence_to_adjacency (adjacency_to_incidence [[0, -5], [0, 0]])
      ≠ [[0, -5], [0, 0]] := by decide

/-- C3 amended: for every square adjacency matrix whose stored entries are
all non-negative, converting to an incidence matrix and back yields the same
matrix: `toAdjacency (toIncidence m) = m`. -/
theorem c3_roundtrip_nonneg (m : Mat) (hsq : IsSquare m)
    (hnn : ∀ i, i < m.length → ∀ j, j < (m.getD i []).length → 0 ≤ entry m i j) :
    incidence_to_adjacency (adjacency_to_incidence m) = m :=
  incidence_roundtrip m hsq (nonneg_entries_of_forall_lt hnn)

/-- Witness for C3 at the concrete matrix `[[0, 4], [0, 0]]`. -/
theorem c3_roundtrip_witness :
    IsSquare [[0, 4], [0, 0]] ∧
    incidence_to_adjacency (adjacency_to_incidence [[0, 4], [0, 0]])
      = [[0, 4], [0, 0]] :=
  ⟨by decide, c3_roundtrip_nonneg [[0, 4], [0, 0]] (by decide) (by decide)⟩

/-- C4: contrary to the claim, `dijkstra` and `floyd_warshall` do not leave
the caller-supplied matrix unchanged: their preprocessing loops overwrite
every off-diagonal zero of the argument with the infinity sentinel in place.
On `[[0, 1], [0, 0]]` the entry `(1, 0)` becomes `⊤`, so the matrix visible
to the caller after the call differs from the one passed in. -/
theorem c4_mutation_of_caller_matrix :
    dijkstra_matrix_after [[0, 1], [0, 0]] ≠ liftMat [[0, 1], [0, 0]] ∧
    floyd_warshall_matrix_after [[0, 1], [0, 0]] ≠ liftMat [[0, 1], [0, 0]] := by
  decide

/-! ## Closed walks and simple cycles over an edge relation -/

/-- A cycle presented as a list: a nonempty vertex list with consecutive
edges and a closing edge from the last vertex back to the head (this is the
open form, without the repeated endpoint). -/
def IsCycleList (r : Nat → Nat → Prop) (c : List Nat) : Prop :=
  c ≠ [] ∧ List.Chain' r c ∧
    ∀ a b, c.head? = some a → c.getLast? = some b → r b a

/-- The graph of the relation `r` contains a cycle: some vertex reaches
itself through at least one edge. -/
def HasCycleRel (r : Nat → Nat → Prop) : Prop :=
  ∃ v, Relation.TransGen r v v

theorem IsCycleList.hasCycle {r : Nat → Nat → Prop} {c : List Nat}
    (h : IsCycleList r c) : HasCycleRel r := by
  obtain ⟨hne, hch, hcl⟩ := h
  obtain ⟨a, t, rfl⟩ : ∃ a t, c = a :: t := by
    cases c with
    | nil => exact absurd rfl hne
    | cons a t => exact ⟨a, t, rfl⟩
  have hchain : List.Chain r a t := hch
  have hrt : Relation.ReflTransGen r a ((a :: t).getLast (by simp)) :=
    List.relationReflTransGen_of_exists_chain t hchain rfl
  refine ⟨a, Relation.TransGen.tail' hrt (hcl a _ rfl ?_)⟩
  exact List.getLast?_eq_getLast _ _

theorem chain'_rel_get {r : Nat → Nat → Prop} {c : List Nat}
    (h : List.Chain' r c) {i : Nat} (hi : i + 1 < c.length) :
    r (c.get ⟨i, by omega⟩) (c.get ⟨i + 1, hi⟩) := by
  have := List.chain'_iff_get.mp h i (by omega)
  exact this

theorem hasCycle_cycleList {r : Nat → Nat → Prop} (h : HasCycleRel r) :
    ∃ c, IsCycleList r c := by
  obtain ⟨v, hv⟩ := h
  obtain ⟨w, hvw, hwv⟩ := Relation.TransGen.head'_iff.mp hv
  obtain ⟨l, hchain, hlast⟩ := List.exists_chain_of_relationReflTransGen hwv
  set full : List Nat := v :: w :: l with hfull
  have hfullchain : List.Chain' r full := List.Chain.cons hvw hchain
  have hfulllen : full.length = l.length + 2 := by simp [hfull]
  have hlen0 : full.dropLast.length = l.length + 1 := by
    rw [List.length_dropLast]
    omega
  refine ⟨full.dropLast, ?_, ?_, ?_⟩
  · intro hemp
    rw [hemp] at hlen0
    simp at hlen0
  · exact hfullchain.prefix (List.dropLast_prefix _)
  · intro a b ha hb
    have ha2 : a = v := by
      rw [List.head?_eq_getElem?] at ha
      have h0 : 0 < full.dropLast.length := by omega
      rw [List.getElem?_eq_getElem h0] at ha
      have hav := Option.some.inj ha
      rw [← hav]
      have h0f : 0 < full.length - 1 := by omega
      rw [List.getElem_dropLast]
      rfl
    have hb2 : b = full.get ⟨l.length, by omega⟩ := by
      rw [List.getLast?_eq_getElem?] at hb
      have hL : full.dropLast.length - 1 < full.dropLast.length := by omega
      rw [List.getElem?_eq_getElem hL] at hb
      have hbv := Option.some.inj hb
      rw [← hbv, List.getElem_dropLast]
      congr 1
      rw [hlen0]
      omega
    have hstep : r (full.get ⟨l.length, by omega⟩)
        (full.get ⟨l.length + 1, by omega⟩) :=
      chain'_rel_get hfullchain (by omega)
    have hvlast : full.get ⟨l.length + 1, by omega⟩ = v := by
      have h1 : full.get ⟨l.length + 1, by omega⟩
          = (w :: l).get ⟨l.length, by simp⟩ := rfl
      have h2 : (w :: l).get ⟨l.length, by simp⟩ = (w :: l).getLast (by simp) := by
        rw [List.getLast_eq_getElem]
        rfl
      rw [h1, h2, hlast]
    rw [ha2, hb2]
    rw [hvlast] at hstep
    exact hstep

theorem get_take_drop (c : List Nat) (i k t : Nat)
    (ht : t < ((c.drop i).take k).length) (ht2 : i + t < c.length) :
    ((c.drop i).take k).get ⟨t, ht⟩ = c.get ⟨i + t, ht2⟩ := by
  simp only [List.get_eq_getElem]
  rw [List.getElem_take, List.getElem_drop]

theorem exists_nodup_cycleList {r : Nat → Nat → Prop} :
    ∀ (n : Nat) (c : List Nat), c.length ≤ n → IsCycleList r c →
      ∃ c2, IsCycleList r c2 ∧ c2.Nodup := by
  intro n
  induction n with
  | zero =>
    intro c hlen hc
    have : c = [] := List.length_eq_zero.mp (Nat.le_zero.mp hlen)
    exact absurd this hc.1
  | succ n ih =>
    intro c hlen hc
    by_cases hnd : c.Nodup
    · exact ⟨c, hc, hnd⟩
    · have hdup : ∃ i j : Fin c.length, i < j ∧ c.get i = c.get j := by
        rw [List.nodup_iff_injective_get] at hnd
        simp only [Function.Injective] at hnd
        push_neg at hnd
        obtain ⟨a, b, hab, hne⟩ := hnd
        rcases Nat.lt_or_ge a.val b.val with hlt | hge
        · exact ⟨a, b, hlt, hab⟩
        · have hba : b < a := by
            rcases Nat.eq_or_lt_of_le hge with heq | hlt
            · exact absurd (Fin.ext heq.symm) hne
            · exact hlt
          exact ⟨b, a, hba, hab.symm⟩
      obtain ⟨i, j, hij, heq⟩ := hdup
      set c2 := (c.drop i.val).take (j.val - i.val) with hc2
      have hjlt : j.val < c.length := j.isLt
      have hlen2 : c2.length = j.val - i.val := by
        rw [hc2, List.length_take, List.length_drop]
        omega
      have hget2 : ∀ (t : Nat) (ht : t < c2.length),
          c2.get ⟨t, ht⟩ = c.get ⟨i.val + t, by omega⟩ := fun t ht =>
        get_take_drop c i.val (j.val - i.val) t ht (by omega)
      refine ih c2 (by omega) ⟨?_, ?_, ?_⟩
      · intro hemp
        have := congrArg List.length hemp
        rw [hlen2] at this
        simp at this
        omega
      · rw [hc2]
        have hsuf := hc.2.1.suffix (List.drop_suffix i.val c)
        exact hsuf.prefix (List.take_prefix _ _)
      · intro a b ha hb
        have hlen2pos : 0 < c2.length := by omega
        have ha2 : a = c.get ⟨i.val, by omega⟩ := by
          rw [List.head?_eq_getElem?, List.getElem?_eq_getElem hlen2pos] at ha
          have hav := Option.some.inj ha
          rw [← hav]
          exact hget2 0 hlen2pos
        have hb2 : b = c.get ⟨j.val - 1, by omega⟩ := by
          have hL : c2.length - 1 < c2.length := by omega
          rw [List.getLast?_eq_getElem?, List.getElem?_eq_getElem hL] at hb
          have hbv := Option.some.inj hb
          rw [← hbv]
          have hL2 : c2.get ⟨c2.length - 1, hL⟩
              = c.get ⟨i.val + (c2.length - 1), by omega⟩ :=
            hget2 (c2.length - 1) hL
          have hidx : c.get ⟨i.val + (c2.length - 1), by omega⟩
              = c.get ⟨j.val - 1, by omega⟩ :=
            congrArg c.get (Fin.ext
              (show i.val + (c2.length - 1) = j.val - 1 by omega))
          exact hL2.trans hidx
        have hstep : r (c.get ⟨j.val - 1, by omega⟩) (c.get j) := by
          have h1 : (j.val - 1) + 1 < c.length := by omega
          have hrel := chain'_rel_get hc.2.1 h1
          have hj1 : (⟨(j.val - 1) + 1, h1⟩ : Fin c.length) = j :=
            Fin.ext (show (j.val - 1) + 1 = j.val by omega)
          rw [hj1] at hrel
          exact hrel
        rw [ha2, hb2]
        have hii : c.get i = c.get ⟨i.val, by omega⟩ :=
          congrArg c.get (Fin.ext rfl)
        have hfinal : c.get j = c.get ⟨i.val, by omega⟩ := heq.symm.trans hii
        exact hfinal ▸ hstep

/-! ## Rotation lemmas and the dedup invariant of `find_cycles` -/

theorem shift_zero (c : List Nat) : shift c 0 = c := by
  simp [shift]

theorem shift_of_length_le {c : List Nat} {i : Nat} (h : c.length ≤ i) :
    shift c i = c := by
  simp [shift, Nat.sub_eq_zero_of_le h]

theorem shift_eq_rotate (c : List Nat) (i : Nat) :
    shift c i = c.rotate (c.length - i) := by
  rw [List.rotate_eq_drop_append_take (Nat.sub_le _ _)]
  rfl

theorem shift_shift (b : List Nat) (i : Nat) :
    shift (shift b i) (b.length - i) = b := by
  rw [shift_eq_rotate, shift_eq_rotate, List.length_rotate, List.rotate_rotate]
  have h : b.length - i + (b.length - (b.length - i)) = b.length := by omega
  rw [h, List.rotate_length]

theorem shift_inv {a b : List Nat} {i : Nat} (h : shift b i = a) :
    ∃ j, shift a j = b :=
  ⟨b.length - i, by rw [← h]; exact shift_shift b i⟩

/-- The relation between an earlier and a later recorded cycle: no rotation
of the later one equals the earlier one (this is exactly what the membership
check before `cycles.append(cycle)` guarantees). -/
def NotRotOf (a b : List Nat) : Prop := ∀ i, shift b i ≠ a

theorem dfs_outer_pairwise (m : Mat) :
    ∀ (fuel node start : Nat) (visited stack : List Nat)
      (cycles : List (List Nat)),
      stack = visited → cycles.Pairwise NotRotOf →
      (dfs_outer m fuel node start visited stack cycles).Pairwise NotRotOf := by
  intro fuel
  induction fuel with
  | zero =>
    intro node start visited stack cycles _ h
    exact h
  | succ fuel ih =>
    intro node start visited stack cycles hsv h
    simp only [dfs_outer]
    by_cases h1 : node ∈ stack
    · rw [if_pos h1]
      by_cases h2 : node = start
      · rw [if_pos h2]
        by_cases h3 : ∃ i ∈ List.range visited.length, shift visited i ∈ cycles
        · rw [if_pos h3]; exact h
        · rw [if_neg h3]
          rw [List.pairwise_append]
          refine ⟨h, List.pairwise_singleton _ _, ?_⟩
          intro a ha b hb
          have hbv : b = visited := List.mem_singleton.mp hb
          rw [hbv]
          intro i heq
          have hvne : visited ≠ [] := by
            intro hemp
            rw [hsv, hemp] at h1
            cases h1
          by_cases hi : i < visited.length
          · exact h3 ⟨i, List.mem_range.mpr hi, heq ▸ ha⟩
          · have hva : visited = a := by
              rw [← heq, shift_of_length_le (Nat.le_of_not_lt hi)]
            have hlen : 0 < visited.length :=
              List.length_pos.mpr hvne
            exact h3 ⟨0, List.mem_range.mpr hlen, by rw [shift_zero, hva]; exact ha⟩
      · rw [if_neg h2]; exact h
    · rw [if_neg h1]
      by_cases h4 : node ∈ visited
      · rw [if_pos h4]; exact h
      · rw [if_neg h4]
        have hfold : ∀ (l : List Nat) (acc : List (List Nat)),
            acc.Pairwise NotRotOf →
            (l.foldl (fun acc nb => dfs_outer m fuel nb start
              (visited ++ [node]) (stack ++ [node]) acc) acc).Pairwise NotRotOf := by
          intro l
          induction l with
          | nil => exact fun acc ha => ha
          | cons x t iht =>
            intro acc ha
            exact iht _ (ih x start (visited ++ [node]) (stack ++ [node]) acc
              (by rw [hsv]) ha)
        exact hfold _ _ h

theorem mem_rowNeighbors {m : Mat} {node j : Nat} :
    j ∈ rowNeighbors m node ↔ Edge m node j := by
  unfold rowNeighbors Edge entry
  rw [List.mem_filter, List.mem_range]
  constructor
  · rintro ⟨_, h2⟩
    exact of_decide_eq_true h2
  · intro h
    have hj : j < (m.getD node []).length := by
      by_contra hj
      exact h (List.getD_eq_default _ _ (Nat.le_of_not_lt hj))
    exact ⟨hj, decide_eq_true h⟩

theorem foldl_append_only {α : Type}
    {f : List (List Nat) → α → List (List Nat)}
    (hf : ∀ acc x, ∃ t, f acc x = acc ++ t) :
    ∀ (l : List α) (acc : List (List Nat)), ∃ t, l.foldl f acc = acc ++ t := by
  intro l
  induction l with
  | nil => exact fun acc => ⟨[], by simp⟩
  | cons x xs ih =>
    intro acc
    obtain ⟨t1, ht1⟩ := hf acc x
    obtain ⟨t2, ht2⟩ := ih (f acc x)
    exact ⟨t1 ++ t2, by rw [List.foldl_cons, ht2, ht1, List.append_assoc]⟩

theorem dfs_outer_append (m : Mat) :
    ∀ (fuel node start : Nat) (visited stack : List Nat)
      (cycles : List (List Nat)),
      ∃ t, dfs_outer m fuel node start visited stack cycles = cycles ++ t := by
  intro fuel
  induction fuel with
  | zero =>
    intro node start visited stack cycles
    exact ⟨[], by simp [dfs_outer]⟩
  | succ fuel ih =>
    intro node start visited stack cycles
    simp only [dfs_outer]
    by_cases h1 : node ∈ stack
    · rw [if_pos h1]
      by_cases h2 : node = start
      · rw [if_pos h2]
        by_cases h3 : ∃ i ∈ List.range visited.length, shift visited i ∈ cycles
        · rw [if_pos h3]; exact ⟨[], by simp⟩
        · rw [if_neg h3]; exact ⟨[visited], rfl⟩
      · rw [if_neg h2]; exact ⟨[], by simp⟩
    · rw [if_neg h1]
      by_cases h4 : node ∈ visited
      · rw [if_pos h4]; exact ⟨[], by simp⟩
      · rw [if_neg h4]
        exact foldl_append_only (fun acc nb => ih nb start (visited ++ [node])
          (stack ++ [node]) acc) _ cycles

theorem dfs_outer_mem (m : Mat) {fuel node start : Nat}
    {visited stack : List Nat} {cycles : List (List Nat)} {c : List Nat}
    (h : c ∈ cycles) :
    c ∈ dfs_outer m fuel node start visited stack cycles := by
  obtain ⟨t, ht⟩ := dfs_outer_append m fuel node start visited stack cycles
  rw [ht]
  exact List.mem_append_left _ h

theorem foldl_preserve {α β : Type} {P : β → Prop} {f : β → α → β}
    {l : List α} (hf : ∀ acc, P acc → ∀ x ∈ l, P (f acc x)) :
    ∀ acc, P acc → P (l.foldl f acc) := by
  induction l with
  | nil => exact fun acc h => h
  | cons x xs ih =>
    intro acc h
    exact ih (fun acc2 h2 y hy => hf acc2 h2 y (List.mem_cons_of_mem _ hy))
      (f acc x) (hf acc h x (List.mem_cons_self _ _))

/-- The invariant that holds at every recursive call of the DFS: `visited`
is a path from `start` to the predecessor of `node`. -/
def DfsCallInv (m : Mat) (node start : Nat) (visited : List Nat) : Prop :=
  visited = [] ∧ node = start ∨
    visited ≠ [] ∧ visited.head? = some start ∧
      List.Chain' (Edge m) visited ∧ ∀ b ∈ visited.getLast?, Edge m b node

theorem dfs_outer_sound (m : Mat) :
    ∀ (fuel node start : Nat) (visited stack : List Nat)
      (cycles : List (List Nat)),
      stack = visited → DfsCallInv m node start visited →
      (∀ c ∈ cycles, IsCycleList (Edge m) c) →
      ∀ c ∈ dfs_outer m fuel node start visited stack cycles,
        IsCycleList (Edge m) c := by
  intro fuel
  induction fuel with
  | zero =>
    intro node start visited stack cycles _ _ hall
    exact hall
  | succ fuel ih =>
    intro node start visited stack cycles hsv hinv hall
    simp only [dfs_outer]
    by_cases h1 : node ∈ stack
    · rw [if_pos h1]
      by_cases h2 : node = start
      · rw [if_pos h2]
        by_cases h3 : ∃ i ∈ List.range visited.length, shift visited i ∈ cycles
        · rw [if_pos h3]; exact hall
        · rw [if_neg h3]
          intro c hc
          rcases List.mem_append.mp hc with hc | hc
          · exact hall c hc
          · have hcv : c = visited := List.mem_singleton.mp hc
            subst hcv
            rcases hinv with ⟨hemp, _⟩ | ⟨hne, hhead, hchain, hclose⟩
            · rw [hsv, hemp] at h1
              cases h1
            · refine ⟨hne, hchain, ?_⟩
              intro a b ha hb
              have ha2 : a = start := by
                rw [hhead] at ha
                exact (Option.some.inj ha).symm
              have hb2 := hclose b hb
              rw [ha2, ← h2]
              exact hb2
      · rw [if_neg h2]; exact hall
    · rw [if_neg h1]
      by_cases h4 : node ∈ visited
      · rw [if_pos h4]; exact hall
      · rw [if_neg h4]
        refine @foldl_preserve _ _
          (fun acc => ∀ c ∈ acc, IsCycleList (Edge m) c) _ _ ?_ cycles hall
        intro acc hacc nb hnb
        refine ih nb start (visited ++ [node]) (stack ++ [node]) acc
          (by rw [hsv]) ?_ hacc
        right
        refine ⟨by simp, ?_, ?_, ?_⟩
        · rw [List.head?_append]
          rcases hinv with ⟨hemp, hns⟩ | ⟨hne, hhead, _, _⟩
          · rw [hemp, hns]
            rfl
          · rw [hhead]
            rfl
        · rw [List.chain'_append]
          rcases hinv with ⟨hemp, _⟩ | ⟨_, _, hchain, hclose⟩
          · rw [hemp]
            exact ⟨List.chain'_nil, List.chain'_singleton _, by simp⟩
          · refine ⟨hchain, List.chain'_singleton _, ?_⟩
            intro x hx y hy
            have hy2 : y = node := by
              rw [List.head?_cons] at hy
              exact (Option.some.inj hy).symm
            rw [hy2]
            exact hclose x hx
        · intro b hb
          rw [List.getLast?_concat] at hb
          have hb2 : b = node := (Option.some.inj hb).symm
          rw [hb2]
          exact mem_rowNeighbors.mp hnb

theorem recorded_cycles_sound (m : Mat) :
    ∀ c ∈ recorded_cycles m, IsCycleList (Edge m) c := by
  unfold recorded_cycles
  refine @foldl_preserve _ _
    (fun acc => ∀ c ∈ acc, IsCycleList (Edge m) c) _ _ ?_ []
    (by intro c hc; cases hc)
  intro acc hacc v _
  exact dfs_outer_sound m (m.length + 1) v v [] [] acc rfl (Or.inl ⟨rfl, rfl⟩) hacc

/-- If `find_cycles` returns a nonempty list, the matrix really has a
cycle. -/
theorem hasCycle_of_find_cycles_ne {m : Mat} (h : find_cycles m ≠ []) :
    HasCycleRel (Edge m) := by
  unfold find_cycles at h
  have hrec : recorded_cycles m ≠ [] := by
    intro hemp
    rw [hemp] at h
    exact h rfl
  obtain ⟨c, hc⟩ := List.exists_mem_of_ne_nil _ hrec
  exact (recorded_cycles_sound m c hc).hasCycle

theorem find_cycles_eq_nil_of_acyclic {m : Mat} (h : ¬ HasCycleRel (Edge m)) :
    find_cycles m = [] := by
  by_contra hne
  exact h (hasCycle_of_find_cycles_ne hne)

/-! ### Completeness of `find_cycles`: every simple cycle is recorded up to
rotation -/

theorem head?_eq_get {c : List Nat} (h : 0 < c.length) :
    c.head? = some (c.get ⟨0, h⟩) := by
  rw [List.head?_eq_getElem?, List.getElem?_eq_getElem h]
  rfl

theorem getLast?_eq_get {c : List Nat} (h : 0 < c.length) :
    c.getLast? = some (c.get ⟨c.length - 1, by omega⟩) := by
  rw [List.getLast?_eq_getElem?, List.getElem?_eq_getElem (by omega)]
  rfl

theorem cycle_closing_edge {m : Mat} {c : List Nat}
    (hc : IsCycleList (Edge m) c) (hpos : 0 < c.length) :
    Edge m (c.get ⟨c.length - 1, by omega⟩) (c.get ⟨0, hpos⟩) :=
  hc.2.2 _ _ (head?_eq_get hpos) (getLast?_eq_get hpos)

theorem cycle_vertices_lt {m : Mat} {c : List Nat}
    (hc : IsCycleList (Edge m) c) : ∀ x ∈ c, x < m.length := by
  intro x hx
  obtain ⟨k, hk, hval⟩ := List.mem_iff_getElem.mp hx
  have hpos : 0 < c.length := by omega
  by_cases hlast : k + 1 < c.length
  · have hstep := chain'_rel_get hc.2.1 hlast
    rw [← hval]
    exact hstep.src_lt
  · have hk2 : k = c.length - 1 := by omega
    have hclose := cycle_closing_edge hc hpos
    have heqk : c.get ⟨k, hk⟩ = c.get ⟨c.length - 1, by omega⟩ :=
      congrArg c.get (Fin.ext hk2)
    have hgoal : c.get ⟨k, hk⟩ < m.length := by
      rw [heqk]
      exact hclose.src_lt
    rw [← hval]
    exact hgoal

theorem nodup_lt_length_le {c : List Nat} {n : Nat} (hnd : c.Nodup)
    (hlt : ∀ x ∈ c, x < n) : c.length ≤ n := by
  have h1 : c.toFinset ⊆ Finset.range n := by
    intro x hx
    rw [Finset.mem_range]
    exact hlt x (List.mem_toFinset.mp hx)
  have h2 := Finset.card_le_card h1
  rwa [List.toFinset_card_of_nodup hnd, Finset.card_range] at h2

theorem take_succ_get {c : List Nat} {k : Nat} (hk : k < c.length) :
    c.take k ++ [c.get ⟨k, hk⟩] = c.take (k + 1) := by
  rw [List.take_succ, List.getElem?_eq_getElem hk]
  rfl

theorem get_not_mem_take {c : List Nat} (hnd : c.Nodup) {k : Nat}
    (hk : k < c.length) : c.get ⟨k, hk⟩ ∉ c.take k := by
  intro hmem
  obtain ⟨t, ht, hval⟩ := List.mem_iff_getElem.mp hmem
  have htk : t < k := by
    have h2 := ht
    rw [List.length_take] at h2
    omega
  have htc : t < c.length := by omega
  rw [List.getElem_take] at hval
  have hfin := List.nodup_iff_injective_get.mp hnd
    (show c.get ⟨t, htc⟩ = c.get ⟨k, hk⟩ from hval)
  have := Fin.mk.inj_iff.mp hfin
  omega

theorem foldl_mem_trigger {α : Type}
    {f : List (List Nat) → α → List (List Nat)}
    (hmono : ∀ acc x, ∃ t, f acc x = acc ++ t) {Q : List Nat → Prop}
    {x0 : α} (htrig : ∀ acc, ∃ c, Q c ∧ c ∈ f acc x0) :
    ∀ (l : List α), x0 ∈ l →
      ∀ acc, ∃ c, Q c ∧ c ∈ l.foldl f acc := by
  intro l
  induction l with
  | nil => intro h; cases h
  | cons y ys ih =>
    intro hx0 acc
    rw [List.foldl_cons]
    rcases List.mem_cons.mp hx0 with h | h
    · obtain ⟨c, hQ, hc⟩ := htrig acc
      rw [h] at hc
      obtain ⟨t, ht⟩ := foldl_append_only hmono ys (f acc y)
      exact ⟨c, hQ, by rw [ht]; exact List.mem_append_left _ hc⟩
    · exact ih h (f acc y)

theorem dfs_reaches (m : Mat) {c : List Nat} (hc : IsCycleList (Edge m) c)
    (hnd : c.Nodup) (hpos : 0 < c.length) :
    ∀ (fuel k : Nat), k ≤ c.length → ∀ node : Nat,
      ((∃ hlt : k < c.length, node = c.get ⟨k, hlt⟩) ∨
        (k = c.length ∧ node = c.get ⟨0, hpos⟩)) →
      c.length - k + 1 ≤ fuel →
      ∀ cycles, ∃ c2, (∃ i, shift c i = c2) ∧
        c2 ∈ dfs_outer m fuel node (c.get ⟨0, hpos⟩) (c.take k) (c.take k)
          cycles := by
  intro fuel
  induction fuel with
  | zero =>
    intro k hk node _ hfuel cycles
    omega
  | succ fuel ih =>
    intro k hk node hnode hfuel cycles
    rcases hnode with ⟨hlt, hnodeval⟩ | ⟨hkeq, hnodeval⟩
    · -- interior of the path: the node is fresh, recurse along the cycle
      have hfresh : node ∉ c.take k := by
        rw [hnodeval]
        exact get_not_mem_take hnd hlt
      simp only [dfs_outer]
      rw [if_neg hfresh, if_neg hfresh]
      have hvp : c.take k ++ [node] = c.take (k + 1) := by
        rw [hnodeval]
        exact take_succ_get hlt
      rw [hvp]
      by_cases hnext : k + 1 < c.length
      · -- continue to the next vertex of the cycle
        have hedge : Edge m node (c.get ⟨k + 1, hnext⟩) := by
          rw [hnodeval]
          exact chain'_rel_get hc.2.1 hnext
        refine foldl_mem_trigger
          (fun acc nb => dfs_outer_append m fuel nb _ _ _ acc) ?_
          (rowNeighbors m node) (mem_rowNeighbors.mpr hedge) cycles
        intro acc
        obtain ⟨c2, hq, hmem⟩ := ih (k + 1) (by omega) (c.get ⟨k + 1, hnext⟩)
          (Or.inl ⟨hnext, rfl⟩) (by omega) acc
        exact ⟨c2, hq, hmem⟩
      · -- the next step closes the cycle at its start
        have hk1 : k + 1 = c.length := by omega
        have hkl : k = c.length - 1 := by omega
        have hedge : Edge m node (c.get ⟨0, hpos⟩) := by
          rw [hnodeval]
          have hxx : c.get ⟨k, hlt⟩ = c.get ⟨c.length - 1, by omega⟩ :=
            congrArg c.get (Fin.ext hkl)
          rw [hxx]
          exact cycle_closing_edge hc hpos
        refine foldl_mem_trigger
          (fun acc nb => dfs_outer_append m fuel nb _ _ _ acc) ?_
          (rowNeighbors m node) (mem_rowNeighbors.mpr hedge) cycles
        intro acc
        obtain ⟨c2, hq, hmem⟩ := ih (k + 1) (by omega) (c.get ⟨0, hpos⟩)
          (Or.inr ⟨hk1, rfl⟩) (by omega) acc
        exact ⟨c2, hq, hmem⟩
    · -- the closing call: the node is the start and lies on the stack
      have hcfull : c.take k = c := by
        rw [hkeq]
        exact List.take_length c
      have hmemstack : node ∈ c.take k := by
        rw [hcfull, hnodeval]
        exact List.get_mem _ _ _
      simp only [dfs_outer]
      rw [if_pos hmemstack, if_pos hnodeval]
      rw [hcfull]
      by_cases hrot : ∃ i ∈ List.range c.length, shift c i ∈ cycles
      · rw [if_pos hrot]
        obtain ⟨i, _, hi⟩ := hrot
        exact ⟨shift c i, ⟨i, rfl⟩, hi⟩
      · rw [if_neg hrot]
        exact ⟨c, ⟨0, shift_zero c⟩, List.mem_append_right _
          (List.mem_singleton.mpr rfl)⟩

/-- Completeness: every duplicate-free cycle of the graph has a rotation
among the recorded cycles. -/
theorem recorded_cycles_complete (m : Mat) {c : List Nat}
    (hc : IsCycleList (Edge m) c) (hnd : c.Nodup) :
    ∃ i, shift c i ∈ recorded_cycles m := by
  have hpos : 0 < c.length := List.length_pos.mpr hc.1
  have hlt := cycle_vertices_lt hc
  have hlen : c.length ≤ m.length := nodup_lt_length_le hnd hlt
  have hstart : c.get ⟨0, hpos⟩ ∈ List.range m.length :=
    List.mem_range.mpr (hlt _ (List.get_mem _ _ _))
  unfold recorded_cycles
  have htrig : ∀ acc, ∃ c2, (fun c2 => ∃ i, shift c i = c2) c2 ∧
      c2 ∈ dfs_outer m (m.length + 1) (c.get ⟨0, hpos⟩) (c.get ⟨0, hpos⟩)
        [] [] acc := by
    intro acc
    have h0 := dfs_reaches m hc hnd hpos (m.length + 1) 0 (Nat.zero_le _)
      (c.get ⟨0, hpos⟩) (Or.inl ⟨hpos, rfl⟩) (by omega) acc
    simpa using h0
  have h := @foldl_mem_trigger Nat
    (fun acc v => dfs_outer m (m.length + 1) v v [] [] acc)
    (fun acc v => dfs_outer_append m (m.length + 1) v v [] [] acc)
    (fun c2 => ∃ i, shift c i = c2) (c.get ⟨0, hpos⟩) htrig
    (List.range m.length) hstart []
  obtain ⟨c2, ⟨i, hi⟩, hmem⟩ := h
  exact ⟨i, hi ▸ hmem⟩

/-! ### The inner detector: soundness -/

theorem closed_chain_transGen {r : Nat → Nat → Prop} {w : List Nat} {a : Nat}
    (hch : List.Chain' r w) (hhead : w.head? = some a)
    (hlast : w.getLast? = some a) (hlen : 2 ≤ w.length) :
    Relation.TransGen r a a := by
  obtain ⟨x, t, rfl⟩ : ∃ x t, w = x :: t := by
    cases w with
    | nil => simp at hlen
    | cons x t => exact ⟨x, t, rfl⟩
  have hxa : x = a := by
    rw [List.head?_cons] at hhead
    exact Option.some.inj hhead
  subst hxa
  obtain ⟨b, t2, rfl⟩ : ∃ b t2, t = b :: t2 := by
    cases t with
    | nil => simp at hlen
    | cons b t2 => exact ⟨b, t2, rfl⟩
  obtain ⟨hab, hch2⟩ := List.chain'_cons.mp hch
  have hchainb : List.Chain r b t2 := hch2
  have hlast2 : (b :: t2).getLast (by simp) = x := by
    have h1 : (x :: b :: t2).getLast? = some ((x :: b :: t2).getLast (by simp)) :=
      List.getLast?_eq_getLast _ _
    have h2 := Option.some.inj (h1.symm.trans hlast)
    rw [← h2]
    exact (List.getLast_cons (by simp)).symm
  exact Relation.TransGen.head' hab
    (List.relationReflTransGen_of_exists_chain t2 hchainb hlast2)

theorem edgeG_src_lt {G : List (List Nat)} {u v : Nat} (h : EdgeG G u v) :
    u < G.length := by
  by_contra hu
  unfold EdgeG at h
  rw [List.getD_eq_default _ _ (Nat.le_of_not_lt hu)] at h
  cases h

theorem dfs_inner_path (G : List (List Nat)) :
    ∀ (fuel node : Nat) (st : InnerSt),
      (dfs_inner G fuel node st).path = st.path := by
  intro fuel
  induction fuel with
  | zero => intro node st; rfl
  | succ fuel ih =>
    intro node st
    simp only [dfs_inner]
    by_cases h1 : node ∈ st.path
    · rw [if_pos h1]
    · rw [if_neg h1]
      by_cases h2 : node ∈ st.visited
      · rw [if_pos h2]
      · rw [if_neg h2]
        have hfold : ∀ (l : List Nat) (s : InnerSt),
            (l.foldl (fun s nb => dfs_inner G fuel nb s) s).path = s.path := by
          intro l
          induction l with
          | nil => intro s; rfl
          | cons x t iht => intro s; rw [List.foldl_cons, iht, ih]
        simp [hfold]

theorem dfs_inner_found_append (G : List (List Nat)) :
    ∀ (fuel node : Nat) (st : InnerSt),
      ∃ t, (dfs_inner G fuel node st).found = st.found ++ t := by
  intro fuel
  induction fuel with
  | zero => intro node st; exact ⟨[], by simp [dfs_inner]⟩
  | succ fuel ih =>
    intro node st
    simp only [dfs_inner]
    by_cases h1 : node ∈ st.path
    · rw [if_pos h1]
      exact ⟨_, rfl⟩
    · rw [if_neg h1]
      by_cases h2 : node ∈ st.visited
      · rw [if_pos h2]; exact ⟨[], by simp⟩
      · rw [if_neg h2]
        have hfold : ∀ (l : List Nat) (s : InnerSt),
            ∃ t, (l.foldl (fun s nb => dfs_inner G fuel nb s) s).found
              = s.found ++ t := by
          intro l
          induction l with
          | nil => intro s; exact ⟨[], by simp⟩
          | cons x xs iht =>
            intro s
            obtain ⟨t1, ht1⟩ := ih x s
            obtain ⟨t2, ht2⟩ := iht (dfs_inner G fuel x s)
            exact ⟨t1 ++ t2, by
              rw [List.foldl_cons, ht2, ht1, List.append_assoc]⟩
        obtain ⟨t, ht⟩ := hfold (G.getD node []) ⟨st.path ++ [node],
          st.visited ++ [node], st.found⟩
        exact ⟨t, by simpa using ht⟩

theorem dfs_inner_visited_append (G : List (List Nat)) :
    ∀ (fuel node : Nat) (st : InnerSt),
      ∃ t, (dfs_inner G fuel node st).visited = st.visited ++ t := by
  intro fuel
  induction fuel with
  | zero => intro node st; exact ⟨[], by simp [dfs_inner]⟩
  | succ fuel ih =>
    intro node st
    simp only [dfs_inner]
    by_cases h1 : node ∈ st.path
    · rw [if_pos h1]
      exact ⟨[], by simp⟩
    · rw [if_neg h1]
      by_cases h2 : node ∈ st.visited
      · rw [if_pos h2]; exact ⟨[], by simp⟩
      · rw [if_neg h2]
        have hfold : ∀ (l : List Nat) (s : InnerSt),
            ∃ t, (l.foldl (fun s nb => dfs_inner G fuel nb s) s).visited
              = s.visited ++ t := by
          intro l
          induction l with
          | nil => intro s; exact ⟨[], by simp⟩
          | cons x xs iht =>
            intro s
            obtain ⟨t1, ht1⟩ := ih x s
            obtain ⟨t2, ht2⟩ := iht (dfs_inner G fuel x s)
            exact ⟨t1 ++ t2, by
              rw [List.foldl_cons, ht2, ht1, List.append_assoc]⟩
        obtain ⟨t, ht⟩ := hfold (G.getD node []) ⟨st.path ++ [node],
          st.visited ++ [node], st.found⟩
        refine ⟨[node] ++ t, ?_⟩
        have : st.visited ++ [node] ++ t = st.visited ++ ([node] ++ t) :=
          List.append_assoc _ _ _
        rw [← this]
        simpa using ht

theorem foldl_dfs_inner_found_append (G : List (List Nat)) (fuel : Nat) :
    ∀ (l : List Nat) (s : InnerSt),
      ∃ t, (l.foldl (fun s nb => dfs_inner G fuel nb s) s).found
        = s.found ++ t := by
  intro l
  induction l with
  | nil => intro s; exact ⟨[], by simp⟩
  | cons x xs ihl =>
    intro s
    obtain ⟨t1, ht1⟩ := dfs_inner_found_append G fuel x s
    obtain ⟨t2, ht2⟩ := ihl (dfs_inner G fuel x s)
    exact ⟨t1 ++ t2, by rw [List.foldl_cons, ht2, ht1, List.append_assoc]⟩

theorem getLast?_drop_of_lt {l : List Nat} {idx : Nat} (h : idx < l.length) :
    (l.drop idx).getLast? = l.getLast? := by
  rw [List.getLast?_eq_getElem?, List.getLast?_eq_getElem?, List.length_drop,
    List.getElem?_drop]
  congr 1
  omega

theorem dfs_inner_sound (G : List (List Nat)) :
    ∀ (fuel node : Nat) (st : InnerSt),
      List.Chain' (EdgeG G) st.path →
      (∀ b ∈ st.path.getLast?, EdgeG G b node) →
      (st.found ≠ [] → HasCycleRel (EdgeG G)) →
      (dfs_inner G fuel node st).found ≠ [] → HasCycleRel (EdgeG G) := by
  intro fuel
  induction fuel with
  | zero => intro node st _ _ hfound h; exact hfound h
  | succ fuel ih =>
    intro node st hchain hlastedge hfound
    simp only [dfs_inner]
    by_cases h1 : node ∈ st.path
    · rw [if_pos h1]
      intro _
      -- the recorded slice of the path is a closed walk at `node`
      have hidx : st.path.indexOf node < st.path.length :=
        List.indexOf_lt_length.mpr h1
      have hpathne : st.path ≠ [] := by
        intro hemp
        rw [hemp] at h1
        cases h1
      set w := st.path.drop (st.path.indexOf node) ++ [node] with hw
      have hdroplen : 0 < (st.path.drop (st.path.indexOf node)).length := by
        rw [List.length_drop]
        omega
      have hwch : List.Chain' (EdgeG G) w := by
        rw [hw, List.chain'_append]
        refine ⟨hchain.suffix (List.drop_suffix _ _),
          List.chain'_singleton _, ?_⟩
        intro x hx y hy
        have hy2 : y = node := by
          rw [List.head?_cons] at hy
          exact (Option.some.inj hy).symm
        rw [hy2]
        apply hlastedge
        rwa [← getLast?_drop_of_lt hidx]
      have hwhead : w.head? = some node := by
        rw [hw, List.head?_append, List.head?_eq_getElem?, List.getElem?_drop]
        have hid : st.path[st.path.indexOf node + 0]? = some node := by
          rw [Nat.add_zero, List.getElem?_eq_getElem hidx]
          rw [List.getElem_indexOf hidx]
        rw [hid]
        rfl
      have hwlast : w.getLast? = some node := by
        rw [hw, List.getLast?_concat]
      have hwlen : 2 ≤ w.length := by
        rw [hw, List.length_append, List.length_drop]
        simp only [List.length_cons, List.length_nil]
        omega
      exact ⟨node, closed_chain_transGen hwch hwhead hwlast hwlen⟩
    · rw [if_neg h1]
      by_cases h2 : node ∈ st.visited
      · rw [if_pos h2]; exact hfound
      · rw [if_neg h2]
        have hchain2 : List.Chain' (EdgeG G) (st.path ++ [node]) := by
          rw [List.chain'_append]
          refine ⟨hchain, List.chain'_singleton _, ?_⟩
          intro x hx y hy
          have hy2 : y = node := by
            rw [List.head?_cons] at hy
            exact (Option.some.inj hy).symm
          rw [hy2]
          exact hlastedge x hx
        have hfold : ∀ (l : List Nat), (∀ x ∈ l, EdgeG G node x) →
            ∀ (s : InnerSt), s.path = st.path ++ [node] →
            (s.found ≠ [] → HasCycleRel (EdgeG G)) →
            ((l.foldl (fun s nb => dfs_inner G fuel nb s) s).found ≠ [] →
              HasCycleRel (EdgeG G)) ∧
            (l.foldl (fun s nb => dfs_inner G fuel nb s) s).path
              = st.path ++ [node] := by
          intro l
          induction l with
          | nil => intro _ s hp hf; exact ⟨hf, hp⟩
          | cons x xs iht =>
            intro hxl s hp hf
            rw [List.foldl_cons]
            have hstep : (dfs_inner G fuel x s).found ≠ [] →
                HasCycleRel (EdgeG G) := by
              refine ih x s ?_ ?_ hf
              · rw [hp]; exact hchain2
              · intro b hb
                rw [hp, List.getLast?_concat] at hb
                have hb2 : b = node := (Option.some.inj hb).symm
                rw [hb2]
                exact hxl x (List.mem_cons_self _ _)
            exact iht (fun y hy => hxl y (List.mem_cons_of_mem _ hy))
              (dfs_inner G fuel x s) (by rw [dfs_inner_path]; exact hp) hstep
        have hres := hfold (G.getD node []) (fun x hx => hx)
          ⟨st.path ++ [node], st.visited ++ [node], st.found⟩ rfl hfound
        intro hne
        refine hres.1 ?_
        simpa using hne

theorem hasCycle_of_inner_ne {G : List (List Nat)}
    (h : inner_find_cycles G ≠ []) : HasCycleRel (EdgeG G) := by
  unfold inner_find_cycles at h
  have hgen : ∀ (l : List Nat) (s : InnerSt), s.path = [] →
      (s.found ≠ [] → HasCycleRel (EdgeG G)) →
      (l.foldl (fun s v => dfs_inner G (G.length + 1) v s) s).path = [] ∧
      ((l.foldl (fun s v => dfs_inner G (G.length + 1) v s) s).found ≠ [] →
        HasCycleRel (EdgeG G)) := by
    intro l
    induction l with
    | nil => intro s hp hf; exact ⟨hp, hf⟩
    | cons x xs iht =>
      intro s hp hf
      rw [List.foldl_cons]
      refine iht _ (by rw [dfs_inner_path]; exact hp) ?_
      refine dfs_inner_sound G (G.length + 1) x s ?_ ?_ hf
      · rw [hp]; exact List.chain'_nil
      · intro b hb
        rw [hp] at hb
        cases hb
  exact (hgen (List.range G.length) ⟨[], [], []⟩ rfl
    (fun hh => absurd rfl hh)).2 h

/-! ### The inner detector: completeness -/

/-- A vertex is safe when no cycle is reachable from it.  The invariant of
the inner DFS is that, as long as nothing has been recorded, every fully
explored (visited, off-path) vertex is safe. -/
def Safe (G : List (List Nat)) (v : Nat) : Prop :=
  ∀ w, Relation.ReflTransGen (EdgeG G) v w →
    ¬ Relation.TransGen (EdgeG G) w w

theorem safe_of_nbrs {G : List (List Nat)} {v : Nat}
    (h : ∀ w, EdgeG G v w → Safe G w) : Safe G v := by
  intro x hreach hcyc
  rcases Relation.ReflTransGen.cases_head hreach with heq | ⟨b, hvb, hbx⟩
  · subst heq
    obtain ⟨b, hvb, hbv⟩ := Relation.TransGen.head'_iff.mp hcyc
    exact h b hvb v hbv hcyc
  · exact h b hvb x hbx hcyc

theorem dfs_inner_complete (G : List (List Nat))
    (hG : ∀ l ∈ G, ∀ x ∈ l, x < G.length) :
    ∀ (fuel node : Nat) (st : InnerSt),
      node < G.length →
      st.visited.Nodup →
      (∀ x ∈ st.visited, x < G.length) →
      (∀ x ∈ st.path, x ∈ st.visited) →
      G.length + 1 ≤ st.visited.length + fuel →
      (∀ v ∈ st.visited, v ∉ st.path → Safe G v) →
      (dfs_inner G fuel node st).found = st.found →
      node ∈ (dfs_inner G fuel node st).visited ∧
      (∃ t, (dfs_inner G fuel node st).visited = st.visited ++ t) ∧
      (dfs_inner G fuel node st).visited.Nodup ∧
      (∀ x ∈ (dfs_inner G fuel node st).visited, x < G.length) ∧
      (∀ v ∈ (dfs_inner G fuel node st).visited, v ∉ st.path → Safe G v) := by
  intro fuel
  induction fuel with
  | zero =>
    intro node st hnode hnd hlt hpv hfuel hsafe hfeq
    exfalso
    have := nodup_lt_length_le hnd hlt
    omega
  | succ fuel ih =>
    intro node st hnode hnd hlt hpv hfuel hsafe hfeq
    simp only [dfs_inner] at hfeq ⊢
    by_cases h1 : node ∈ st.path
    · rw [if_pos h1] at hfeq ⊢
      exfalso
      simp only [InnerSt.mk.injEq] at hfeq
      have := congrArg List.length hfeq
      simp at this
    · rw [if_neg h1] at hfeq ⊢
      by_cases h2 : node ∈ st.visited
      · rw [if_pos h2] at hfeq ⊢
        exact ⟨h2, ⟨[], by simp⟩, hnd, hlt, hsafe⟩
      · rw [if_neg h2] at hfeq ⊢
        have hrow : ∀ x, EdgeG G node x → x < G.length := by
          intro x hx
          refine hG (G.getD node []) ?_ x hx
          rw [List.getD_eq_getElem _ _ hnode]
          exact List.getElem_mem hnode
        have hfold : ∀ (l : List Nat), (∀ x ∈ l, EdgeG G node x) →
            ∀ (s : InnerSt),
              s.path = st.path ++ [node] →
              s.visited.Nodup →
              (∀ x ∈ s.visited, x < G.length) →
              (∀ x ∈ s.path, x ∈ s.visited) →
              st.visited.length + 1 ≤ s.visited.length →
              (∀ v ∈ s.visited, v ∉ s.path → Safe G v) →
              (l.foldl (fun s nb => dfs_inner G fuel nb s) s).found
                = s.found →
              (∃ t, (l.foldl (fun s nb => dfs_inner G fuel nb s) s).visited
                = s.visited ++ t) ∧
              (l.foldl (fun s nb => dfs_inner G fuel nb s) s).visited.Nodup ∧
              (∀ x ∈ (l.foldl (fun s nb => dfs_inner G fuel nb s) s).visited,
                x < G.length) ∧
              (∀ v ∈ (l.foldl (fun s nb => dfs_inner G fuel nb s) s).visited,
                v ∉ st.path ++ [node] → Safe G v) ∧
              (∀ nb ∈ l,
                nb ∈ (l.foldl (fun s nb => dfs_inner G fuel nb s) s).visited ∧
                nb ∉ st.path ++ [node]) := by
          intro l
          induction l with
          | nil =>
            intro _ s hp hnd2 hlt2 hpv2 hlen2 hsafe2 hfeq2
            refine ⟨⟨[], by simp⟩, hnd2, hlt2, ?_, ?_⟩
            · intro v hv hvp
              rw [← hp] at hvp
              exact hsafe2 v hv hvp
            · intro nb hnb; cases hnb
          | cons x xs iht =>
            intro hxl s hp hnd2 hlt2 hpv2 hlen2 hsafe2 hfeq2
            rw [List.foldl_cons] at hfeq2 ⊢
            -- the step's found must itself be unchanged
            obtain ⟨t1, ht1⟩ := dfs_inner_found_append G fuel x s
            obtain ⟨t2, ht2⟩ :=
              foldl_dfs_inner_found_append G fuel xs (dfs_inner G fuel x s)
            have hbothnil : t1 = [] ∧ t2 = [] := by
              rw [ht2, ht1, List.append_assoc] at hfeq2
              have hnil := List.append_right_eq_self.mp hfeq2
              exact List.append_eq_nil.mp hnil
            have hstepeq : (dfs_inner G fuel x s).found = s.found := by
              rw [ht1, hbothnil.1, List.append_nil]
            have hfeq3 : (xs.foldl (fun s nb => dfs_inner G fuel nb s)
                (dfs_inner G fuel x s)).found
                = (dfs_inner G fuel x s).found := by
              rw [ht2, hbothnil.2, List.append_nil]
            have hxnotp : x ∉ s.path := by
              intro hxp
              -- with fuel ≥ 1 the call would record a cycle
              have hslen : s.visited.length ≤ G.length :=
                nodup_lt_length_le hnd2 hlt2
              obtain ⟨f2, hf2⟩ : ∃ f2, fuel = f2 + 1 := by
                cases fuel with
                | zero => omega
                | succ f2 => exact ⟨f2, rfl⟩
              rw [hf2] at hstepeq
              simp only [dfs_inner] at hstepeq
              rw [if_pos hxp] at hstepeq
              simp only [] at hstepeq
              have := congrArg List.length hstepeq
              simp at this
            have hcall := ih x s (hrow x (hxl x (List.mem_cons_self _ _)))
              hnd2 hlt2 hpv2 (by omega) hsafe2 hstepeq
            obtain ⟨hxin, ⟨t3, ht3⟩, hnd3, hlt3, hsafe3⟩ := hcall
            have hpath3 : (dfs_inner G fuel x s).path = s.path :=
              dfs_inner_path G fuel x s
            have hfeq4 : (xs.foldl (fun s nb => dfs_inner G fuel nb s)
                (dfs_inner G fuel x s)).found
                = (dfs_inner G fuel x s).found := hfeq3
            have hrec := iht (fun y hy => hxl y (List.mem_cons_of_mem _ hy))
              (dfs_inner G fuel x s)
              (by rw [hpath3]; exact hp)
              hnd3
              hlt3
              (by
                rw [hpath3]
                intro y hy
                rw [ht3]
                exact List.mem_append_left _ (hpv2 y hy))
              (by rw [ht3, List.length_append]; omega)
              (by rw [hpath3]; exact hsafe3)
              hfeq4
            obtain ⟨⟨t4, ht4⟩, hnd4, hlt4, hsafe4, hmem4⟩ := hrec
            refine ⟨⟨t3 ++ t4, by rw [ht4, ht3, List.append_assoc]⟩,
              hnd4, hlt4, hsafe4, ?_⟩
            intro nb hnb
            rcases List.mem_cons.mp hnb with hnb | hnb
            · subst hnb
              constructor
              · rw [ht4]
                exact List.mem_append_left _ hxin
              · rw [← hp]
                exact hxnotp
            · exact hmem4 nb hnb
        have hres := hfold (G.getD node []) (fun x hx => hx)
          ⟨st.path ++ [node], st.visited ++ [node], st.found⟩
          rfl
          (by
            rw [List.nodup_append]
            exact ⟨hnd, List.nodup_singleton _,
              by intro a ha hb; rw [List.mem_singleton] at hb;
                 exact h2 (hb ▸ ha)⟩)
          (by
            intro x hx
            rcases List.mem_append.mp hx with hx | hx
            · exact hlt x hx
            · rw [List.mem_singleton] at hx
              rw [hx]
              exact hnode)
          (by
            intro x hx
            rcases List.mem_append.mp hx with hx | hx
            · exact List.mem_append_left _ (hpv x hx)
            · exact List.mem_append_right _ hx)
          (by rw [List.length_append]; simp)
          (by
            intro v hv hvp
            rcases List.mem_append.mp hv with hv | hv
            · refine hsafe v hv ?_
              intro hvp2
              exact hvp (List.mem_append_left _ hvp2)
            · rw [List.mem_singleton] at hv
              exfalso
              exact hvp (List.mem_append_right _ (by rw [hv]; simp)))
          (by simpa using hfeq)
        obtain ⟨⟨t5, ht5⟩, hnd5, hlt5, hsafe5, hmem5⟩ := hres
        have hsafenode : Safe G node := by
          refine safe_of_nbrs ?_
          intro w hw
          obtain ⟨hwin, hwnotp⟩ := hmem5 w hw
          exact hsafe5 w hwin hwnotp
        simp only []
        refine ⟨?_, ?_, hnd5, hlt5, ?_⟩
        · rw [ht5]
          refine List.mem_append_left _ ?_
          exact List.mem_append_right _ (by simp)
        · exact ⟨[node] ++ t5, by rw [ht5, List.append_assoc]⟩
        · intro v hv hvnotp
          by_cases hveq : v = node
          · rw [hveq]
            exact hsafenode
          · refine hsafe5 v hv ?_
            intro hvin
            rcases List.mem_append.mp hvin with hvin | hvin
            · exact hvnotp hvin
            · rw [List.mem_singleton] at hvin
              exact hveq hvin

theorem recorded_cycles_pairwise (m : Mat) :
    (recorded_cycles m).Pairwise NotRotOf := by
  unfold recorded_cycles
  have hgen : ∀ (l : List Nat) (acc : List (List Nat)),
      acc.Pairwise NotRotOf →
      (l.foldl (fun acc v => dfs_outer m (m.length + 1) v v [] [] acc)
        acc).Pairwise NotRotOf := by
    intro l
    induction l with
    | nil => exact fun acc h => h
    | cons x t iht =>
      intro acc h
      exact iht _ (dfs_outer_pairwise m _ x x [] [] acc rfl h)
  exact hgen _ _ List.Pairwise.nil

/-! ## Claim theorems for Bellman-Ford -/

/-- C5: whenever the final full relaxation pass of `bellman_ford` finds an
edge that can still be relaxed (a negative cycle is reachable from the
source), the call returns no distances (`None, None`); in particular this
happens on the adjacency matrix `[[0,1,0],[0,0,-5],[1,0,0]]` with source
`0`. -/
theorem c5_negative_cycle_failure :
    (∀ (m : Mat) (s : Nat),
        bf_relaxable (bf_edges m) (bf_after_loop m s).dp →
        bellman_ford m s = none) ∧
    bellman_ford [[0, 1, 0], [0, 0, -5], [1, 0, 0]] 0 = none := by
  constructor
  · intro m s h
    unfold bellman_ford
    rw [if_pos h]
  · decide

/-- Witness for C5 at the concrete matrix of the claim. -/
theorem c5_negative_cycle_failure_witness :
    bf_relaxable (bf_edges [[0, 1, 0], [0, 0, -5], [1, 0, 0]])
      (bf_after_loop [[0, 1, 0], [0, 0, -5], [1, 0, 0]] 0).dp ∧
    bellman_ford [[0, 1, 0], [0, 0, -5], [1, 0, 0]] 0 = none :=
  ⟨by decide, c5_negative_cycle_failure.1 _ _ (by decide)⟩

theorem length_zeroDiag (m : Mat) : (zeroDiag m).length = m.length := by
  simp [zeroDiag]

theorem entry_zeroDiag_ne {m : Mat} {i j : Nat} (h : i ≠ j) :
    entry (zeroDiag m) i j = entry m i j := by
  unfold entry zeroDiag
  by_cases hi : i < m.length
  · have hi2 : i < (m.mapIdx fun i row =>
        row.mapIdx fun j w => if i = j then 0 else w).length := by
      rw [List.length_mapIdx]; exact hi
    rw [List.getD_eq_getElem _ _ hi2, List.getD_eq_getElem _ _ hi,
      List.getElem_mapIdx]
    by_cases hj : j < (m[i]).length
    · have hj2 : j < ((m[i]).mapIdx fun j w => if i = j then 0 else w).length := by
        rw [List.length_mapIdx]; exact hj
      rw [List.getD_eq_getElem _ _ hj2, List.getD_eq_getElem _ _ hj,
        List.getElem_mapIdx, if_neg h]
    · have hj1 : ((m[i]).mapIdx fun j w => if i = j then 0 else w).getD j 0 = 0 := by
        apply List.getD_eq_default
        rw [List.length_mapIdx]
        exact Nat.le_of_not_lt hj
      have hj2 : (m[i]).getD j 0 = 0 :=
        List.getD_eq_default _ _ (Nat.le_of_not_lt hj)
      rw [hj1, hj2]
  · have h1 : (List.mapIdx
        (fun i row => List.mapIdx (fun j w => if i = j then 0 else w) row)
        m).getD i [] = [] := by
      apply List.getD_eq_default
      rw [List.length_mapIdx]
      exact Nat.le_of_not_lt hi
    have h2 : m.getD i [] = [] := List.getD_eq_default _ _ (Nat.le_of_not_lt hi)
    rw [h1, h2]

theorem bf_edges_zeroDiag (m : Mat) : bf_edges (zeroDiag m) = bf_edges m := by
  unfold bf_edges
  rw [length_zeroDiag]
  refine List.flatMap_congr ?_
  intro i _
  refine List.filterMap_congr ?_
  intro j _
  by_cases hij : i ≠ j
  · rw [entry_zeroDiag_ne hij]
  · rw [not_not.mp hij]
    rw [if_neg (by simp), if_neg (by simp)]

/-- C10: `bellman_ford` ignores diagonal entries entirely: its edge list
excludes every `(i, i)` pair, so the result on any matrix equals the result
on the matrix with the diagonal zeroed; in particular a negative self-loop
(matrix `[[-7,1],[0,0]]`) neither changes any distance nor triggers the
negative-cycle failure. -/
theorem c10_bellman_ford_ignores_diagonal :
    (∀ (m : Mat) (s : Nat), bellman_ford (zeroDiag m) s = bellman_ford m s) ∧
    bellman_ford [[-7, 1], [0, 0]] 0 = bellman_ford [[0, 1], [0, 0]] 0 ∧
    (bellman_ford [[-7, 1], [0, 0]] 0).isSome = true := by
  refine ⟨?_, by decide, by decide⟩
  intro m s
  unfold bellman_ford bf_after_loop
  rw [bf_edges_zeroDiag, length_zeroDiag]

/-- C7: the cycle list returned by `find_cycles` contains at most one
representative per rotation-equivalence class: for any two distinct returned
cycles, no cyclic rotation of the open form of one equals the open form of
the other; and the 3-cycle `0 → 1 → 2 → 0` yields exactly the one cycle
`[0, 1, 2, 0]`, regardless of the DFS start vertex. -/
theorem c7_rotation_dedup :
    (∀ m : Mat, (find_cycles m).Pairwise fun a b =>
        (∀ i, shift b.dropLast i ≠ a.dropLast) ∧
        (∀ i, shift a.dropLast i ≠ b.dropLast)) ∧
    find_cycles [[0, 1, 0], [0, 0, 1], [1, 0, 0]] = [[0, 1, 2, 0]] := by
  constructor
  · intro m
    unfold find_cycles
    rw [List.pairwise_map]
    refine (recorded_cycles_pairwise m).imp ?_
    intro a b hab
    rw [List.dropLast_concat, List.dropLast_concat]
    refine ⟨hab, ?_⟩
    intro i heq
    obtain ⟨j, hj⟩ := shift_inv heq
    exact hab j hj
  · decide

/-- C6: contrary to the claim, `incidence_to_adjacency` does not fail on a
column with no positive entry; it silently skips the column.  On the
incidence matrix `[[-1], [0]]` (one column, no positive entry) it returns
the all-zero adjacency matrix with no error. -/
theorem c6_malformed_column_not_rejected :
    incidence_to_adjacency [[-1], [0]] = [[0, 0], [0, 0]] := by decide

/-! ### The inner detector: top-level completeness -/

theorem foldl_dfs_inner_visited_append (G : List (List Nat)) (fuel : Nat) :
    ∀ (l : List Nat) (s : InnerSt),
      ∃ t, (l.foldl (fun s nb => dfs_inner G fuel nb s) s).visited
        = s.visited ++ t := by
  intro l
  induction l with
  | nil => intro s; exact ⟨[], by simp⟩
  | cons x xs ihl =>
    intro s
    obtain ⟨t1, ht1⟩ := dfs_inner_visited_append G fuel x s
    obtain ⟨t2, ht2⟩ := ihl (dfs_inner G fuel x s)
    exact ⟨t1 ++ t2, by rw [List.foldl_cons, ht2, ht1, List.append_assoc]⟩

/-- If the nested detector records nothing, the graph has no cycle: every
root of the top-level loop ends up visited and safe. -/
theorem acyclic_of_inner_empty {G : List (List Nat)}
    (hG : ∀ l ∈ G, ∀ x ∈ l, x < G.length)
    (h : inner_find_cycles G = []) : ¬ HasCycleRel (EdgeG G) := by
  have hgen : ∀ (l : List Nat), (∀ x ∈ l, x < G.length) →
      ∀ (s : InnerSt), s.path = [] → s.visited.Nodup →
      (∀ x ∈ s.visited, x < G.length) → (∀ v ∈ s.visited, Safe G v) →
      (l.foldl (fun s v => dfs_inner G (G.length + 1) v s) s).found
        = s.found →
      (∀ x ∈ l,
        x ∈ (l.foldl (fun s v => dfs_inner G (G.length + 1) v s) s).visited)
      ∧ (∀ v ∈ (l.foldl (fun s v => dfs_inner G (G.length + 1) v s)
          s).visited, Safe G v) := by
    intro l
    induction l with
    | nil =>
      intro _ s _ _ _ hsafe _
      exact ⟨fun x hx => absurd hx (List.not_mem_nil x), hsafe⟩
    | cons x xs ihl =>
      intro hlb s hp hnd hlt hsafe hfeq
      rw [List.foldl_cons] at hfeq ⊢
      obtain ⟨t1, ht1⟩ :=
        dfs_inner_found_append G (G.length + 1) x s
      obtain ⟨t2, ht2⟩ :=
        foldl_dfs_inner_found_append G (G.length + 1) xs
          (dfs_inner G (G.length + 1) x s)
      have ht12 : t1 ++ t2 = [] := by
        rw [ht2, ht1, List.append_assoc] at hfeq
        have hlen := congrArg List.length hfeq
        simp only [List.length_append] at hlen
        rw [← List.length_eq_zero]
        simp only [List.length_append]
        omega
      have hfeq1 : (dfs_inner G (G.length + 1) x s).found = s.found := by
        rw [ht1, (List.append_eq_nil.mp ht12).1, List.append_nil]
      have hcomp := dfs_inner_complete G hG (G.length + 1) x s
        (hlb x (List.mem_cons_self x xs)) hnd hlt
        (by rw [hp]; intro a ha; cases ha) (by omega)
        (fun v hv _ => hsafe v hv) hfeq1
      obtain ⟨hxmem, ⟨tv, htv⟩, hnd1, hlt1, hsafe1⟩ := hcomp
      have hp1 : (dfs_inner G (G.length + 1) x s).path = [] := by
        rw [dfs_inner_path]; exact hp
      have hsafe1' : ∀ v ∈ (dfs_inner G (G.length + 1) x s).visited,
          Safe G v := by
        intro v hv
        refine hsafe1 v hv ?_
        rw [hp]; intro hvv; cases hvv
      have hfeq2 : (xs.foldl (fun s v => dfs_inner G (G.length + 1) v s)
          (dfs_inner G (G.length + 1) x s)).found
          = (dfs_inner G (G.length + 1) x s).found := by
        rw [ht2, (List.append_eq_nil.mp ht12).2, List.append_nil]
      have hrest := ihl (fun y hy => hlb y (List.mem_cons_of_mem x hy))
        (dfs_inner G (G.length + 1) x s) hp1 hnd1 hlt1 hsafe1' hfeq2
      refine ⟨?_, hrest.2⟩
      intro y hy
      rcases List.mem_cons.mp hy with hyx | hy2
      · obtain ⟨tf, htf⟩ := foldl_dfs_inner_visited_append G (G.length + 1)
          xs (dfs_inner G (G.length + 1) x s)
        rw [htf, hyx]
        exact List.mem_append_left _ hxmem
      · exact hrest.1 y hy2
  intro hcyc
  obtain ⟨v, hv⟩ := hcyc
  obtain ⟨w, hvw, _⟩ := Relation.TransGen.head'_iff.mp hv
  have hvlt : v < G.length := edgeG_src_lt hvw
  unfold inner_find_cycles at h
  have hmain := hgen (List.range G.length)
    (fun x hx => List.mem_range.mp hx) ⟨[], [], []⟩ rfl List.nodup_nil
    (by intro x hx; cases hx) (by intro x hx; cases hx) h
  have hvs : Safe G v := hmain.2 v
    (hmain.1 v (List.mem_range.mpr hvlt))
  exact hvs v Relation.ReflTransGen.refl hv

/-! ### The reduce loop: the greedy removal really breaks every cycle -/

theorem getD_set_ne2 {α : Type} {l : List α} {i a : Nat} {x d : α}
    (h : i ≠ a) : (l.set i x).getD a d = l.getD a d := by
  rw [List.getD_eq_getElem?_getD, List.getD_eq_getElem?_getD,
    List.getElem?_set, if_neg h]

theorem getD_set_self2 {α : Type} {l : List α} {i : Nat} {x d : α}
    (h : i < l.length) : (l.set i x).getD i d = x := by
  rw [List.getD_eq_getElem?_getD, List.getElem?_set, if_pos rfl, if_pos h]
  rfl

theorem length_build_graph (m : Mat) :
    (build_graph m).length = m.length := by
  simp [build_graph]

theorem getD_build_graph {m : Mat} {i : Nat} (h : i < m.length) :
    (build_graph m).getD i []
      = (List.range m.length).filter fun j => decide (entry m i j ≠ 0) := by
  unfold build_graph
  rw [List.getD_eq_getElem?_getD, List.getElem?_map, List.getElem?_range h]
  rfl

theorem edgeG_build_graph {m : Mat} (hsq : IsSquare m) {u v : Nat} :
    EdgeG (build_graph m) u v ↔ Edge m u v := by
  unfold EdgeG
  by_cases hu : u < m.length
  · rw [getD_build_graph hu, List.mem_filter]
    simp only [List.mem_range, decide_eq_true_eq]
    constructor
    · rintro ⟨_, h2⟩; exact h2
    · intro h; exact ⟨h.tgt_lt hsq, h⟩
  · have hnil : (build_graph m).getD u [] = [] := by
      apply List.getD_eq_default
      rw [length_build_graph]
      omega
    rw [hnil]
    simp only [List.not_mem_nil, false_iff]
    intro h
    exact hu h.src_lt

/-- Well-formedness of the adjacency-set graph carried through the
removal loop: `n` rows, each a duplicate-free list of vertices below
`n`. -/
def GoodGraph (n : Nat) (G : List (List Nat)) : Prop :=
  G.length = n ∧ ∀ l ∈ G, l.Nodup ∧ ∀ x ∈ l, x < n

theorem goodGraph_build_graph (m : Mat) :
    GoodGraph m.length (build_graph m) := by
  refine ⟨length_build_graph m, ?_⟩
  intro l hl
  unfold build_graph at hl
  obtain ⟨i, _, rfl⟩ := List.mem_map.mp hl
  constructor
  · exact (List.nodup_range _).filter _
  · intro x hx
    exact List.mem_range.mp (List.mem_of_mem_filter hx)

theorem goodGraph_wf {n : Nat} {G : List (List Nat)} (h : GoodGraph n G) :
    ∀ l ∈ G, ∀ x ∈ l, x < G.length := by
  intro l hl x hx
  rw [h.1]
  exact ((h.2 l hl).2 x hx)

theorem getD_mem2 {α : Type} {l : List α} {i : Nat} {d : α}
    (h : i < l.length) : l.getD i d ∈ l := by
  rw [List.getD_eq_getElem l d h]
  exact List.getElem_mem h

theorem edgeG_remove_edge {n : Nat} {G : List (List Nat)}
    (hg : GoodGraph n G) (e : Nat × Nat) (u v : Nat) :
    EdgeG (remove_edge G e) u v ↔ EdgeG G u v ∧ (u, v) ≠ e := by
  unfold EdgeG remove_edge
  by_cases hu : u = e.1
  · subst hu
    by_cases hlen : e.1 < G.length
    · rw [getD_set_self2 hlen]
      have hnd : (G.getD e.1 []).Nodup := by
        have := hg.2 (G.getD e.1 []) (getD_mem2 hlen)
        exact this.1
      rw [List.Nodup.mem_erase_iff hnd]
      constructor
      · rintro ⟨hne, hmem⟩
        refine ⟨hmem, ?_⟩
        intro hp
        exact hne (congrArg Prod.snd hp)
      · rintro ⟨hmem, hne⟩
        refine ⟨?_, hmem⟩
        intro hv
        exact hne (by rw [hv])
    · rw [List.set_eq_of_length_le (Nat.le_of_not_lt hlen)]
      have hnil : G.getD e.1 [] = [] :=
        List.getD_eq_default _ _ (Nat.le_of_not_lt hlen)
      rw [hnil]
      simp
  · rw [getD_set_ne2 (fun hh => hu hh.symm)]
    constructor
    · intro h
      refine ⟨h, ?_⟩
      intro hp
      exact hu (congrArg Prod.fst hp)
    · exact And.left

theorem goodGraph_remove_edge {n : Nat} {G : List (List Nat)}
    (hg : GoodGraph n G) (e : Nat × Nat) :
    GoodGraph n (remove_edge G e) := by
  refine ⟨by rw [remove_edge, List.length_set]; exact hg.1, ?_⟩
  intro l hl
  unfold remove_edge at hl
  rcases List.mem_or_eq_of_mem_set hl with hmem | rfl
  · exact hg.2 l hmem
  · by_cases hlen : e.1 < G.length
    · have hrow := hg.2 (G.getD e.1 []) (getD_mem2 hlen)
      exact ⟨hrow.1.erase _, fun x hx => hrow.2 x (List.mem_of_mem_erase hx)⟩
    · have hnil : G.getD e.1 [] = [] :=
        List.getD_eq_default _ _ (Nat.le_of_not_lt hlen)
      rw [hnil]
      exact ⟨List.nodup_nil, by intro x hx; cases hx⟩

theorem hasCycleRel_congr {r r2 : Nat → Nat → Prop}
    (h : ∀ u v, r u v ↔ r2 u v) : HasCycleRel r ↔ HasCycleRel r2 := by
  constructor
  · rintro ⟨v, hv⟩
    exact ⟨v, Relation.TransGen.mono (fun a b => (h a b).mp) hv⟩
  · rintro ⟨v, hv⟩
    exact ⟨v, Relation.TransGen.mono (fun a b => (h a b).mpr) hv⟩

theorem isCycleList_mono {r r2 : Nat → Nat → Prop} {c : List Nat}
    (h : ∀ u v, r u v → r2 u v) (hc : IsCycleList r c) :
    IsCycleList r2 c := by
  obtain ⟨hne, hch, hcl⟩ := hc
  exact ⟨hne, List.Chain'.imp h hch, fun a b ha hb => h _ _ (hcl a b ha hb)⟩

/-- The consecutive pairs of an open cycle list closed with its head:
exactly what the count builder scans on the closed cycles stored by
`find_cycles`. -/
def closedPairs (c : List Nat) : List (Nat × Nat) :=
  cyclePairs (c ++ [c.getD 0 0])

theorem length_closedPairs (c : List Nat) :
    (closedPairs c).length = c.length := by
  unfold closedPairs cyclePairs
  rw [List.length_zip, List.length_tail]
  simp

theorem get_idx_congr {c : List Nat} {a b : Nat} (ha : a < c.length)
    (hb : b < c.length) (h : a = b) : c.get ⟨a, ha⟩ = c.get ⟨b, hb⟩ := by
  subst h
  rfl

theorem closedPairs_get {c : List Nat} (t : Nat) (ht : t < c.length) :
    (closedPairs c).get ⟨t, by rw [length_closedPairs]; exact ht⟩
      = (c.get ⟨t, ht⟩,
         c.get ⟨(t + 1) % c.length, Nat.mod_lt _ (by omega)⟩) := by
  have hpos : 0 < c.length := by omega
  unfold closedPairs cyclePairs
  simp only [List.get_eq_getElem]
  rw [List.getElem_zip]
  rw [Prod.mk.injEq]
  refine ⟨List.getElem_append_left ht, ?_⟩
  rw [List.getElem_tail]
  by_cases h : t + 1 < c.length
  · rw [List.getElem_append_left h]
    congr 1
    exact (Nat.mod_eq_of_lt h).symm
  · have hteq : t + 1 = c.length := by omega
    rw [List.getElem_append_right (by omega)]
    have h0 : t + 1 - c.length = 0 := by omega
    rw [List.getElem_singleton, List.getD_eq_getElem c 0 hpos]
    congr 1
    rw [hteq]
    exact (Nat.mod_self _).symm

theorem mem_closedPairs_iff {c : List Nat} (hne : c ≠ []) (p : Nat × Nat) :
    p ∈ closedPairs c ↔ ∃ t, ∃ ht : t < c.length,
      p = (c.get ⟨t, ht⟩,
        c.get ⟨(t + 1) % c.length,
          Nat.mod_lt _ (List.length_pos.mpr hne)⟩) := by
  rw [List.mem_iff_get]
  constructor
  · rintro ⟨⟨t, ht⟩, hget⟩
    have ht2 : t < c.length := by
      rw [length_closedPairs] at ht
      exact ht
    refine ⟨t, ht2, ?_⟩
    rw [← hget]
    exact closedPairs_get t ht2
  · rintro ⟨t, ht, hp⟩
    refine ⟨⟨t, by rw [length_closedPairs]; exact ht⟩, ?_⟩
    rw [hp]
    exact closedPairs_get t ht

theorem mem_closedPairs_rotate {c : List Nat} (hne : c ≠ []) {p : Nat × Nat}
    (k : Nat) (hp : p ∈ closedPairs c) : p ∈ closedPairs (c.rotate k) := by
  have hpos : 0 < c.length := List.length_pos.mpr hne
  rw [← List.rotate_mod]
  have hk2 : k % c.length < c.length := Nat.mod_lt _ hpos
  have hnerot : c.rotate (k % c.length) ≠ [] := by
    intro hh
    have hl := congrArg List.length hh
    rw [List.length_rotate] at hl
    exact hne (List.length_eq_zero.mp hl)
  rw [mem_closedPairs_iff hne] at hp
  obtain ⟨t, ht, rfl⟩ := hp
  rw [mem_closedPairs_iff hnerot]
  refine ⟨(t + (c.length - k % c.length)) % c.length,
    by rw [List.length_rotate]; exact Nat.mod_lt _ hpos, ?_⟩
  have hidx1 : ((t + (c.length - k % c.length)) % c.length + k % c.length)
      % c.length = t := by
    rw [Nat.mod_add_mod]
    have he : t + (c.length - k % c.length) + k % c.length
        = t + c.length := by omega
    rw [he, Nat.add_mod_right]
    exact Nat.mod_eq_of_lt ht
  simp only [List.get_rotate]
  rw [Prod.mk.injEq]
  constructor
  · apply get_idx_congr
    exact hidx1.symm
  · apply get_idx_congr
    rw [List.length_rotate, Nat.mod_add_mod]
    have he2 : (t + (c.length - k % c.length)) % c.length + 1 + k % c.length
        = (t + (c.length - k % c.length)) % c.length + k % c.length + 1 := by
      omega
    rw [he2]
    nth_rewrite 2 [← Nat.mod_add_mod]
    rw [hidx1]

theorem mem_closedPairs_shift {c : List Nat} (hne : c ≠ []) {p : Nat × Nat}
    (i : Nat) (hp : p ∈ closedPairs c) : p ∈ closedPairs (shift c i) := by
  rw [shift_eq_rotate]
  exact mem_closedPairs_rotate hne _ hp

theorem closedPairs_edge {r : Nat → Nat → Prop} {c : List Nat}
    (hc : IsCycleList r c) {p : Nat × Nat} (hp : p ∈ closedPairs c) :
    r p.1 p.2 := by
  obtain ⟨hne, hch, hcl⟩ := hc
  have hpos : 0 < c.length := List.length_pos.mpr hne
  rw [mem_closedPairs_iff hne] at hp
  obtain ⟨t, ht, rfl⟩ := hp
  dsimp only
  by_cases h : t + 1 < c.length
  · have hidx : (t + 1) % c.length = t + 1 := Nat.mod_eq_of_lt h
    have h2 : c.get ⟨(t + 1) % c.length, Nat.mod_lt _ hpos⟩
        = c.get ⟨t + 1, h⟩ := get_idx_congr _ _ hidx
    rw [h2]
    exact chain'_rel_get hch h
  · have hteq : t + 1 = c.length := by omega
    have hidx : (t + 1) % c.length = 0 := by
      rw [hteq]
      exact Nat.mod_self _
    have h2 : c.get ⟨(t + 1) % c.length, Nat.mod_lt _ hpos⟩
        = c.get ⟨0, hpos⟩ := get_idx_congr _ _ hidx
    rw [h2]
    have hlast : c.getLast? = some (c.get ⟨t, ht⟩) := by
      rw [getLast?_eq_get hpos]
      congr 1
      exact get_idx_congr _ _ (by omega)
    exact hcl _ _ (head?_eq_get hpos) hlast

/-- The key column of the `edge_counts` table. -/
def keys (counts : List ((Nat × Nat) × Nat)) : List (Nat × Nat) :=
  counts.map Prod.fst

theorem mem_keys_bump {counts : List ((Nat × Nat) × Nat)} {x e : Nat × Nat} :
    x ∈ keys (bump_edge counts e) ↔ x ∈ keys counts ∨ x = e := by
  induction counts with
  | nil => simp [bump_edge, keys]
  | cons p rest ih =>
    by_cases hp : p.1 = e
    · simp only [bump_edge, if_pos hp, keys, List.map_cons, List.mem_cons]
      rw [hp]
      tauto
    · simp only [bump_edge, if_neg hp, keys, List.map_cons, List.mem_cons]
      unfold keys at ih
      rw [ih]
      tauto

theorem mem_keys_foldl_bump_pres {x : Nat × Nat} :
    ∀ (pairs : List (Nat × Nat)) (s : List ((Nat × Nat) × Nat)),
      x ∈ keys s → x ∈ keys (pairs.foldl bump_edge s) := by
  intro pairs
  induction pairs with
  | nil => intro s h; exact h
  | cons q qs ih =>
    intro s h
    rw [List.foldl_cons]
    exact ih _ (mem_keys_bump.mpr (Or.inl h))

theorem mem_keys_foldl_bump_of_mem {p : Nat × Nat} :
    ∀ (pairs : List (Nat × Nat)) (s : List ((Nat × Nat) × Nat)),
      p ∈ pairs → p ∈ keys (pairs.foldl bump_edge s) := by
  intro pairs
  induction pairs with
  | nil => intro s h; cases h
  | cons q qs ih =>
    intro s h
    rw [List.foldl_cons]
    rcases List.mem_cons.mp h with hq | hq
    · exact mem_keys_foldl_bump_pres qs _
        (mem_keys_bump.mpr (Or.inr hq))
    · exact ih _ hq

theorem mem_keys_build_counts {cycles : List (List Nat)} {cc : List Nat}
    (hcc : cc ∈ cycles) {p : Nat × Nat} (hp : p ∈ cyclePairs cc) :
    p ∈ keys (build_counts cycles) := by
  unfold build_counts
  have hgen : ∀ (l : List (List Nat)) (s : List ((Nat × Nat) × Nat)),
      (cc ∈ l ∨ p ∈ keys s) →
      p ∈ keys (l.foldl
        (fun counts c => (cyclePairs c).foldl bump_edge counts) s) := by
    intro l
    induction l with
    | nil =>
      intro s h
      rcases h with h | h
      · cases h
      · exact h
    | cons y ys ih =>
      intro s h
      rw [List.foldl_cons]
      rcases h with h | h
      · rcases List.mem_cons.mp h with hy | hy
        · refine ih _ (Or.inr ?_)
          exact mem_keys_foldl_bump_of_mem _ _ (hy ▸ hp)
        · exact ih _ (Or.inl hy)
      · exact ih _ (Or.inr (mem_keys_foldl_bump_pres _ _ h))
  exact hgen cycles [] (Or.inl hcc)

theorem foldl_pick_mem {α : Type} (f : α → α → α)
    (hf : ∀ a b, f a b = a ∨ f a b = b) :
    ∀ (l : List α) (b : α), l.foldl f b = b ∨ l.foldl f b ∈ l := by
  intro l
  induction l with
  | nil => intro b; exact Or.inl rfl
  | cons x xs ih =>
    intro b
    rw [List.foldl_cons]
    rcases ih (f b x) with h | h
    · rcases hf b x with h2 | h2
      · rw [h, h2]; exact Or.inl rfl
      · rw [h, h2]; exact Or.inr (List.mem_cons_self x xs)
    · exact Or.inr (List.mem_cons_of_mem x h)

theorem counts_max_mem {counts : List ((Nat × Nat) × Nat)}
    (h : counts ≠ []) :
    ∃ e, counts_max counts = some e ∧ e ∈ keys counts := by
  match counts with
  | p :: rest =>
    refine ⟨_, rfl, ?_⟩
    have hmem : rest.foldl (fun best q => if best.2 < q.2 then q else best) p
        ∈ p :: rest := by
      have hpick := foldl_pick_mem
        (fun best q => if best.2 < q.2 then q else best)
        (fun a b => by
          by_cases hc : a.2 < b.2
          · exact Or.inr (if_pos hc)
          · exact Or.inl (if_neg hc)) rest p
      rcases hpick with h2 | h2
      · rw [h2]; exact List.mem_cons_self p rest
      · exact List.mem_cons_of_mem p h2
    exact List.mem_map_of_mem Prod.fst hmem

theorem length_erase_key {counts : List ((Nat × Nat) × Nat)}
    {e : Nat × Nat} (h : e ∈ keys counts) :
    (erase_key counts e).length + 1 = counts.length := by
  obtain ⟨q, hq, hqe⟩ := List.mem_map.mp h
  have hany : counts.any (fun p => decide (p.1 = e)) = true := by
    rw [List.any_eq_true]
    exact ⟨q, hq, by rw [hqe]; simp⟩
  unfold erase_key
  rw [List.length_eraseP, if_pos hany]
  have hpos : 0 < counts.length := by
    cases counts with
    | nil => cases hq
    | cons a l => simp
  omega

theorem mem_keys_erase_key {counts : List ((Nat × Nat) × Nat)}
    {x e : Nat × Nat} (hx : x ∈ keys counts) (hne : x ≠ e) :
    x ∈ keys (erase_key counts e) := by
  unfold erase_key
  induction counts with
  | nil => cases hx
  | cons q rest ih =>
    unfold keys at hx
    rw [List.map_cons, List.mem_cons] at hx
    rw [List.eraseP_cons]
    by_cases hq : q.1 = e
    · rw [show (decide (q.1 = e)) = true by simp [hq], cond_true]
      rcases hx with h1 | h1
      · exact absurd (h1.trans hq) hne
      · exact h1
    · rw [show (decide (q.1 = e)) = false by simp [hq], cond_false]
      unfold keys
      rw [List.map_cons, List.mem_cons]
      rcases hx with h1 | h1
      · exact Or.inl h1
      · exact Or.inr (ih h1)

/-- The loop invariant of `remove_min_edges_to_acyclic`: every simple
cycle of the current graph has all its closed pairs among the keys of the
current count table, so `max` never sees an empty table while a cycle
remains. -/
def Covers (G : List (List Nat)) (counts : List ((Nat × Nat) × Nat)) :
    Prop :=
  ∀ c, IsCycleList (EdgeG G) c → c.Nodup →
    ∀ p ∈ closedPairs c, p ∈ keys counts

theorem reduce_loop_ok (n : Nat) :
    ∀ (fuel : Nat) (G : List (List Nat))
      (counts : List ((Nat × Nat) × Nat)) (removed : List (Nat × Nat)),
      GoodGraph n G → counts.length < fuel → Covers G counts →
      ∃ rtail, reduce_loop fuel G counts removed = some (removed ++ rtail)
        ∧ ¬ HasCycleRel fun u v => EdgeG G u v ∧ (u, v) ∉ rtail := by
  intro fuel
  induction fuel with
  | zero =>
    intro G counts removed _ h2 _
    omega
  | succ fuel ih =>
    intro G counts removed hg hlen hcov
    simp only [reduce_loop]
    by_cases hac : inner_find_cycles G = []
    · rw [if_pos hac]
      refine ⟨[], by rw [List.append_nil], ?_⟩
      have hnc : ¬ HasCycleRel (EdgeG G) :=
        acyclic_of_inner_empty (goodGraph_wf hg) hac
      intro hcyc
      obtain ⟨v, hv⟩ := hcyc
      exact hnc ⟨v, Relation.TransGen.mono (fun a b h => h.1) hv⟩
    · rw [if_neg hac]
      have hcyc : HasCycleRel (EdgeG G) := hasCycle_of_inner_ne hac
      obtain ⟨c0, hc0⟩ := hasCycle_cycleList hcyc
      obtain ⟨c, hc, hnd⟩ :=
        exists_nodup_cycleList c0.length c0 le_rfl hc0
      have hcne : counts ≠ [] := by
        intro hnil
        have hpne : closedPairs c ≠ [] := by
          have hl : (closedPairs c).length = c.length := length_closedPairs c
          intro hh
          rw [hh] at hl
          have hcp : 0 < c.length := List.length_pos.mpr hc.1
          simp at hl
          omega
        obtain ⟨p, hp⟩ := List.exists_mem_of_ne_nil _ hpne
        have := hcov c hc hnd p hp
        rw [hnil] at this
        cases this
      obtain ⟨e, hemax, hekeys⟩ := counts_max_mem hcne
      rw [hemax]
      have hg2 := goodGraph_remove_edge hg e
      have hlen2 : (erase_key counts e).length < fuel := by
        have := length_erase_key hekeys
        omega
      have hcov2 : Covers (remove_edge G e) (erase_key counts e) := by
        intro c2 hc2 hnd2 p hp
        have hc2m : IsCycleList (EdgeG G) c2 :=
          isCycleList_mono
            (fun u v h => ((edgeG_remove_edge hg e u v).mp h).1) hc2
        have hpk : p ∈ keys counts := hcov c2 hc2m hnd2 p hp
        have hpe : p ≠ e := by
          have hedge : EdgeG (remove_edge G e) p.1 p.2 :=
            closedPairs_edge hc2 hp
          have hne2 := ((edgeG_remove_edge hg e p.1 p.2).mp hedge).2
          intro hpe
          exact hne2 (Prod.mk.eta.trans hpe)
        exact mem_keys_erase_key hpk hpe
      obtain ⟨rtail, heq, hnc⟩ := ih (remove_edge G e) (erase_key counts e)
        (removed ++ [e]) hg2 hlen2 hcov2
      refine ⟨e :: rtail, ?_, ?_⟩
      · show reduce_loop fuel (remove_edge G e) (erase_key counts e)
          (removed ++ [e]) = some (removed ++ e :: rtail)
        rw [heq, List.append_assoc]
        rfl
      · intro hcyc2
        apply hnc
        obtain ⟨v, hv⟩ := hcyc2
        refine ⟨v, Relation.TransGen.mono ?_ hv⟩
        intro a b hab
        obtain ⟨hE, hnm⟩ := hab
        refine ⟨(edgeG_remove_edge hg e a b).mpr ⟨hE, ?_⟩, ?_⟩
        · intro hh
          exact hnm (List.mem_cons.mpr (Or.inl hh))
        · intro hh
          exact hnm (List.mem_cons.mpr (Or.inr hh))

theorem entry_setEntry_zero (m : Mat) (i j : Nat) :
    entry (setEntry m i j 0) i j = 0 := by
  by_cases hi : i < m.length
  · by_cases hj : j < (m.getD i []).length
    · exact entry_setEntry_same hi hj
    · apply entry_eq_zero_of_row_le
      rw [rowlen_setEntry]
      omega
  · apply entry_eq_zero_of_len_le
    rw [length_setEntry]
    omega

theorem entry_remove_edges :
    ∀ (removed : List (Nat × Nat)) (m : Mat) (u v : Nat),
      entry (remove_edges_from_matrix m removed) u v
        = if (u, v) ∈ removed then 0 else entry m u v := by
  intro removed
  induction removed with
  | nil =>
    intro m u v
    simp [remove_edges_from_matrix]
  | cons e rest ih =>
    intro m u v
    have hstep : remove_edges_from_matrix m (e :: rest)
        = remove_edges_from_matrix (setEntry m e.1 e.2 0) rest := by
      rw [remove_edges_from_matrix, remove_edges_from_matrix,
        List.foldl_cons]
    rw [hstep, ih]
    by_cases hmem : (u, v) ∈ rest
    · rw [if_pos hmem, if_pos (List.mem_cons.mpr (Or.inr hmem))]
    · rw [if_neg hmem]
      by_cases he : (u, v) = e
      · rw [if_pos (List.mem_cons.mpr (Or.inl he))]
        rw [← he]
        exact entry_setEntry_zero m u v
      · rw [if_neg (by
          intro h
          rcases List.mem_cons.mp h with h1 | h1
          · exact he h1
          · exact hmem h1)]
        refine entry_setEntry_other ?_
        intro hh
        exact he (hh.symm.trans Prod.mk.eta)

theorem edge_remove_edges {m : Mat} {removed : List (Nat × Nat)}
    {u v : Nat} :
    Edge (remove_edges_from_matrix m removed) u v
      ↔ Edge m u v ∧ (u, v) ∉ removed := by
  unfold Edge
  rw [entry_remove_edges removed m u v]
  by_cases h : (u, v) ∈ removed
  · rw [if_pos h]
    simp [h]
  · rw [if_neg h]
    simp [h]

/-- The one-argument `convert_to_acyclic` of `cycles.py` satisfies the
acyclicity postcondition on every square matrix: the removal loop always
terminates with a success, and the returned matrix has no cycles. -/
theorem convert_to_acyclic_ok (m : Mat) (hsq : IsSquare m) :
    ∃ m2, convert_to_acyclic m = some m2 ∧ find_cycles m2 = [] := by
  have hg0 := goodGraph_build_graph m
  have hcov0 : Covers (build_graph m) (build_counts (find_cycles m)) := by
    intro c hc hnd p hp
    have hcm : IsCycleList (Edge m) c :=
      isCycleList_mono (fun u v h => (edgeG_build_graph hsq).mp h) hc
    obtain ⟨i, hi⟩ := recorded_cycles_complete m hcm hnd
    have hne : c ≠ [] := hc.1
    have hp2 : p ∈ closedPairs (shift c i) := mem_closedPairs_shift hne i hp
    have hmem : shift c i ++ [(shift c i).getD 0 0] ∈ find_cycles m := by
      unfold find_cycles
      exact List.mem_map_of_mem _ hi
    exact mem_keys_build_counts hmem hp2
  obtain ⟨rtail, heq, hnc⟩ := reduce_loop_ok m.length
    (build_counts (find_cycles m)).length.succ (build_graph m)
    (build_counts (find_cycles m)) [] hg0 (by omega) hcov0
  rw [List.nil_append] at heq
  refine ⟨remove_edges_from_matrix m rtail, ?_, ?_⟩
  · unfold convert_to_acyclic remove_min_edges_to_acyclic
    rw [heq]
    rfl
  · apply find_cycles_eq_nil_of_acyclic
    intro hcyc
    apply hnc
    obtain ⟨v, hv⟩ := hcyc
    refine ⟨v, Relation.TransGen.mono ?_ hv⟩
    intro a b hab
    have h2 := edge_remove_edges.mp hab
    exact ⟨(edgeG_build_graph hsq).mpr h2.1, h2.2⟩

/-- C1: the claim fails in the code as wired.  `DiGraph.make_acyclic`
passes two arguments to the one-parameter `convert_to_acyclic`, so on
every graph with a non-empty cycle list the call raises `TypeError`
instead of returning an acyclic graph (first conjunct).  The underlying
reduction itself is sound: invoked with its actual one-argument
signature, `convert_to_acyclic` succeeds on every square matrix and
returns a matrix on which `find_cycles` finds nothing (second
conjunct). -/
theorem c1_make_acyclic_crashes (m : Mat) (hsq : IsSquare m) :
    (find_cycles m ≠ [] → make_acyclic (mkDiGraph m) = none) ∧
    ∃ m2, convert_to_acyclic m = some m2 ∧ find_cycles m2 = [] := by
  constructor
  · intro hne
    unfold make_acyclic mkDiGraph
    rw [if_neg hne]
  · exact convert_to_acyclic_ok m hsq

/-- C1 witness: the 2-cycle `[[0, 1], [1, 0]]` is square, its cycle list
is non-empty so `make_acyclic` crashes on it, and the one-argument
reduction succeeds with an acyclic result. -/
theorem c1_make_acyclic_crashes_witness :
    IsSquare [[0, 1], [1, 0]] ∧
    ((find_cycles [[0, 1], [1, 0]] ≠ [] →
        make_acyclic (mkDiGraph [[0, 1], [1, 0]]) = none) ∧
      ∃ m2, convert_to_acyclic [[0, 1], [1, 0]] = some m2 ∧
        find_cycles m2 = []) :=
  ⟨by decide, c1_make_acyclic_crashes [[0, 1], [1, 0]] (by decide)⟩

/-! ### Kahn's algorithm (`topo_sort_order`) on acyclic inputs -/

/-- An empty `find_cycles` result means the edge relation has no cycle:
the converse of `find_cycles_eq_nil_of_acyclic`, from the completeness of
the outer DFS. -/
theorem acyclic_of_find_cycles_nil {m : Mat} (h : find_cycles m = []) :
    ¬ HasCycleRel (Edge m) := by
  intro hcyc
  obtain ⟨c0, hc0⟩ := hasCycle_cycleList hcyc
  obtain ⟨c, hc, hnd⟩ := exists_nodup_cycleList c0.length c0 le_rfl hc0
  obtain ⟨i, hi⟩ := recorded_cycles_complete m hc hnd
  have hmem : shift c i ++ [(shift c i).getD 0 0] ∈ find_cycles m :=
    List.mem_map_of_mem _ hi
  rw [h] at hmem
  cases hmem

theorem nodup_subset_length {l1 l2 : List Nat} (h1 : l1.Nodup)
    (hsub : l1 ⊆ l2) : l1.length ≤ l2.length := by
  have h2 : l1.toFinset ⊆ l2.toFinset := by
    intro x hx
    rw [List.mem_toFinset] at hx ⊢
    exact hsub hx
  have h3 := Finset.card_le_card h2
  rw [List.toFinset_card_of_nodup h1] at h3
  exact h3.trans (List.toFinset_card_le l2)

/-- If every vertex of a nonempty downward-closed set has an in-neighbor
inside the set, the bounded relation has a cycle. -/
theorem backward_chain_cycle {r : Nat → Nat → Prop} {P : Nat → Prop}
    {n : Nat} (hP : ∀ v, P v → v < n)
    (hstep : ∀ v, P v → ∃ u, P u ∧ r u v) {v0 : Nat} (h0 : P v0) :
    HasCycleRel r := by
  classical
  let step : {v // P v} → {v // P v} := fun t =>
    ⟨(hstep t.1 t.2).choose, (hstep t.1 t.2).choose_spec.1⟩
  have hrel : ∀ t : {v // P v}, r (step t).1 t.1 := fun t =>
    (hstep t.1 t.2).choose_spec.2
  let g : Nat → {v // P v} := fun k => step^[k] ⟨v0, h0⟩
  have hgs : ∀ k, g (k + 1) = step (g k) := fun k =>
    Function.iterate_succ_apply' step k ⟨v0, h0⟩
  have hchain : ∀ d k, Relation.TransGen r (g (k + d + 1)).1 (g k).1 := by
    intro d
    induction d with
    | zero =>
      intro k
      have := hrel (g k)
      rw [← hgs k] at this
      exact Relation.TransGen.single this
    | succ d ihd =>
      intro k
      have hstep2 := hrel (g (k + d + 1))
      rw [← hgs (k + d + 1)] at hstep2
      have : k + d + 1 + 1 = k + (d + 1) + 1 := by omega
      rw [this] at hstep2
      exact Relation.TransGen.head hstep2 (ihd k)
  have hmaps : ∀ k ∈ Finset.range (n + 1),
      (g k).1 ∈ Finset.range n := by
    intro k _
    exact Finset.mem_range.mpr (hP _ (g k).2)
  obtain ⟨k1, _, k2, _, hne, heq⟩ :=
    Finset.exists_ne_map_eq_of_card_lt_of_maps_to
      (by simp) hmaps
  rcases Nat.lt_or_ge k1 k2 with hlt | hge
  · obtain ⟨d, rfl⟩ : ∃ d, k2 = k1 + d + 1 :=
      ⟨k2 - k1 - 1, by omega⟩
    exact ⟨(g k1).1, heq ▸ hchain d k1⟩
  · have hlt2 : k2 < k1 := by
      rcases Nat.lt_or_ge k2 k1 with h | h
      · exact h
      · exact absurd (Nat.le_antisymm h hge) hne
    obtain ⟨d, rfl⟩ : ∃ d, k1 = k2 + d + 1 :=
      ⟨k1 - k2 - 1, by omega⟩
    exact ⟨(g k2).1, heq ▸ hchain d k2⟩

/-- The in-degree of `v`: the number of nonzero entries in column `v`. -/
def indeg (m : Mat) (v : Nat) : Nat :=
  ((List.range m.length).filter fun u => decide (entry m u v ≠ 0)).length

/-- The number of processed in-neighbors of `v`. -/
def procIn (m : Mat) (order : List Nat) (v : Nat) : Nat :=
  (order.filter fun u => decide (entry m u v ≠ 0)).length

theorem length_in_degrees (m : Mat) :
    (in_degrees m).length = m.length := by
  simp [in_degrees]

theorem in_degrees_getD {m : Mat} {v : Nat} (hv : v < m.length) :
    (in_degrees m).getD v 0 = (indeg m v : Int) := by
  unfold in_degrees indeg
  rw [List.getD_eq_getElem?_getD, List.getElem?_map, List.getElem?_range hv]
  rfl

theorem kahn_visit_char (m : Mat) (u : Nat) (c : List Int) (q : List Nat)
    (v0 : Nat) (hv0 : v0 < c.length) :
    kahn_visit m u (c, q) v0
      = (if entry m u v0 ≠ 0 then c.set v0 (c.getD v0 0 - 1) else c,
         if entry m u v0 ≠ 0 ∧ c.getD v0 0 = 1 then q ++ [v0] else q) := by
  unfold kahn_visit
  by_cases hE : entry m u v0 ≠ 0
  · rw [if_pos hE, if_pos hE]
    dsimp only
    rw [getD_set_self2 hv0]
    by_cases hc : c.getD v0 0 - 1 = 0
    · rw [if_pos hc, if_pos ⟨hE, by omega⟩]
    · rw [if_neg hc, if_neg (fun hh => hc (by omega))]
  · rw [if_neg hE, if_neg hE, if_neg (fun hh => hE hh.1)]

theorem kahn_fold_char (m : Mat) (u : Nat) :
    ∀ (l : List Nat) (c : List Int) (q : List Nat),
      l.Nodup → (∀ v ∈ l, v < c.length) →
      ((l.foldl (kahn_visit m u) (c, q)).1.length = c.length) ∧
      (∀ v, v < c.length →
        (l.foldl (kahn_visit m u) (c, q)).1.getD v 0
          = c.getD v 0 - (if v ∈ l ∧ entry m u v ≠ 0 then 1 else 0)) ∧
      (l.foldl (kahn_visit m u) (c, q)).2
        = q ++ l.filter
            (fun v => decide (entry m u v ≠ 0)
              && decide (c.getD v 0 = 1)) := by
  intro l
  induction l with
  | nil =>
    intro c q _ _
    refine ⟨rfl, ?_, by simp⟩
    intro v _
    simp
  | cons v0 rest ih =>
    intro c q hnd hlt
    have hv0 : v0 < c.length := hlt v0 (List.mem_cons_self v0 rest)
    have hv0r : v0 ∉ rest := (List.nodup_cons.mp hnd).1
    have hndr : rest.Nodup := (List.nodup_cons.mp hnd).2
    rw [List.foldl_cons, kahn_visit_char m u c q v0 hv0]
    by_cases hE : entry m u v0 ≠ 0
    · rw [if_pos hE,
        if_congr (show (entry m u v0 ≠ 0 ∧ c.getD v0 0 = 1)
            ↔ c.getD v0 0 = 1 from ⟨And.right, fun h => ⟨hE, h⟩⟩) rfl rfl]
      set c2 := c.set v0 (c.getD v0 0 - 1) with hc2
      have hlen2 : c2.length = c.length := by
        rw [hc2, List.length_set]
      have hgetne : ∀ v, v ≠ v0 → c2.getD v 0 = c.getD v 0 := by
        intro v hv
        rw [hc2]
        exact getD_set_ne2 (fun hh => hv hh.symm)
      set q2 := if c.getD v0 0 = 1 then q ++ [v0] else q with hq2
      obtain ⟨ih1, ih2, ih3⟩ := ih c2 q2 hndr
        (fun v hv => by rw [hlen2]; exact hlt v (List.mem_cons_of_mem _ hv))
      refine ⟨ih1.trans hlen2, ?_, ?_⟩
      · intro v hv
        rw [ih2 v (by rw [hlen2]; exact hv)]
        by_cases hvv : v = v0
        · subst hvv
          rw [if_neg (fun hh => hv0r hh.1),
            if_pos ⟨List.mem_cons_self _ _, hE⟩]
          rw [hc2, getD_set_self2 hv0]
          omega
        · rw [hgetne v hvv]
          congr 1
          have hiff : (v ∈ rest ∧ entry m u v ≠ 0)
              ↔ (v ∈ v0 :: rest ∧ entry m u v ≠ 0) := by
            constructor
            · rintro ⟨h1, h2⟩
              exact ⟨List.mem_cons_of_mem _ h1, h2⟩
            · rintro ⟨h1, h2⟩
              rcases List.mem_cons.mp h1 with h3 | h3
              · exact absurd h3 hvv
              · exact ⟨h3, h2⟩
          rw [if_congr hiff rfl rfl]
      · rw [ih3]
        have hfc : rest.filter
            (fun v => decide (entry m u v ≠ 0)
              && decide (c2.getD v 0 = 1))
            = rest.filter
            (fun v => decide (entry m u v ≠ 0)
              && decide (c.getD v 0 = 1)) := by
          apply List.filter_congr
          intro v hv
          have hvv : v ≠ v0 := fun hh => hv0r (hh ▸ hv)
          rw [hgetne v hvv]
        rw [hfc, List.filter_cons]
        have hdE : decide (entry m u v0 ≠ 0) = true := by
          simp [hE]
        by_cases hc1 : c.getD v0 0 = 1
        · rw [hq2, if_pos hc1]
          rw [if_pos (show (decide (entry m u v0 ≠ 0)
              && decide (c.getD v0 0 = 1)) = true by
            rw [hdE, Bool.true_and]
            exact decide_eq_true hc1)]
          rw [List.append_assoc]
          rfl
        · rw [hq2, if_neg hc1]
          rw [if_neg (show ¬ (decide (entry m u v0 ≠ 0)
              && decide (c.getD v0 0 = 1)) = true by
            rw [hdE, Bool.true_and]
            intro hh
            exact hc1 (of_decide_eq_true hh))]
    · rw [if_neg hE, if_neg (fun hh => hE hh.1)]
      obtain ⟨ih1, ih2, ih3⟩ := ih c q hndr
        (fun v hv => hlt v (List.mem_cons_of_mem _ hv))
      refine ⟨ih1, ?_, ?_⟩
      · intro v hv
        rw [ih2 v hv]
        congr 1
        have hiff : (v ∈ rest ∧ entry m u v ≠ 0)
            ↔ (v ∈ v0 :: rest ∧ entry m u v ≠ 0) := by
          constructor
          · rintro ⟨h1, h2⟩
            exact ⟨List.mem_cons_of_mem _ h1, h2⟩
          · rintro ⟨h1, h2⟩
            rcases List.mem_cons.mp h1 with h3 | h3
            · subst h3
              exact absurd h2 hE
            · exact ⟨h3, h2⟩
        rw [if_congr hiff rfl rfl]
      · rw [ih3, List.filter_cons]
        rw [if_neg (by simp [hE])]

theorem procIn_append (m : Mat) (order : List Nat) (u v : Nat) :
    procIn m (order ++ [u]) v
      = procIn m order v + (if entry m u v ≠ 0 then 1 else 0) := by
  unfold procIn
  rw [List.filter_append, List.length_append]
  congr 1
  by_cases hE : entry m u v ≠ 0
  · rw [if_pos hE]
    simp [List.filter_cons, hE]
  · rw [if_neg hE]
    simp [List.filter_cons, hE]

theorem all_in_nbrs_mem {m : Mat} {order : List Nat} {v : Nat}
    (hnd : order.Nodup) (hbound : ∀ x ∈ order, x < m.length)
    (heq : procIn m order v = indeg m v) {u : Nat}
    (hE : Edge m u v) : u ∈ order := by
  classical
  have hsub : (order.filter fun u => decide (entry m u v ≠ 0)).toFinset
      ⊆ ((List.range m.length).filter
          fun u => decide (entry m u v ≠ 0)).toFinset := by
    intro x hx
    rw [List.mem_toFinset, List.mem_filter] at hx ⊢
    exact ⟨List.mem_range.mpr (hbound x hx.1), hx.2⟩
  have hndL : ((List.range m.length).filter
      fun u => decide (entry m u v ≠ 0)).Nodup :=
    (List.nodup_range _).filter _
  have hndO : (order.filter fun u => decide (entry m u v ≠ 0)).Nodup :=
    hnd.filter _
  have hcard : (((List.range m.length).filter
        fun u => decide (entry m u v ≠ 0)).toFinset).card
      ≤ ((order.filter fun u => decide (entry m u v ≠ 0)).toFinset).card := by
    rw [List.toFinset_card_of_nodup hndL, List.toFinset_card_of_nodup hndO]
    exact le_of_eq heq.symm
  have hEq := Finset.eq_of_subset_of_card_le hsub hcard
  have hu : u ∈ ((List.range m.length).filter
      fun u => decide (entry m u v ≠ 0)).toFinset := by
    rw [List.mem_toFinset, List.mem_filter]
    exact ⟨List.mem_range.mpr hE.src_lt, decide_eq_true hE⟩
  rw [← hEq, List.mem_toFinset, List.mem_filter] at hu
  exact hu.1

theorem exists_unprocessed_in_nbr {m : Mat} {order : List Nat} {v : Nat}
    (hlt : procIn m order v < indeg m v) :
    ∃ u, u < m.length ∧ Edge m u v ∧ u ∉ order := by
  by_contra hcon
  push_neg at hcon
  have hsub : ((List.range m.length).filter
        fun u => decide (entry m u v ≠ 0))
      ⊆ order.filter fun u => decide (entry m u v ≠ 0) := by
    intro x hx
    rw [List.mem_filter] at hx ⊢
    have hxn := List.mem_range.mp hx.1
    exact ⟨hcon x hxn (of_decide_eq_true hx.2), hx.2⟩
  have hlen := nodup_subset_length ((List.nodup_range _).filter _) hsub
  unfold indeg procIn at hlt
  omega

theorem kahn_loop_ok (m : Mat) (hac : ¬ HasCycleRel (Edge m)) :
    ∀ (fuel : Nat) (cnt : List Int) (queue order : List Nat),
      cnt.length = m.length →
      (order ++ queue).Nodup →
      (∀ v ∈ order ++ queue, v < m.length) →
      (∀ v, v < m.length →
        cnt.getD v 0 = (indeg m v : Int) - (procIn m order v : Int)) →
      (∀ v ∈ order ++ queue, cnt.getD v 0 ≤ 0) →
      (∀ v, v < m.length → v ∉ order ++ queue → 0 < cnt.getD v 0) →
      (∀ v ∈ queue, ∀ u, Edge m u v → u ∈ order) →
      (∀ k, ∀ hk : k < order.length, ∀ u,
        Edge m u (order.get ⟨k, hk⟩) → u ∈ order.take k) →
      m.length + 1 ≤ order.length + fuel →
      ∃ ord, kahn_loop m fuel cnt queue order = some ord ∧
        ord.Nodup ∧ (∀ v ∈ ord, v < m.length) ∧
        (∀ v, v < m.length → v ∈ ord) ∧
        ∀ k, ∀ hk : k < ord.length, ∀ u,
          Edge m u (ord.get ⟨k, hk⟩) → u ∈ ord.take k := by
  intro fuel
  induction fuel with
  | zero =>
    intro cnt queue order _ h2 h3 _ _ _ _ _ hF
    exfalso
    have hord : order.Nodup := h2.of_append_left
    have := nodup_lt_length_le hord
      (fun x hx => h3 x (List.mem_append_left _ hx))
    omega
  | succ fuel ih =>
    intro cnt queue order h1 h2 h3 h4 h5 h6 h7 h8 hF
    cases queue with
    | nil =>
      have hord : order.Nodup := by
        rw [List.append_nil] at h2
        exact h2
      refine ⟨order, rfl, hord, ?_, ?_, h8⟩
      · intro v hv
        exact h3 v (List.mem_append_left _ hv)
      · intro v hv
        by_contra hvmem
        have hstep : ∀ w, (w < m.length ∧ w ∉ order) →
            ∃ x, (x < m.length ∧ x ∉ order) ∧ Edge m x w := by
          rintro w ⟨hw, hwo⟩
          have hpos : 0 < cnt.getD w 0 := h6 w hw
            (by rw [List.append_nil]; exact hwo)
          have h4w := h4 w hw
          have hlt2 : procIn m order w < indeg m w := by omega
          obtain ⟨x, hx1, hx2, hx3⟩ := exists_unprocessed_in_nbr hlt2
          exact ⟨x, ⟨hx1, hx3⟩, hx2⟩
        exact hac (backward_chain_cycle (fun w hw => hw.1) hstep
          ⟨hv, hvmem⟩)
    | cons u rest =>
      have hmemu : u ∈ order ++ u :: rest :=
        List.mem_append_right _ (List.mem_cons_self _ _)
      have hun : u < m.length := h3 u hmemu
      have hnodmid : (u :: (order ++ rest)).Nodup := List.nodup_middle.mp h2
      obtain ⟨hs1, hs2, hs3⟩ := kahn_fold_char m u (List.range m.length)
        cnt rest (List.nodup_range _)
        (fun v hv => by rw [h1]; exact List.mem_range.mp hv)
      set st := (List.range m.length).foldl (kahn_visit m u) (cnt, rest)
        with hst
      set newQ := (List.range m.length).filter
        (fun v => decide (entry m u v ≠ 0) && decide (cnt.getD v 0 = 1))
        with hnq
      have hnqmem : ∀ v, v ∈ newQ ↔
          v < m.length ∧ entry m u v ≠ 0 ∧ cnt.getD v 0 = 1 := by
        intro v
        rw [hnq, List.mem_filter, List.mem_range]
        constructor
        · rintro ⟨hv1, hv2⟩
          rw [Bool.and_eq_true, decide_eq_true_eq, decide_eq_true_eq] at hv2
          exact ⟨hv1, hv2.1, hv2.2⟩
        · rintro ⟨hv1, hv2, hv3⟩
          refine ⟨hv1, ?_⟩
          rw [Bool.and_eq_true, decide_eq_true_eq, decide_eq_true_eq]
          exact ⟨hv2, hv3⟩
      have hlen' : st.1.length = m.length := hs1.trans h1
      have hcnt' : ∀ v, v < m.length → st.1.getD v 0
          = cnt.getD v 0 - (if entry m u v ≠ 0 then 1 else 0) := by
        intro v hv
        rw [hs2 v (by rw [h1]; exact hv)]
        congr 1
        rw [if_congr (show (v ∈ List.range m.length ∧ entry m u v ≠ 0)
            ↔ entry m u v ≠ 0 from
          ⟨And.right, fun h => ⟨List.mem_range.mpr hv, h⟩⟩) rfl rfl]
      have hkey : (order ++ [u]) ++ (rest ++ newQ)
          = (order ++ u :: rest) ++ newQ := by
        simp
      have hnewdisj : ∀ v ∈ newQ, v ∉ order ++ u :: rest := by
        intro v hv hvold
        have h5v := h5 v hvold
        have hc1 := ((hnqmem v).mp hv).2.2
        omega
      have h2' : ((order ++ [u]) ++ (rest ++ newQ)).Nodup := by
        rw [hkey, List.nodup_append]
        refine ⟨h2, (List.nodup_range _).filter _, ?_⟩
        intro x hx hx2
        exact hnewdisj x hx2 hx
      have h3' : ∀ v ∈ (order ++ [u]) ++ (rest ++ newQ), v < m.length := by
        intro v hv
        rw [hkey] at hv
        rcases List.mem_append.mp hv with h | h
        · exact h3 v h
        · exact ((hnqmem v).mp h).1
      have h4' : ∀ v, v < m.length → st.1.getD v 0
          = (indeg m v : Int) - (procIn m (order ++ [u]) v : Int) := by
        intro v hv
        rw [hcnt' v hv, h4 v hv, procIn_append]
        by_cases hE : entry m u v ≠ 0
        · rw [if_pos hE, if_pos hE]
          push_cast
          ring
        · rw [if_neg hE, if_neg hE]
          push_cast
          ring
      have h5' : ∀ v ∈ (order ++ [u]) ++ (rest ++ newQ),
          st.1.getD v 0 ≤ 0 := by
        intro v hv
        have hvn := h3' v hv
        rw [hcnt' v hvn]
        rw [hkey] at hv
        rcases List.mem_append.mp hv with h | h
        · have h5v := h5 v h
          by_cases hE : entry m u v ≠ 0
          · rw [if_pos hE]
            omega
          · rw [if_neg hE]
            omega
        · obtain ⟨_, hE, hc1⟩ := (hnqmem v).mp h
          rw [if_pos hE]
          omega
      have h6' : ∀ v, v < m.length →
          v ∉ (order ++ [u]) ++ (rest ++ newQ) → 0 < st.1.getD v 0 := by
        intro v hv hvm
        rw [hkey] at hvm
        have hvold : v ∉ order ++ u :: rest :=
          fun hh => hvm (List.mem_append_left _ hh)
        have hvnew : v ∉ newQ :=
          fun hh => hvm (List.mem_append_right _ hh)
        have hpos := h6 v hv hvold
        rw [hcnt' v hv]
        by_cases hE : entry m u v ≠ 0
        · rw [if_pos hE]
          have hne1 : cnt.getD v 0 ≠ 1 := by
            intro hh
            exact hvnew ((hnqmem v).mpr ⟨hv, hE, hh⟩)
          omega
        · rw [if_neg hE]
          omega
      have hordnd : (order ++ [u]).Nodup := h2'.of_append_left
      have hbord : ∀ x ∈ order ++ [u], x < m.length :=
        fun x hx => h3' x (List.mem_append_left _ hx)
      have h7' : ∀ v ∈ rest ++ newQ, ∀ x, Edge m x v →
          x ∈ order ++ [u] := by
        intro v hv x hE
        rcases List.mem_append.mp hv with h | h
        · exact List.mem_append_left _
            (h7 v (List.mem_cons_of_mem _ h) x hE)
        · obtain ⟨hvn, hEv, hc1⟩ := (hnqmem v).mp h
          have hz : st.1.getD v 0 = 0 := by
            rw [hcnt' v hvn, if_pos hEv]
            omega
          have heq2 : procIn m (order ++ [u]) v = indeg m v := by
            have h4v := h4' v hvn
            rw [hz] at h4v
            omega
          exact all_in_nbrs_mem hordnd hbord heq2 hE
      have h8' : ∀ k, ∀ hk : k < (order ++ [u]).length, ∀ x,
          Edge m x ((order ++ [u]).get ⟨k, hk⟩) →
          x ∈ (order ++ [u]).take k := by
        intro k hk x hE
        have hk2 : k < order.length + 1 := by
          rw [List.length_append] at hk
          simpa using hk
        by_cases hko : k < order.length
        · have hget : (order ++ [u]).get ⟨k, hk⟩ = order.get ⟨k, hko⟩ := by
            simp [List.get_eq_getElem, List.getElem_append_left hko]
          rw [hget] at hE
          have hmem := h8 k hko x hE
          rw [List.take_append_of_le_length (le_of_lt hko)]
          exact hmem
        · have hkeq : k = order.length := by omega
          subst hkeq
          have hget : (order ++ [u]).get ⟨order.length, hk⟩ = u := by
            simp only [List.get_eq_getElem]
            exact List.getElem_concat_length order u _ rfl _
          rw [hget] at hE
          have hxo := h7 u (List.mem_cons_self _ _) x hE
          rw [List.take_append_of_le_length le_rfl, List.take_length]
          exact hxo
      have hF' : m.length + 1 ≤ (order ++ [u]).length + fuel := by
        rw [List.length_append]
        simp only [List.length_cons, List.length_nil]
        omega
      obtain ⟨ord, hloop, hord1, hord2, hord3, hord4⟩ :=
        ih st.1 (rest ++ newQ) (order ++ [u]) hlen' h2' h3' h4' h5' h6'
          h7' h8' hF'
      refine ⟨ord, ?_, hord1, hord2, hord3, hord4⟩
      show kahn_loop m fuel st.1 st.2 (order ++ [u]) = some ord
      rw [hs3]
      exact hloop

theorem procIn_nil (m : Mat) (v : Nat) : procIn m [] v = 0 := rfl

theorem topo_sort_order_ok {m : Mat} (hac : ¬ HasCycleRel (Edge m)) :
    ∃ ord, topo_sort_order m = some ord ∧ ord.length = m.length ∧
      ord.Nodup ∧ (∀ v ∈ ord, v < m.length) ∧
      (∀ v, v < m.length → v ∈ ord) ∧
      ∀ k, ∀ hk : k < ord.length, ∀ u,
        Edge m u (ord.get ⟨k, hk⟩) → u ∈ ord.take k := by
  set q0 := (List.range m.length).filter
    (fun i => decide ((in_degrees m).getD i 0 = 0)) with hq0
  have hq0mem : ∀ v, v ∈ q0 ↔ v < m.length ∧ (in_degrees m).getD v 0 = 0 := by
    intro v
    rw [hq0, List.mem_filter, List.mem_range, decide_eq_true_eq]
  have hmain := kahn_loop_ok m hac (m.length + 1) (in_degrees m) q0 []
    (length_in_degrees m)
    (by
      rw [List.nil_append]
      exact (List.nodup_range _).filter _)
    (by
      intro v hv
      rw [List.nil_append] at hv
      exact ((hq0mem v).mp hv).1)
    (by
      intro v hv
      rw [in_degrees_getD hv, procIn_nil]
      omega)
    (by
      intro v hv
      rw [List.nil_append] at hv
      rw [((hq0mem v).mp hv).2])
    (by
      intro v hv hvm
      rw [List.nil_append] at hvm
      have hvq : ¬ ((in_degrees m).getD v 0 = 0) :=
        fun hh => hvm ((hq0mem v).mpr ⟨hv, hh⟩)
      rw [in_degrees_getD hv] at hvq ⊢
      omega)
    (by
      intro v hv x hE
      exfalso
      have hz := ((hq0mem v).mp hv).2
      rw [in_degrees_getD ((hq0mem v).mp hv).1] at hz
      have hiz : indeg m v = 0 := by omega
      have hxin : x ∈ (List.range m.length).filter
          fun u => decide (entry m u v ≠ 0) := by
        rw [List.mem_filter]
        exact ⟨List.mem_range.mpr hE.src_lt, decide_eq_true hE⟩
      unfold indeg at hiz
      rw [List.length_eq_zero.mp hiz] at hxin
      cases hxin)
    (by
      intro k hk
      exact absurd hk (Nat.not_lt_zero k))
    (by simp)
  obtain ⟨ord, hloop, hnd, hbound, hcompl, hsorted⟩ := hmain
  have hle : ord.length ≤ m.length := nodup_lt_length_le hnd hbound
  have hge : m.length ≤ ord.length := by
    have hsub : List.range m.length ⊆ ord := by
      intro x hx
      exact hcompl x (List.mem_range.mp hx)
    have := nodup_subset_length (List.nodup_range _) hsub
    rw [List.length_range] at this
    exact this
  have hlen : ord.length = m.length := le_antisymm hle hge
  refine ⟨ord, ?_, hlen, hnd, hbound, hcompl, hsorted⟩
  unfold topo_sort_order
  rw [← hq0, hloop]
  show (if ord.length = m.length then some ord else none) = some ord
  rw [if_pos hlen]

/-! ### `rearrange_adj_matrix` of a complete order is sorted -/

theorem foldl_enumFrom_no_match {v : Nat} :
    ∀ (l : List Nat) (s k0 : Nat), v ∉ l →
      (l.enumFrom s).foldl
        (fun acc p => if p.2 = v then p.1 else acc) k0 = k0 := by
  intro l
  induction l with
  | nil =>
    intro s k0 _
    rfl
  | cons x rest ih =>
    intro s k0 hv
    have hxv : ¬ (x = v) := fun hh => hv (hh ▸ List.mem_cons_self x rest)
    rw [show (x :: rest).enumFrom s = (s, x) :: rest.enumFrom (s + 1)
      from rfl, List.foldl_cons]
    dsimp only
    rw [if_neg hxv]
    exact ih (s + 1) k0 (fun hh => hv (List.mem_cons_of_mem _ hh))

theorem foldl_enumFrom_get {v : Nat} :
    ∀ (l : List Nat) (k : Nat) (hk : k < l.length), l.Nodup →
      l.get ⟨k, hk⟩ = v →
      ∀ (s k0 : Nat),
        (l.enumFrom s).foldl
          (fun acc p => if p.2 = v then p.1 else acc) k0 = s + k := by
  intro l
  induction l with
  | nil =>
    intro k hk
    exact absurd hk (Nat.not_lt_zero k)
  | cons x rest ih =>
    intro k hk hnd hget s k0
    rw [show (x :: rest).enumFrom s = (s, x) :: rest.enumFrom (s + 1)
      from rfl, List.foldl_cons]
    dsimp only
    cases k with
    | zero =>
      have hxv : x = v := hget
      rw [if_pos hxv]
      have hvr : v ∉ rest := hxv ▸ (List.nodup_cons.mp hnd).1
      rw [foldl_enumFrom_no_match rest (s + 1) s hvr]
      omega
    | succ k2 =>
      have hk2 : k2 < rest.length := by
        simp only [List.length_cons] at hk
        omega
      have hget2 : rest.get ⟨k2, hk2⟩ = v := hget
      have hxv : ¬ (x = v) := by
        intro hh
        have hvm : v ∈ rest := hget2 ▸ List.get_mem _ _ _
        exact (List.nodup_cons.mp hnd).1 (hh ▸ hvm)
      rw [if_neg hxv]
      rw [ih k2 hk2 (List.nodup_cons.mp hnd).2 hget2 (s + 1) k0]
      omega

theorem index_map_get {ord : List Nat} (hnd : ord.Nodup) {k : Nat}
    (hk : k < ord.length) :
    index_map ord (ord.get ⟨k, hk⟩) = k := by
  unfold index_map
  rw [show ord.enum = ord.enumFrom 0 from rfl,
    foldl_enumFrom_get ord k hk hnd rfl 0 0]
  omega

theorem index_map_mem_lt {ord : List Nat} (hnd : ord.Nodup) {v : Nat}
    (hv : v ∈ ord) : index_map ord v < ord.length := by
  obtain ⟨⟨k, hk⟩, hget⟩ := List.mem_iff_get.mp hv
  rw [← hget, index_map_get hnd hk]
  exact hk

theorem index_map_get_inv {ord : List Nat} (hnd : ord.Nodup) {v : Nat}
    (hv : v ∈ ord) (h : index_map ord v < ord.length) :
    ord.get ⟨index_map ord v, h⟩ = v := by
  obtain ⟨⟨k, hk⟩, hget⟩ := List.mem_iff_get.mp hv
  have him : index_map ord v = k := by
    rw [← hget, index_map_get hnd hk]
  rw [get_idx_congr h hk him, hget]

theorem entry_foldl_writes_agree :
    ∀ (W : List ((Nat × Nat) × Int)) (base : Mat) (a b : Nat) (val : Int),
      a < base.length → b < (base.getD a []).length →
      entry base a b = val →
      (∀ w ∈ W, w.1 = (a, b) → w.2 = val) →
      entry (W.foldl (fun sm w => setEntry sm w.1.1 w.1.2 w.2) base) a b
        = val := by
  intro W
  induction W with
  | nil =>
    intro base a b val _ _ h _
    exact h
  | cons w rest ih =>
    intro base a b val ha hb hbase hagree
    rw [List.foldl_cons]
    refine ih _ a b val ?_ ?_ ?_
      (fun x hx hx2 => hagree x (List.mem_cons_of_mem _ hx) hx2)
    · rw [length_setEntry]
      exact ha
    · rw [rowlen_setEntry]
      exact hb
    · by_cases hw : w.1 = (a, b)
      · have ha1 : w.1.1 = a := by rw [hw]
        have hb1 : w.1.2 = b := by rw [hw]
        rw [ha1, hb1, entry_setEntry_same ha hb]
        exact hagree w (List.mem_cons_self _ _) hw
      · rw [entry_setEntry_other
          (fun hh => hw (Prod.mk.eta.symm.trans hh))]
        exact hbase

theorem entry_foldl_writes_hit :
    ∀ (W : List ((Nat × Nat) × Int)) (base : Mat) (a b : Nat) (val : Int),
      a < base.length → b < (base.getD a []).length →
      ((a, b), val) ∈ W →
      (∀ w ∈ W, w.1 = (a, b) → w.2 = val) →
      entry (W.foldl (fun sm w => setEntry sm w.1.1 w.1.2 w.2) base) a b
        = val := by
  intro W
  induction W with
  | nil =>
    intro base a b val _ _ h _
    cases h
  | cons w rest ih =>
    intro base a b val ha hb hmem hagree
    rw [List.foldl_cons]
    by_cases hw : w.1 = (a, b)
    · refine entry_foldl_writes_agree rest _ a b val ?_ ?_ ?_
        (fun x hx hx2 => hagree x (List.mem_cons_of_mem _ hx) hx2)
      · rw [length_setEntry]
        exact ha
      · rw [rowlen_setEntry]
        exact hb
      · have hval : w.2 = val := hagree w (List.mem_cons_self _ _) hw
        have ha1 : w.1.1 = a := by rw [hw]
        have hb1 : w.1.2 = b := by rw [hw]
        rw [ha1, hb1, hval, entry_setEntry_same ha hb]
    · have hmem2 : ((a, b), val) ∈ rest := by
        rcases List.mem_cons.mp hmem with h | h
        · exact absurd (congrArg Prod.fst h).symm hw
        · exact h
      refine ih _ a b val ?_ ?_ hmem2
        (fun x hx hx2 => hagree x (List.mem_cons_of_mem _ hx) hx2)
      · rw [length_setEntry]
        exact ha
      · rw [rowlen_setEntry]
        exact hb

theorem foldl_nested_writes (g : Nat → Nat → ((Nat × Nat) × Int))
    (linner : List Nat) :
    ∀ (louter : List Nat) (base : Mat),
      louter.foldl (fun sm i => linner.foldl
        (fun sm j => setEntry sm (g i j).1.1 (g i j).1.2 (g i j).2) sm)
        base
        = (louter.flatMap fun i => linner.map (g i)).foldl
            (fun sm w => setEntry sm w.1.1 w.1.2 w.2) base := by
  intro louter
  induction louter with
  | nil =>
    intro base
    rfl
  | cons x rest ih =>
    intro base
    rw [List.foldl_cons, List.flatMap_cons, List.foldl_append, ih]
    congr 1
    rw [List.foldl_map]

theorem rearrange_eq_writes (m : Mat) (order : List Nat) :
    rearrange_adj_matrix m order
      = ((List.range m.length).flatMap fun i =>
          (List.range m.length).map fun j =>
            ((index_map order i, index_map order j), entry m i j)).foldl
          (fun sm w => setEntry sm w.1.1 w.1.2 w.2)
          (List.replicate m.length (List.replicate m.length 0)) := by
  unfold rearrange_adj_matrix
  exact foldl_nested_writes
    (fun i j => ((index_map order i, index_map order j), entry m i j))
    (List.range m.length) (List.range m.length) _

theorem length_foldl_setEntry :
    ∀ (W : List ((Nat × Nat) × Int)) (base : Mat),
      (W.foldl (fun sm w => setEntry sm w.1.1 w.1.2 w.2) base).length
        = base.length := by
  intro W
  induction W with
  | nil =>
    intro base
    rfl
  | cons w rest ih =>
    intro base
    rw [List.foldl_cons, ih, length_setEntry]

theorem length_rearrange (m : Mat) (ord : List Nat) :
    (rearrange_adj_matrix m ord).length = m.length := by
  rw [rearrange_eq_writes, length_foldl_setEntry, List.length_replicate]

theorem entry_rearrange {m : Mat} {ord : List Nat}
    (hnd : ord.Nodup) (hlen : ord.length = m.length)
    (hbound : ∀ v ∈ ord, v < m.length)
    (hcompl : ∀ v, v < m.length → v ∈ ord)
    {a b : Nat} (ha : a < m.length) (hb : b < m.length) :
    entry (rearrange_adj_matrix m ord) a b
      = entry m (ord.get ⟨a, by omega⟩) (ord.get ⟨b, by omega⟩) := by
  have hao : a < ord.length := by omega
  have hbo : b < ord.length := by omega
  rw [rearrange_eq_writes]
  refine entry_foldl_writes_hit _ _ a b _ ?_ ?_ ?_ ?_
  · rw [List.length_replicate]
    exact ha
  · have hrow : (List.replicate m.length
        (List.replicate m.length (0 : Int))).getD a []
        = List.replicate m.length (0 : Int) := by
      rw [List.getD_eq_getElem _ _
        (by rw [List.length_replicate]; exact ha)]
      exact List.getElem_replicate _ _
    rw [hrow, List.length_replicate]
    exact hb
  · rw [List.mem_flatMap]
    refine ⟨ord.get ⟨a, hao⟩,
      List.mem_range.mpr (hbound _ (List.get_mem _ _ _)), ?_⟩
    rw [List.mem_map]
    refine ⟨ord.get ⟨b, hbo⟩,
      List.mem_range.mpr (hbound _ (List.get_mem _ _ _)), ?_⟩
    rw [index_map_get hnd hao, index_map_get hnd hbo]
  · intro w hw hw1
    rw [List.mem_flatMap] at hw
    obtain ⟨i, hi, hw2⟩ := hw
    rw [List.mem_map] at hw2
    obtain ⟨j, hj, rfl⟩ := hw2
    have hia : index_map ord i = a := congrArg Prod.fst hw1
    have hjb : index_map ord j = b := congrArg Prod.snd hw1
    have hiord : i ∈ ord := hcompl i (List.mem_range.mp hi)
    have hjord : j ∈ ord := hcompl j (List.mem_range.mp hj)
    have hilt := index_map_mem_lt hnd hiord
    have hjlt := index_map_mem_lt hnd hjord
    have hgi := index_map_get_inv hnd hiord hilt
    have hgj := index_map_get_inv hnd hjord hjlt
    have hi2 : ord.get ⟨a, hao⟩ = i := by
      rw [get_idx_congr hao hilt hia.symm]
      exact hgi
    have hj2 : ord.get ⟨b, hbo⟩ = j := by
      rw [get_idx_congr hbo hjlt hjb.symm]
      exact hgj
    show entry m i j = entry m (ord.get ⟨a, hao⟩) (ord.get ⟨b, hbo⟩)
    rw [hi2, hj2]

/-- C8: on every square matrix with an empty cycle list, Kahn's algorithm
returns a complete vertex order and the relabelled matrix passes
`is_topo_sorted`: no edge `(i, j)` with `j < i` survives. -/
theorem c8_topological_consistency (m : Mat) (hsq : IsSquare m)
    (hac : find_cycles m = []) :
    ∃ ord, topo_sort_order m = some ord ∧ ord.length = m.length ∧
      is_topo_sorted (rearrange_adj_matrix m ord) = true := by
  obtain ⟨ord, hord, hlen, hnd, hbound, hcompl, hsorted⟩ :=
    topo_sort_order_ok (acyclic_of_find_cycles_nil hac)
  refine ⟨ord, hord, hlen, ?_⟩
  unfold is_topo_sorted
  rw [List.all_eq_true]
  intro i hi
  rw [List.all_eq_true]
  intro j hj
  rw [decide_eq_true_eq]
  have hin : i < m.length := by
    have h2 := List.mem_range.mp hi
    rw [length_rearrange] at h2
    exact h2
  have hji : j < i := List.mem_range.mp hj
  have hjn : j < m.length := by omega
  rw [entry_rearrange hnd hlen hbound hcompl hin hjn]
  by_contra hne
  have hE : Edge m (ord.get ⟨i, by omega⟩) (ord.get ⟨j, by omega⟩) := hne
  have hmem := hsorted j (by omega) _ hE
  rw [List.mem_take_iff_getElem] at hmem
  obtain ⟨t, ht, hteq⟩ := hmem
  have ht2 : t < ord.length := by omega
  have htj : t < j := by omega
  have hget : ord.get ⟨t, ht2⟩ = ord.get ⟨i, by omega⟩ := by
    rw [List.get_eq_getElem, List.get_eq_getElem]
    exact hteq
  have hfin := hnd.get_inj_iff.mp hget
  have htieq : t = i := congrArg Fin.val hfin
  omega

/-- C8 witness: the already-sorted DAG `[[0, 1], [0, 0]]` is square with
no cycles; the theorem yields a complete order whose rearrangement passes
the sortedness check. -/
theorem c8_topological_consistency_witness :
    IsSquare ([[0, 1], [0, 0]] : Mat) ∧
    find_cycles [[0, 1], [0, 0]] = [] ∧
    ∃ ord, topo_sort_order [[0, 1], [0, 0]] = some ord ∧
      ord.length = ([[0, 1], [0, 0]] : Mat).length ∧
      is_topo_sorted (rearrange_adj_matrix [[0, 1], [0, 0]] ord) = true :=
  ⟨by decide, by decide,
    c8_topological_consistency [[0, 1], [0, 0]] (by decide) (by decide)⟩

/-- C9: `topological_sort` takes the `NotAcyclic` failure path exactly
when the graph's cycle list is non-empty, and on an acyclic graph whose
matrix is already topologically sorted it returns the same graph
unchanged. -/
theorem c9_topological_sort_contract (g : DiGraph) :
    (topological_sort g = TopoResult.notAcyclic ↔ g.cycles ≠ []) ∧
    (g.cycles = [] → g.is_topologically_sorted = true →
      topological_sort g = TopoResult.ok g) := by
  constructor
  · constructor
    · intro h
      by_contra hne
      rw [topological_sort, if_neg (fun hh => hh hne)] at h
      by_cases hs : g.is_topologically_sorted
      · rw [if_pos hs] at h
        cases h
      · rw [if_neg hs] at h
        cases hm : topo_sort g.adj_matrix with
        | none =>
          rw [hm] at h
          cases h
        | some m2 =>
          rw [hm] at h
          cases h
    · intro h
      rw [topological_sort, if_pos h]
  · intro hc hs
    rw [topological_sort, if_neg (fun hh => hh hc), if_pos hs]

/-- C9 witness: on the already-sorted acyclic graph built from
`[[0, 1], [0, 0]]` (concrete scenario D) `topological_sort` returns the
graph itself. -/
theorem c9_topological_sort_contract_witness :
    topological_sort (mkDiGraph [[0, 1], [0, 0]])
      = TopoResult.ok (mkDiGraph [[0, 1], [0, 0]]) :=
  (c9_topological_sort_contract (mkDiGraph [[0, 1], [0, 0]])).2
    (by decide) (by decide)

/-! ### C2: cross-algorithm agreement -/

/-- C2 counterexample: the three algorithms do *not* agree on every DAG
with non-negative weights.  The matrix is square, acyclic and
non-negative, yet the DAG dynamic program, which scans vertices in index
order and silently skips still-unreachable ones, never relaxes the edge
`1 → 3` (vertex `1` only becomes reachable at iteration `2`), so it
leaves vertex `3` at infinity while Bellman-Ford and Dijkstra both find
distance `3`.  The matrix is a DAG but not topologically sorted, which is
the missing hypothesis. -/
theorem c2_dag_disagreement :
    IsSquare [[0, 0, 1, 0], [0, 0, 0, 1], [0, 1, 0, 0], [0, 0, 0, 0]] ∧
    find_cycles [[0, 0, 1, 0], [0, 0, 0, 1], [0, 1, 0, 0], [0, 0, 0, 0]]
      = [] ∧
    (∀ i ∈ List.range 4, ∀ j ∈ List.range 4, 0 ≤ entry
      [[0, 0, 1, 0], [0, 0, 0, 1], [0, 1, 0, 0], [0, 0, 0, 0]] i j) ∧
    (bellman_ford
        [[0, 0, 1, 0], [0, 0, 0, 1], [0, 1, 0, 0], [0, 0, 0, 0]] 0).map
        Prod.fst = some [(0 : Dist), 2, 1, 3] ∧
    (dijkstra
        [[0, 0, 1, 0], [0, 0, 0, 1], [0, 1, 0, 0], [0, 0, 0, 0]] 0).map
        Prod.fst = some [(0 : Dist), 2, 1, 3] ∧
    (shortest_paths_dp
        [[0, 0, 1, 0], [0, 0, 0, 1], [0, 1, 0, 0], [0, 0, 0, 0]] 0).1
      = [(0 : Dist), 2, 1, ⊤] := by
  refine ⟨by decide, by decide, by decide, ?_, ?_, ?_⟩ <;> decide

/-- A distance achievable at `v` by a relaxation sequence from `s`: all
three engines relax exactly over the off-diagonal nonzero entries (for
`shortest_paths_dp` and `dijkstra` this uses that the matrix has no
nonzero diagonal entry, which is a hypothesis of the agreement
theorem). -/
inductive Ach (m : Mat) (s : Nat) : Nat → Dist → Prop
  | src : Ach m s s 0
  | step {u v : Nat} {d : Dist} : Ach m s u d → u ≠ v →
      entry m u v ≠ 0 → Ach m s v (d + (entry m u v : Dist))

/-- Achievability in exactly `k` relaxation steps. -/
inductive AchK (m : Mat) (s : Nat) : Nat → Nat → Dist → Prop
  | src : AchK m s 0 s 0
  | step {k : Nat} {u v : Nat} {d : Dist} : AchK m s k u d → u ≠ v →
      entry m u v ≠ 0 → AchK m s (k + 1) v (d + (entry m u v : Dist))

theorem ach_iff_achK {m : Mat} {s v : Nat} {c : Dist} :
    Ach m s v c ↔ ∃ k, AchK m s k v c := by
  constructor
  · intro h
    induction h with
    | src => exact ⟨0, AchK.src⟩
    | step _ hne hE ih =>
      obtain ⟨k, hk⟩ := ih
      exact ⟨k + 1, AchK.step hk hne hE⟩
  · rintro ⟨k, hk⟩
    induction hk with
    | src => exact Ach.src
    | step _ hne hE ih => exact Ach.step ih hne hE

/-- The distance list is relaxed: the source is at most `0` and no edge
improves it. -/
def PreFix (m : Mat) (s : Nat) (d : List Dist) : Prop :=
  wget d s ≤ 0 ∧ ∀ u v, u ≠ v → entry m u v ≠ 0 →
    wget d v ≤ wget d u + (entry m u v : Dist)

/-- Every finite stored distance is achievable. -/
def AchVals (m : Mat) (s : Nat) (d : List Dist) : Prop :=
  ∀ v, v < m.length → wget d v = ⊤ ∨ Ach m s v (wget d v)

theorem preFix_le_ach {m : Mat} {s : Nat} {d : List Dist}
    (h : PreFix m s d) : ∀ {v : Nat} {c : Dist}, Ach m s v c →
      wget d v ≤ c := by
  intro v c hach
  induction hach with
  | src => exact h.1
  | step _ hne hE ih =>
    exact le_trans (h.2 _ _ hne hE) (add_le_add_right ih _)

/-- Any two relaxed, achievable distance lists agree on every vertex:
the heart of the cross-algorithm agreement. -/
theorem valid_unique {m : Mat} {s : Nat} {d1 d2 : List Dist}
    (h1p : PreFix m s d1) (h1a : AchVals m s d1)
    (h2p : PreFix m s d2) (h2a : AchVals m s d2) :
    ∀ v, v < m.length → wget d1 v = wget d2 v := by
  intro v hv
  refine le_antisymm ?_ ?_
  · rcases h2a v hv with h | h
    · rw [h]
      exact le_top
    · exact preFix_le_ach h1p h
  · rcases h1a v hv with h | h
    · rw [h]
      exact le_top
    · exact preFix_le_ach h2p h

theorem achK_chain_fn {m : Mat} {s : Nat} :
    ∀ {k v : Nat} {c : Dist}, AchK m s k v c →
      ∃ f : Nat → Nat, f 0 = s ∧ f k = v ∧
        ∀ i, i < k → f i ≠ f (i + 1) ∧ entry m (f i) (f (i + 1)) ≠ 0 := by
  intro k v c h
  induction h with
  | src =>
    exact ⟨fun _ => s, rfl, rfl, fun i hi => absurd hi (Nat.not_lt_zero i)⟩
  | step h2 hne hE ih =>
    rename_i k2 u v2 d2
    obtain ⟨f, hf0, hfk, hfe⟩ := ih
    refine ⟨fun i => if i = k2 + 1 then v2 else f i, ?_, ?_, ?_⟩
    · dsimp only
      rw [if_neg (by omega)]
      exact hf0
    · dsimp only
      rw [if_pos rfl]
    · intro i hi
      dsimp only
      by_cases hik : i = k2
      · subst hik
        rw [if_neg (by omega), if_pos rfl, hfk]
        exact ⟨hne, hE⟩
      · have hi2 : i < k2 := by omega
        rw [if_neg (by omega), if_neg (by omega)]
        exact hfe i hi2

theorem achK_lt_length {m : Mat} (hsq : IsSquare m) {s : Nat}
    (hs : s < m.length) (hac : ¬ HasCycleRel (Edge m)) :
    ∀ {k v : Nat} {c : Dist}, AchK m s k v c → k < m.length := by
  intro k v c h
  obtain ⟨f, hf0, _, hfe⟩ := achK_chain_fn h
  have hbound : ∀ i, i ≤ k → f i < m.length := by
    intro i
    induction i with
    | zero =>
      intro _
      rw [hf0]
      exact hs
    | succ i2 ihi =>
      intro hik
      have hE := (hfe i2 (by omega)).2
      exact Edge.tgt_lt hsq hE
  by_contra hk
  push_neg at hk
  have hchain : ∀ d a, a + d + 1 ≤ k →
      Relation.TransGen (Edge m) (f a) (f (a + d + 1)) := by
    intro d
    induction d with
    | zero =>
      intro a ha
      exact Relation.TransGen.single (hfe a (by omega)).2
    | succ d2 ihd =>
      intro a ha
      have h1 := ihd a (by omega)
      have h2 : Relation.TransGen (Edge m) (f (a + d2 + 1))
          (f (a + d2 + 1 + 1)) :=
        Relation.TransGen.single (hfe (a + d2 + 1) (by omega)).2
      have he : a + (d2 + 1) + 1 = a + d2 + 1 + 1 := by omega
      rw [he]
      exact Relation.TransGen.trans h1 h2
  have hmaps : ∀ i ∈ Finset.range (k + 1), f i ∈ Finset.range m.length := by
    intro i hi
    exact Finset.mem_range.mpr (hbound i (by
      have := Finset.mem_range.mp hi
      omega))
  obtain ⟨i1, hi1, i2, hi2, hne, heq⟩ :=
    Finset.exists_ne_map_eq_of_card_lt_of_maps_to
      (by
        rw [Finset.card_range, Finset.card_range]
        omega) hmaps
  have hi1k := Finset.mem_range.mp hi1
  have hi2k := Finset.mem_range.mp hi2
  apply hac
  rcases Nat.lt_or_ge i1 i2 with hlt | hge
  · obtain ⟨d, rfl⟩ : ∃ d, i2 = i1 + d + 1 := ⟨i2 - i1 - 1, by omega⟩
    exact ⟨f i1, heq ▸ hchain d i1 (by omega)⟩
  · have hlt2 : i2 < i1 := by
      rcases Nat.lt_or_ge i2 i1 with h2 | h2
      · exact h2
      · exact absurd (Nat.le_antisymm h2 hge) hne
    obtain ⟨d, rfl⟩ : ∃ d, i1 = i2 + d + 1 := ⟨i1 - i2 - 1, by omega⟩
    exact ⟨f i2, heq.symm ▸ hchain d i2 (by omega)⟩

/-! ### Bellman-Ford computes a relaxed achievable distance list -/

theorem wget_set_self {dp : List Dist} {v : Nat} {x : Dist}
    (h : v < dp.length) : wget (dp.set v x) v = x :=
  getD_set_self2 h

theorem wget_set_ne {dp : List Dist} {v w : Nat} {x : Dist} (h : v ≠ w) :
    wget (dp.set v x) w = wget dp w :=
  getD_set_ne2 h

theorem wget_out {dp : List Dist} {v : Nat} (h : dp.length ≤ v) :
    wget dp v = ⊤ :=
  List.getD_eq_default _ _ h

theorem wget_set_le {dp : List Dist} {v : Nat} {x : Dist}
    (hx : x ≤ wget dp v) (w : Nat) :
    wget (dp.set v x) w ≤ wget dp w := by
  by_cases hvw : v = w
  · subst hvw
    by_cases h : v < dp.length
    · rw [wget_set_self h]
      exact hx
    · rw [List.set_eq_of_length_le (Nat.le_of_not_lt h)]
  · rw [wget_set_ne hvw]

theorem length_sp_init (n s : Nat) : (sp_init n s).dp.length = n := by
  simp [sp_init]

theorem wget_sp_init_src {n s : Nat} (hs : s < n) :
    wget (sp_init n s).dp s = 0 := by
  unfold sp_init
  exact wget_set_self (by simp [hs])

theorem wget_sp_init_ne {n s v : Nat} (hv : v ≠ s) :
    wget (sp_init n s).dp v = ⊤ := by
  unfold sp_init
  rw [wget_set_ne (fun hh => hv hh.symm)]
  by_cases h : v < n
  · unfold wget
    rw [List.getD_eq_getElem _ _ (by simp [h])]
    exact List.getElem_replicate _ _
  · exact wget_out (by simp; omega)

theorem mem_bf_edges_then {m : Mat} {e : Nat × Nat × Int}
    (he : e ∈ bf_edges m) :
    e.1 < m.length ∧ e.2.1 < m.length ∧ e.1 ≠ e.2.1 ∧
      e.2.2 = entry m e.1 e.2.1 ∧ entry m e.1 e.2.1 ≠ 0 := by
  unfold bf_edges at he
  rw [List.mem_flatMap] at he
  obtain ⟨i, hi, he2⟩ := he
  rw [List.mem_filterMap] at he2
  obtain ⟨j, hj, he3⟩ := he2
  by_cases hc : i ≠ j ∧ entry m i j ≠ 0
  · rw [if_pos hc, Option.some.injEq] at he3
    rw [← he3]
    exact ⟨List.mem_range.mp hi, List.mem_range.mp hj, hc.1, rfl, hc.2⟩
  · rw [if_neg hc] at he3
    cases he3

theorem bf_edges_mem_of {m : Mat} (hsq : IsSquare m) {u v : Nat}
    (hne : u ≠ v) (hE : entry m u v ≠ 0) :
    (u, v, entry m u v) ∈ bf_edges m := by
  unfold bf_edges
  rw [List.mem_flatMap]
  refine ⟨u, List.mem_range.mpr (Edge.src_lt hE), ?_⟩
  rw [List.mem_filterMap]
  refine ⟨v, List.mem_range.mpr (Edge.tgt_lt hsq hE), ?_⟩
  rw [if_pos ⟨hne, hE⟩]

theorem bf_relax_dp_le (st : SPState × Bool) (e : Nat × Nat × Int)
    (v : Nat) : wget (bf_relax st e).1.dp v ≤ wget st.1.dp v := by
  unfold bf_relax
  by_cases hc : wget st.1.dp e.1 ≠ ⊤ ∧
      wget st.1.dp e.1 + (e.2.2 : Dist) < wget st.1.dp e.2.1
  · rw [if_pos hc]
    exact wget_set_le (le_of_lt hc.2) v
  · rw [if_neg hc]

theorem bf_relax_length (st : SPState × Bool) (e : Nat × Nat × Int) :
    (bf_relax st e).1.dp.length = st.1.dp.length := by
  unfold bf_relax
  by_cases hc : wget st.1.dp e.1 ≠ ⊤ ∧
      wget st.1.dp e.1 + (e.2.2 : Dist) < wget st.1.dp e.2.1
  · rw [if_pos hc]
    exact List.length_set _ _ _
  · rw [if_neg hc]

theorem foldl_bf_relax_dp_le (l : List (Nat × Nat × Int)) :
    ∀ (st : SPState × Bool) (v : Nat),
      wget (l.foldl bf_relax st).1.dp v ≤ wget st.1.dp v := by
  induction l with
  | nil =>
    intro st v
    exact le_refl _
  | cons e rest ih =>
    intro st v
    rw [List.foldl_cons]
    exact le_trans (ih _ v) (bf_relax_dp_le st e v)

theorem foldl_bf_relax_length (l : List (Nat × Nat × Int)) :
    ∀ (st : SPState × Bool),
      (l.foldl bf_relax st).1.dp.length = st.1.dp.length := by
  induction l with
  | nil =>
    intro st
    rfl
  | cons e rest ih =>
    intro st
    rw [List.foldl_cons, ih, bf_relax_length]

theorem bf_relax_flag_true (l : List (Nat × Nat × Int)) :
    ∀ (st : SPState × Bool), st.2 = true →
      (l.foldl bf_relax st).2 = true := by
  induction l with
  | nil =>
    intro st h
    exact h
  | cons e rest ih =>
    intro st h
    rw [List.foldl_cons]
    refine ih _ ?_
    unfold bf_relax
    by_cases hc : wget st.1.dp e.1 ≠ ⊤ ∧
        wget st.1.dp e.1 + (e.2.2 : Dist) < wget st.1.dp e.2.1
    · rw [if_pos hc]
    · rw [if_neg hc]
      exact h

theorem bf_fold_flag_false (l : List (Nat × Nat × Int)) :
    ∀ (st : SPState × Bool), (l.foldl bf_relax st).2 = false →
      l.foldl bf_relax st = st ∧
      ∀ e ∈ l, ¬ (wget st.1.dp e.1 ≠ ⊤ ∧
        wget st.1.dp e.1 + (e.2.2 : Dist) < wget st.1.dp e.2.1) := by
  induction l with
  | nil =>
    intro st _
    exact ⟨rfl, fun e he => absurd he (List.not_mem_nil e)⟩
  | cons a rest ih =>
    intro st h
    rw [List.foldl_cons] at h ⊢
    by_cases hc : wget st.1.dp a.1 ≠ ⊤ ∧
        wget st.1.dp a.1 + (a.2.2 : Dist) < wget st.1.dp a.2.1
    · exfalso
      have hflag : (bf_relax st a).2 = true := by
        unfold bf_relax
        rw [if_pos hc]
      rw [bf_relax_flag_true rest _ hflag] at h
      cases h
    · have hsame : bf_relax st a = st := by
        unfold bf_relax
        rw [if_neg hc]
      rw [hsame] at h ⊢
      obtain ⟨h1, h2⟩ := ih st h
      refine ⟨h1, ?_⟩
      intro e he
      rcases List.mem_cons.mp he with rfl | he2
      · exact hc
      · exact h2 e he2

theorem bf_fold_relax_bound {dp0 : List Dist} :
    ∀ (l : List (Nat × Nat × Int)) (st : SPState × Bool),
      (∀ v, wget st.1.dp v ≤ wget dp0 v) →
      (∀ e ∈ l, e.2.1 < st.1.dp.length) →
      ∀ e ∈ l, wget (l.foldl bf_relax st).1.dp e.2.1
        ≤ wget dp0 e.1 + (e.2.2 : Dist) := by
  intro l
  induction l with
  | nil =>
    intro st _ _ e he
    exact absurd he (List.not_mem_nil e)
  | cons a rest ih =>
    intro st hle htgt e he
    rw [List.foldl_cons]
    have hle1 : ∀ v, wget (bf_relax st a).1.dp v ≤ wget dp0 v :=
      fun v => le_trans (bf_relax_dp_le st a v) (hle v)
    have htgt1 : ∀ e2 ∈ rest, e2.2.1 < (bf_relax st a).1.dp.length := by
      intro e2 he2
      rw [bf_relax_length]
      exact htgt e2 (List.mem_cons_of_mem _ he2)
    rcases List.mem_cons.mp he with rfl | he2
    · by_cases hc : wget st.1.dp e.1 ≠ ⊤ ∧
          wget st.1.dp e.1 + (e.2.2 : Dist) < wget st.1.dp e.2.1
      · have hafter : wget (bf_relax st e).1.dp e.2.1
            = wget st.1.dp e.1 + (e.2.2 : Dist) := by
          unfold bf_relax
          rw [if_pos hc]
          exact wget_set_self (htgt e (List.mem_cons_self _ _))
        calc wget (rest.foldl bf_relax (bf_relax st e)).1.dp e.2.1
            ≤ wget (bf_relax st e).1.dp e.2.1 :=
              foldl_bf_relax_dp_le rest _ _
          _ = wget st.1.dp e.1 + (e.2.2 : Dist) := hafter
          _ ≤ wget dp0 e.1 + (e.2.2 : Dist) :=
              add_le_add_right (hle e.1) _
      · have hsame : bf_relax st e = st := by
          unfold bf_relax
          rw [if_neg hc]
        rw [hsame]
        rw [not_and_or] at hc
        rcases hc with hc | hc
        · push_neg at hc
          have hdp0 : wget dp0 e.1 = ⊤ :=
            top_le_iff.mp (hc ▸ hle e.1)
          rw [hdp0, top_add]
          exact le_top
        · have hstep : wget st.1.dp e.2.1
              ≤ wget st.1.dp e.1 + (e.2.2 : Dist) := le_of_not_lt hc
          calc wget (rest.foldl bf_relax st).1.dp e.2.1
              ≤ wget st.1.dp e.2.1 := foldl_bf_relax_dp_le rest _ _
            _ ≤ wget st.1.dp e.1 + (e.2.2 : Dist) := hstep
            _ ≤ wget dp0 e.1 + (e.2.2 : Dist) :=
                add_le_add_right (hle e.1) _
    · exact ih _ hle1 htgt1 e he2

/-- All finite stored values are achievable (the form used for the
running state, over all indices). -/
def AchInv (m : Mat) (s : Nat) (dp : List Dist) : Prop :=
  ∀ v, wget dp v = ⊤ ∨ Ach m s v (wget dp v)

/-- After `j` passes every achievement in at most `j` steps bounds the
stored value. -/
def BoundK (m : Mat) (s : Nat) (j : Nat) (dp : List Dist) : Prop :=
  ∀ k v c, k ≤ j → AchK m s k v c → wget dp v ≤ c

theorem bf_relax_achinv {m : Mat} {s : Nat} (st : SPState × Bool)
    {e : Nat × Nat × Int} (he : e ∈ bf_edges m)
    (h : AchInv m s st.1.dp) : AchInv m s (bf_relax st e).1.dp := by
  obtain ⟨_, _, hne, hw, hE⟩ := mem_bf_edges_then he
  intro v
  unfold bf_relax
  by_cases hc : wget st.1.dp e.1 ≠ ⊤ ∧
      wget st.1.dp e.1 + (e.2.2 : Dist) < wget st.1.dp e.2.1
  · rw [if_pos hc]
    by_cases hv : e.2.1 = v
    · subst hv
      by_cases hlen : e.2.1 < st.1.dp.length
      · rw [wget_set_self hlen]
        right
        rcases h e.1 with h2 | h2
        · exact absurd h2 hc.1
        · rw [hw]
          exact Ach.step h2 hne hE
      · rw [List.set_eq_of_length_le (Nat.le_of_not_lt hlen)]
        exact h e.2.1
    · rw [wget_set_ne hv]
      exact h v
  · rw [if_neg hc]
    exact h v

theorem foldl_bf_relax_achinv {m : Mat} {s : Nat} :
    ∀ (l : List (Nat × Nat × Int)), (∀ e ∈ l, e ∈ bf_edges m) →
      ∀ (st : SPState × Bool), AchInv m s st.1.dp →
      AchInv m s (l.foldl bf_relax st).1.dp := by
  intro l
  induction l with
  | nil =>
    intro _ st h
    exact h
  | cons a rest ih =>
    intro hmem st h
    rw [List.foldl_cons]
    exact ih (fun e he => hmem e (List.mem_cons_of_mem _ he)) _
      (bf_relax_achinv st (hmem a (List.mem_cons_self _ _)) h)

theorem bf_pass_boundK {m : Mat} (hsq : IsSquare m) {s j : Nat}
    {st : SPState} (hlen : st.dp.length = m.length)
    (hB : BoundK m s j st.dp) :
    BoundK m s (j + 1) (bf_pass (bf_edges m) st).1.dp := by
  intro k v c hk hach
  unfold bf_pass
  cases hach with
  | src =>
    exact le_trans (foldl_bf_relax_dp_le _ _ _)
      (hB 0 s 0 (by omega) AchK.src)
  | step h2 hne hE =>
    rename_i k2 u d2
    by_cases hk2 : k2 + 1 ≤ j
    · exact le_trans (foldl_bf_relax_dp_le _ _ _)
        (hB _ _ _ hk2 (AchK.step h2 hne hE))
    · have hk3 : k2 ≤ j := by omega
      have hdu : wget st.dp u ≤ d2 := hB k2 u d2 hk3 h2
      have hedge := bf_edges_mem_of hsq hne hE
      have hbound := bf_fold_relax_bound (bf_edges m) (st, false)
        (fun v3 => le_refl _)
        (fun e he => by
          show e.2.1 < st.dp.length
          rw [hlen]
          exact (mem_bf_edges_then he).2.1)
        (u, v, entry m u v) hedge
      exact le_trans hbound (add_le_add_right hdu _)

theorem bf_loop_ok {m : Mat} (hsq : IsSquare m) {s : Nat} :
    ∀ (fuel : Nat) (st : SPState) (j : Nat),
      st.dp.length = m.length →
      AchInv m s st.dp →
      BoundK m s j st.dp →
      (bf_loop (bf_edges m) fuel st).dp.length = m.length ∧
      AchInv m s (bf_loop (bf_edges m) fuel st).dp ∧
      wget (bf_loop (bf_edges m) fuel st).dp s ≤ 0 ∧
      (¬ bf_relaxable (bf_edges m) (bf_loop (bf_edges m) fuel st).dp ∨
        BoundK m s (j + fuel) (bf_loop (bf_edges m) fuel st).dp) := by
  intro fuel
  induction fuel with
  | zero =>
    intro st j hlen hach hB
    exact ⟨hlen, hach, hB 0 s 0 (by omega) AchK.src, Or.inr hB⟩
  | succ fuel ih =>
    intro st j hlen hach hB
    simp only [bf_loop]
    by_cases hflag : (bf_pass (bf_edges m) st).2 = true
    · rw [if_pos hflag]
      have hlen1 : (bf_pass (bf_edges m) st).1.dp.length = m.length := by
        unfold bf_pass
        rw [foldl_bf_relax_length]
        exact hlen
      have hach1 : AchInv m s (bf_pass (bf_edges m) st).1.dp :=
        foldl_bf_relax_achinv (bf_edges m) (fun e he => he) _ hach
      have hB1 := bf_pass_boundK hsq hlen hB
      obtain ⟨c1, c2, c3, c4⟩ := ih (bf_pass (bf_edges m) st).1 (j + 1)
        hlen1 hach1 hB1
      refine ⟨c1, c2, c3, ?_⟩
      rcases c4 with h | h
      · exact Or.inl h
      · refine Or.inr ?_
        rw [show j + (fuel + 1) = j + 1 + fuel by omega]
        exact h
    · rw [if_neg hflag]
      have hflag2 : (bf_pass (bf_edges m) st).2 = false :=
        Bool.eq_false_iff.mpr hflag
      have hff := bf_fold_flag_false (bf_edges m) (st, false) hflag2
      have hsame : (bf_pass (bf_edges m) st).1 = st := by
        unfold bf_pass
        rw [hff.1]
      rw [hsame]
      refine ⟨hlen, hach, hB 0 s 0 (by omega) AchK.src, Or.inl ?_⟩
      rintro ⟨e, he, hcond⟩
      exact hff.2 e he hcond

theorem bellman_ford_ok {m : Mat} (hsq : IsSquare m) {s : Nat}
    (hs : s < m.length) (hac : ¬ HasCycleRel (Edge m)) :
    ∃ res, bellman_ford m s = some res ∧
      res.1.length = m.length ∧ PreFix m s res.1 ∧ AchVals m s res.1 := by
  have hinit_len := length_sp_init m.length s
  have hinit_ach : AchInv m s (sp_init m.length s).dp := by
    intro v
    by_cases hv : v = s
    · subst hv
      right
      rw [wget_sp_init_src hs]
      exact Ach.src
    · left
      exact wget_sp_init_ne hv
  have hinit_B : BoundK m s 0 (sp_init m.length s).dp := by
    intro k v c hk hach
    have hk0 : k = 0 := by omega
    subst hk0
    cases hach
    rw [wget_sp_init_src hs]
  obtain ⟨hlen, hach, hs0, hor⟩ := bf_loop_ok hsq (m.length - 1)
    (sp_init m.length s) 0 hinit_len hinit_ach hinit_B
  have hnr : ¬ bf_relaxable (bf_edges m) (bf_after_loop m s).dp := by
    unfold bf_after_loop
    rcases hor with h | h
    · exact h
    · rintro ⟨e, he, hne_top, hlt⟩
      obtain ⟨hu, hv, hne, hw, hE⟩ := mem_bf_edges_then he
      rcases hach e.1 with h2 | h2
      · exact hne_top h2
      · obtain ⟨k, hk⟩ := ach_iff_achK.mp h2
        have hstep := AchK.step hk hne hE
        have hk1 : k + 1 < m.length := achK_lt_length hsq hs hac hstep
        have hb := h (k + 1) e.2.1 _ (by omega) hstep
        rw [hw] at hlt
        exact absurd hb (not_le_of_lt hlt)
  refine ⟨((bf_after_loop m s).dp, (bf_after_loop m s).paths),
    ?_, ?_, ?_, ?_⟩
  · unfold bellman_ford
    rw [if_neg hnr]
  · exact hlen
  · constructor
    · exact hs0
    · intro u v hne hE
      by_contra hlt
      push_neg at hlt
      apply hnr
      refine ⟨(u, v, entry m u v), bf_edges_mem_of hsq hne hE, ?_, hlt⟩
      intro htop
      rw [htop, top_add] at hlt
      exact not_top_lt hlt
  · intro v _
    exact hach v

/-! ### The DAG dynamic program on a sorted matrix -/

/-- On a topologically sorted acyclic square matrix every edge goes
strictly up in index. -/
theorem edges_up {m : Mat} (hsq : IsSquare m)
    (hsorted : is_topo_sorted m = true) (hac : ¬ HasCycleRel (Edge m)) :
    ∀ u v, entry m u v ≠ 0 → u < v := by
  intro u v hE
  have hu : u < m.length := Edge.src_lt hE
  have hnvu : ¬ v < u := by
    intro hvu
    unfold is_topo_sorted at hsorted
    rw [List.all_eq_true] at hsorted
    have h1 := hsorted u (List.mem_range.mpr hu)
    rw [List.all_eq_true] at h1
    have h2 := h1 v (List.mem_range.mpr hvu)
    rw [decide_eq_true_eq] at h2
    exact hE h2
  have hneq : u ≠ v := by
    intro heq
    subst heq
    exact hac ⟨u, Relation.TransGen.single hE⟩
  omega

theorem dp_relax_dp_le (m : Mat) (u : Nat) (st : SPState) (v w : Nat) :
    wget (dp_relax m u st v).dp w ≤ wget st.dp w := by
  unfold dp_relax
  by_cases hE : entry m u v ≠ 0
  · rw [if_pos hE]
    by_cases hlt : wget st.dp u + (entry m u v : Dist) < wget st.dp v
    · rw [if_pos hlt]
      exact wget_set_le (le_of_lt hlt) w
    · rw [if_neg hlt]
      by_cases heq : wget st.dp u + (entry m u v : Dist) = wget st.dp v
      · rw [if_pos heq]
      · rw [if_neg heq]
  · rw [if_neg hE]

theorem dp_relax_length (m : Mat) (u : Nat) (st : SPState) (v : Nat) :
    (dp_relax m u st v).dp.length = st.dp.length := by
  unfold dp_relax
  by_cases hE : entry m u v ≠ 0
  · rw [if_pos hE]
    by_cases hlt : wget st.dp u + (entry m u v : Dist) < wget st.dp v
    · rw [if_pos hlt]
      exact List.length_set _ _ _
    · rw [if_neg hlt]
      by_cases heq : wget st.dp u + (entry m u v : Dist) = wget st.dp v
      · rw [if_pos heq]
      · rw [if_neg heq]
  · rw [if_neg hE]

theorem foldl_dp_relax_dp_le (m : Mat) (u : Nat) (l : List Nat) :
    ∀ (st : SPState) (w : Nat),
      wget (l.foldl (dp_relax m u) st).dp w ≤ wget st.dp w := by
  induction l with
  | nil =>
    intro st w
    exact le_refl _
  | cons a rest ih =>
    intro st w
    rw [List.foldl_cons]
    exact le_trans (ih _ w) (dp_relax_dp_le m u st a w)

theorem foldl_dp_relax_length (m : Mat) (u : Nat) (l : List Nat) :
    ∀ (st : SPState),
      (l.foldl (dp_relax m u) st).dp.length = st.dp.length := by
  induction l with
  | nil =>
    intro st
    rfl
  | cons a rest ih =>
    intro st
    rw [List.foldl_cons, ih, dp_relax_length]

theorem dp_relax_unchanged {m : Mat} {u : Nat} (st : SPState) {v w : Nat}
    (hw : entry m u v ≠ 0 → v ≠ w) :
    wget (dp_relax m u st v).dp w = wget st.dp w := by
  unfold dp_relax
  by_cases hE : entry m u v ≠ 0
  · rw [if_pos hE]
    by_cases hlt : wget st.dp u + (entry m u v : Dist) < wget st.dp v
    · rw [if_pos hlt]
      exact wget_set_ne (hw hE)
    · rw [if_neg hlt]
      by_cases heq : wget st.dp u + (entry m u v : Dist) = wget st.dp v
      · rw [if_pos heq]
      · rw [if_neg heq]
  · rw [if_neg hE]

theorem dp_outer_stable {m : Mat} (hup : ∀ u v, entry m u v ≠ 0 → u < v)
    (st : SPState) (u : Nat) :
    ∀ w, w ≤ u → wget (dp_outer m st u).dp w = wget st.dp w := by
  intro w hw
  unfold dp_outer
  by_cases htop : wget st.dp u = ⊤
  · rw [if_pos htop]
  · rw [if_neg htop]
    have hgen : ∀ (l : List Nat) (st2 : SPState),
        wget (l.foldl (dp_relax m u) st2).dp w = wget st2.dp w := by
      intro l
      induction l with
      | nil =>
        intro st2
        rfl
      | cons a rest ih =>
        intro st2
        rw [List.foldl_cons, ih]
        refine dp_relax_unchanged st2 ?_
        intro hE heq
        have := hup u a hE
        omega
    exact hgen _ st

theorem dp_relax_achinv {m : Mat} {s : Nat}
    (hup : ∀ u v, entry m u v ≠ 0 → u < v) {u : Nat} (st : SPState)
    (v : Nat) (h : AchInv m s st.dp) :
    AchInv m s (dp_relax m u st v).dp := by
  intro w
  unfold dp_relax
  by_cases hE : entry m u v ≠ 0
  · rw [if_pos hE]
    by_cases hlt : wget st.dp u + (entry m u v : Dist) < wget st.dp v
    · rw [if_pos hlt]
      by_cases hv : v = w
      · subst hv
        by_cases hlen : v < st.dp.length
        · rw [wget_set_self hlen]
          right
          rcases h u with h2 | h2
          · rw [h2, top_add] at hlt
            exact absurd hlt not_top_lt
          · exact Ach.step h2 (Nat.ne_of_lt (hup u v hE)) hE
        · rw [List.set_eq_of_length_le (Nat.le_of_not_lt hlen)]
          exact h v
      · rw [wget_set_ne hv]
        exact h w
    · rw [if_neg hlt]
      by_cases heq : wget st.dp u + (entry m u v : Dist) = wget st.dp v
      · rw [if_pos heq]
        exact h w
      · rw [if_neg heq]
        exact h w
  · rw [if_neg hE]
    exact h w

theorem dp_outer_achinv {m : Mat} {s : Nat}
    (hup : ∀ u v, entry m u v ≠ 0 → u < v) (st : SPState) (u : Nat)
    (h : AchInv m s st.dp) : AchInv m s (dp_outer m st u).dp := by
  unfold dp_outer
  by_cases htop : wget st.dp u = ⊤
  · rw [if_pos htop]
    exact h
  · rw [if_neg htop]
    have hgen : ∀ (l : List Nat) (st2 : SPState), AchInv m s st2.dp →
        AchInv m s (l.foldl (dp_relax m u) st2).dp := by
      intro l
      induction l with
      | nil =>
        intro st2 h2
        exact h2
      | cons a rest ih =>
        intro st2 h2
        rw [List.foldl_cons]
        exact ih _ (dp_relax_achinv hup st2 a h2)
    exact hgen _ st h

theorem dp_fold_relax_bound {m : Mat} {u : Nat} {dp0 : List Dist} :
    ∀ (l : List Nat) (st : SPState),
      (∀ w, wget st.dp w ≤ wget dp0 w) →
      ∀ b ∈ l, b < st.dp.length → entry m u b ≠ 0 →
        wget (l.foldl (dp_relax m u) st).dp b
          ≤ wget dp0 u + (entry m u b : Dist) := by
  intro l
  induction l with
  | nil =>
    intro st _ b hb
    exact absurd hb (List.not_mem_nil b)
  | cons a rest ih =>
    intro st hle b hb hblen hbE
    rw [List.foldl_cons]
    have hle1 : ∀ w, wget (dp_relax m u st a).dp w ≤ wget dp0 w :=
      fun w => le_trans (dp_relax_dp_le m u st a w) (hle w)
    rcases List.mem_cons.mp hb with rfl | hb2
    · have hstep : wget (dp_relax m u st b).dp b
          ≤ wget st.dp u + (entry m u b : Dist) := by
        unfold dp_relax
        rw [if_pos hbE]
        by_cases hlt : wget st.dp u + (entry m u b : Dist) < wget st.dp b
        · rw [if_pos hlt, wget_set_self hblen]
        · rw [if_neg hlt]
          by_cases heq : wget st.dp u + (entry m u b : Dist) = wget st.dp b
          · rw [if_pos heq]
            exact le_of_eq heq.symm
          · rw [if_neg heq]
            exact le_of_not_lt hlt
      calc wget (rest.foldl (dp_relax m u) (dp_relax m u st b)).dp b
          ≤ wget (dp_relax m u st b).dp b := foldl_dp_relax_dp_le m u rest _ b
        _ ≤ wget st.dp u + (entry m u b : Dist) := hstep
        _ ≤ wget dp0 u + (entry m u b : Dist) := add_le_add_right (hle u) _
    · refine ih _ hle1 b hb2 ?_ hbE
      rw [dp_relax_length]
      exact hblen

theorem dp_ok {m : Mat} (hsq : IsSquare m) {s : Nat} (hs : s < m.length)
    (hup : ∀ u v, entry m u v ≠ 0 → u < v) :
    (shortest_paths_dp m s).1.length = m.length ∧
    PreFix m s (shortest_paths_dp m s).1 ∧
    AchVals m s (shortest_paths_dp m s).1 := by
  have hmain : ∀ (t : Nat),
      ((List.range t).foldl (dp_outer m) (sp_init m.length s)).dp.length
        = m.length ∧
      AchInv m s
        ((List.range t).foldl (dp_outer m) (sp_init m.length s)).dp ∧
      (∀ w, wget
        ((List.range t).foldl (dp_outer m) (sp_init m.length s)).dp w
        ≤ wget (sp_init m.length s).dp w) ∧
      (∀ a, a < t → ∀ b, entry m a b ≠ 0 →
        wget ((List.range t).foldl (dp_outer m) (sp_init m.length s)).dp b
          ≤ wget
            ((List.range t).foldl (dp_outer m) (sp_init m.length s)).dp a
          + (entry m a b : Dist)) := by
    intro t
    induction t with
    | zero =>
      rw [List.range_zero, List.foldl_nil]
      refine ⟨length_sp_init m.length s, ?_, fun w => le_refl _, ?_⟩
      · intro v
        by_cases hv : v = s
        · subst hv
          right
          rw [wget_sp_init_src hs]
          exact Ach.src
        · left
          exact wget_sp_init_ne hv
      · intro a ha
        exact absurd ha (Nat.not_lt_zero a)
    | succ t iht =>
      obtain ⟨hlen, hach, hmono, hrel⟩ := iht
      rw [List.range_succ, List.foldl_append, List.foldl_cons,
        List.foldl_nil]
      set st := (List.range t).foldl (dp_outer m) (sp_init m.length s)
        with hst
      have hlen2 : (dp_outer m st t).dp.length = m.length := by
        unfold dp_outer
        by_cases htop : wget st.dp t = ⊤
        · rw [if_pos htop]
          exact hlen
        · rw [if_neg htop]
          rw [foldl_dp_relax_length]
          exact hlen
      have hmono2 : ∀ w, wget (dp_outer m st t).dp w ≤ wget st.dp w := by
        intro w
        unfold dp_outer
        by_cases htop : wget st.dp t = ⊤
        · rw [if_pos htop]
        · rw [if_neg htop]
          exact foldl_dp_relax_dp_le m t _ st w
      refine ⟨hlen2, dp_outer_achinv hup st t hach,
        fun w => le_trans (hmono2 w) (hmono w), ?_⟩
      intro a ha b hbE
      by_cases hat : a = t
      · subst hat
        have hstable : wget (dp_outer m st a).dp a = wget st.dp a :=
          dp_outer_stable hup st a a (le_refl a)
        rw [hstable]
        unfold dp_outer
        by_cases htop : wget st.dp a = ⊤
        · rw [if_pos htop, htop, top_add]
          exact le_top
        · rw [if_neg htop]
          refine dp_fold_relax_bound _ st (fun w => le_refl _) b
            (List.mem_range.mpr (Edge.tgt_lt hsq hbE)) ?_ hbE
          rw [hlen]
          exact Edge.tgt_lt hsq hbE
      · have ha2 : a < t := by omega
        have hstable : wget (dp_outer m st t).dp a = wget st.dp a :=
          dp_outer_stable hup st t a (by omega)
        rw [hstable]
        exact le_trans (hmono2 b) (hrel a ha2 b hbE)
  obtain ⟨hlen, hach, hmono, hrel⟩ := hmain m.length
  refine ⟨hlen, ⟨?_, ?_⟩, ?_⟩
  · show wget ((List.range m.length).foldl (dp_outer m)
      (sp_init m.length s)).dp s ≤ 0
    refine le_trans (hmono s) ?_
    rw [wget_sp_init_src hs]
  · intro u v hne hE
    exact hrel u (Edge.src_lt hE) v hE
  · intro v _
    exact hach v

/-! ### Dijkstra: bounds, the termination measure -/

theorem foldl_max_le_init : ∀ (l : List Int) (b : Int), b ≤ l.foldl max b := by
  intro l
  induction l with
  | nil =>
    intro b
    exact le_refl b
  | cons x rest ih =>
    intro b
    exact le_trans (le_max_left b x) (ih (max b x))

theorem foldl_max_of_mem : ∀ (l : List Int) {x : Int}, x ∈ l →
    ∀ (b : Int), x ≤ l.foldl max b := by
  intro l
  induction l with
  | nil =>
    intro x hx
    exact absurd hx (List.not_mem_nil x)
  | cons y rest ih =>
    intro x hx b
    rcases List.mem_cons.mp hx with rfl | hx2
    · exact le_trans (le_max_right b x) (foldl_max_le_init rest _)
    · exact ih hx2 _

theorem mfold_le_init :
    ∀ (rows : List (List Int)) (b : Int),
      b ≤ rows.foldl (fun acc row => row.foldl max acc) b := by
  intro rows
  induction rows with
  | nil =>
    intro b
    exact le_refl b
  | cons r rest ih =>
    intro b
    exact le_trans (foldl_max_le_init r b) (ih _)

theorem mfold_of_mem :
    ∀ (rows : List (List Int)) {row : List Int}, row ∈ rows →
      ∀ {x : Int}, x ∈ row → ∀ (b : Int),
        x ≤ rows.foldl (fun acc row => row.foldl max acc) b := by
  intro rows
  induction rows with
  | nil =>
    intro row hr
    exact absurd hr (List.not_mem_nil row)
  | cons r rest ih =>
    intro row hr x hx b
    rcases List.mem_cons.mp hr with rfl | hr2
    · exact le_trans (foldl_max_of_mem row hx b) (mfold_le_init rest _)
    · exact ih hr2 hx _

theorem maxW_nonneg (m : Mat) : 0 ≤ maxW m :=
  mfold_le_init m 0

theorem entry_le_maxW (m : Mat) (i j : Nat) : entry m i j ≤ maxW m := by
  by_cases hi : i < m.length
  · by_cases hj : j < (m.getD i []).length
    · have hrow : m.getD i [] ∈ m := getD_mem2 hi
      have hx : (m.getD i []).getD j 0 ∈ m.getD i [] := getD_mem2 hj
      exact mfold_of_mem m hrow hx 0
    · rw [entry_eq_zero_of_row_le (Nat.le_of_not_lt hj)]
      exact maxW_nonneg m
  · rw [entry_eq_zero_of_len_le (Nat.le_of_not_lt hi)]
    exact maxW_nonneg m

/-- An upper bound on every finite distance an acyclic non-negative run
can store. -/
def distBound (m : Mat) : Nat := m.length * (maxW m).toNat

theorem achK_cost_bound {m : Mat} (hnn : ∀ i j, 0 ≤ entry m i j)
    {s : Nat} :
    ∀ {k v : Nat} {c : Dist}, AchK m s k v c →
      (0 : Dist) ≤ c ∧ c ≤ (((k * maxW m : Int)) : Dist) := by
  intro k v c h
  induction h with
  | src =>
    constructor
    · exact le_refl _
    · show ((0 : Int) : Dist) ≤ _
      rw [WithTop.coe_le_coe]
      simp
  | step h2 hne hE ih =>
    rename_i k2 u v2 d2
    have hw : (0 : Int) ≤ entry m u v2 := hnn u v2
    constructor
    · have h0 : ((0 : Int) : Dist) ≤ (entry m u v2 : Dist) :=
        WithTop.coe_le_coe.mpr hw
      calc (0 : Dist) = 0 + 0 := by rw [add_zero]
        _ ≤ d2 + (entry m u v2 : Dist) := add_le_add ih.1 h0
    · have h1 : (entry m u v2 : Dist) ≤ ((maxW m : Int) : Dist) :=
        WithTop.coe_le_coe.mpr (entry_le_maxW m u v2)
      calc d2 + (entry m u v2 : Dist)
          ≤ (((k2 * maxW m : Int)) : Dist) + ((maxW m : Int) : Dist) :=
            add_le_add ih.2 h1
        _ = ((((k2 + 1) * maxW m : Int)) : Dist) := by
            rw [← WithTop.coe_add]
            congr 1
            push_cast
            ring

theorem ach_val_bound {m : Mat} (hsq : IsSquare m) {s : Nat}
    (hs : s < m.length) (hac : ¬ HasCycleRel (Edge m))
    (hnn : ∀ i j, 0 ≤ entry m i j) {v : Nat} {c : Dist}
    (h : Ach m s v c) :
    (0 : Dist) ≤ c ∧ c ≤ (((distBound m : Int)) : Dist) := by
  obtain ⟨k, hk⟩ := ach_iff_achK.mp h
  obtain ⟨h0, h1⟩ := achK_cost_bound hnn hk
  refine ⟨h0, le_trans h1 ?_⟩
  rw [WithTop.coe_le_coe]
  have hkn : k < m.length := achK_lt_length hsq hs hac hk
  have hmw := maxW_nonneg m
  calc (k : Int) * maxW m ≤ (m.length : Int) * maxW m := by
        have : (k : Int) ≤ m.length := by exact_mod_cast le_of_lt hkn
        exact mul_le_mul_of_nonneg_right this hmw
    _ = (distBound m : Int) := by
        unfold distBound
        push_cast
        rw [Int.toNat_of_nonneg hmw]

/-- The rank of a stored distance for the termination measure. -/
def rankD (B : Nat) (d : Dist) : Nat :=
  if d = ⊤ then B + 1 else (WithTop.untop' 0 d).toNat

/-- The measure component contributed by the distance list. -/
def SumRank (n B : Nat) (dp : List Dist) : Nat :=
  ((List.range n).map fun v => rankD B (wget dp v)).sum

theorem rankD_coe (B : Nat) (x : Int) :
    rankD B ((x : Int) : Dist) = x.toNat := by
  unfold rankD
  rw [if_neg WithTop.coe_ne_top, WithTop.untop'_coe]

theorem rankD_le {B : Nat} {d : Dist}
    (hd : d ≠ ⊤ → d ≤ ((B : Int) : Dist)) : rankD B d ≤ B + 1 := by
  by_cases h : d = ⊤
  · unfold rankD
    rw [if_pos h]
  · obtain ⟨x, rfl⟩ := WithTop.ne_top_iff_exists.mp h
    rw [rankD_coe]
    have hx : x ≤ (B : Int) := by exact_mod_cast hd h
    omega

theorem rankD_lt {B : Nat} {d1 d2 : Dist} (h2nn : (0 : Dist) ≤ d2)
    (h2b : d2 ≤ ((B : Int) : Dist)) (hlt : d2 < d1) :
    rankD B d2 < rankD B d1 := by
  have h2ne : d2 ≠ ⊤ := ne_top_of_lt hlt
  obtain ⟨x, rfl⟩ := WithTop.ne_top_iff_exists.mp h2ne
  have hx0 : (0 : Int) ≤ x := by exact_mod_cast h2nn
  have hxB : x ≤ (B : Int) := by exact_mod_cast h2b
  rw [rankD_coe]
  by_cases h1 : d1 = ⊤
  · unfold rankD
    rw [if_pos h1]
    omega
  · obtain ⟨y, rfl⟩ := WithTop.ne_top_iff_exists.mp h1
    rw [rankD_coe]
    have hxy : x < y := by exact_mod_cast hlt
    omega

theorem sumRank_le_of_le {n B : Nat} {dp dp2 : List Dist}
    (h : ∀ v, v < n → rankD B (wget dp2 v) ≤ rankD B (wget dp v)) :
    SumRank n B dp2 ≤ SumRank n B dp := by
  unfold SumRank
  refine List.sum_le_sum ?_
  intro v hv
  exact h v (List.mem_range.mp hv)

theorem sumRank_lt_of_update {n B : Nat} {dp dp2 : List Dist} {v : Nat}
    (hv : v < n)
    (hle : ∀ w, w < n → rankD B (wget dp2 w) ≤ rankD B (wget dp w))
    (hlt : rankD B (wget dp2 v) < rankD B (wget dp v)) :
    SumRank n B dp2 < SumRank n B dp := by
  unfold SumRank
  refine List.sum_lt_sum _ _
    (fun w hw => hle w (List.mem_range.mp hw)) ?_
  exact ⟨v, List.mem_range.mpr hv, hlt⟩

theorem rankD_mono {B : Nat} {d1 d2 : Dist} (hle : d2 ≤ d1)
    (hb : d2 ≠ ⊤ → d2 ≤ ((B : Int) : Dist)) : rankD B d2 ≤ rankD B d1 := by
  by_cases h2 : d2 = ⊤
  · have h1 : d1 = ⊤ := top_le_iff.mp (h2 ▸ hle)
    unfold rankD
    rw [if_pos h1, if_pos h2]
  · obtain ⟨x, rfl⟩ := WithTop.ne_top_iff_exists.mp h2
    rw [rankD_coe]
    have hxB : x ≤ (B : Int) := by exact_mod_cast hb h2
    by_cases h1 : d1 = ⊤
    · unfold rankD
      rw [if_pos h1]
      omega
    · obtain ⟨y, rfl⟩ := WithTop.ne_top_iff_exists.mp h1
      rw [rankD_coe]
      have hxy : x ≤ y := by exact_mod_cast hle
      omega

theorem sumRank_le_card {n B : Nat} {dp : List Dist}
    (h : ∀ v, v < n → rankD B (wget dp v) ≤ B + 1) :
    SumRank n B dp ≤ n * (B + 1) := by
  unfold SumRank
  have h2 := List.sum_le_card_nsmul
    ((List.range n).map fun v => rankD B (wget dp v)) (B + 1) ?_
  · rw [List.length_map, List.length_range, smul_eq_mul] at h2
    exact h2
  · intro x hx
    rw [List.mem_map] at hx
    obtain ⟨v, hv, rfl⟩ := hx
    exact h v (List.mem_range.mp hv)

/-! ### Dijkstra computes a relaxed achievable distance list -/

theorem diag_zero_of_acyclic {m : Mat} (hac : ¬ HasCycleRel (Edge m)) :
    ∀ v, entry m v v = 0 := by
  intro v
  by_contra h
  exact hac ⟨v, Relation.TransGen.single h⟩

theorem heapMin_eq_none {heap : List (Dist × Nat)} :
    heapMin heap = none ↔ heap = [] := by
  cases heap with
  | nil => simp [heapMin]
  | cons p t => simp [heapMin]

theorem heapMin_mem {heap : List (Dist × Nat)} {e : Dist × Nat}
    (h : heapMin heap = some e) : e ∈ heap := by
  cases heap with
  | nil => exact absurd h (by simp [heapMin])
  | cons p t =>
    simp only [heapMin, Option.some.injEq] at h
    rcases foldl_pick_mem (fun best q => if heapLt q best then q else best)
        (fun a b => by
          dsimp only
          split
          · exact Or.inr rfl
          · exact Or.inl rfl) t p with h3 | h3
    · rw [← h, h3]
      exact List.mem_cons_self p t
    · rw [← h]
      exact List.mem_cons_of_mem p h3

theorem dist_coe_eq_zero {x : Int} : ((x : Int) : Dist) = 0 ↔ x = 0 := by
  rw [← WithTop.coe_zero, WithTop.coe_eq_coe]

theorem mutw_of_edge {m : Mat} {u v : Nat} (hE : entry m u v ≠ 0) :
    mutw m u v = ((entry m u v : Int) : Dist) := by
  unfold mutw
  rw [if_neg (fun hh => hE hh.2)]

theorem mutw_real {m : Mat} (hdiag : ∀ w, entry m w w = 0) {u v : Nat}
    (h0 : mutw m u v ≠ 0) (ht : mutw m u v ≠ ⊤) :
    u ≠ v ∧ entry m u v ≠ 0 ∧
      mutw m u v = ((entry m u v : Int) : Dist) := by
  by_cases huv : u = v
  · subst huv
    exfalso
    apply h0
    unfold mutw
    rw [if_neg (fun hh => hh.1 rfl), hdiag u, WithTop.coe_zero]
  · by_cases hE : entry m u v = 0
    · exfalso
      apply ht
      unfold mutw
      rw [if_pos ⟨huv, hE⟩]
    · exact ⟨huv, hE, mutw_of_edge hE⟩

/-- `dij_visit` either leaves distances and heap untouched (recording
that the scanned edge, if present, could not be relaxed) or performs a
strict relaxation and pushes the new pair. -/
theorem dij_visit_cases (m : Mat) (u : Nat)
    (st : SPState × List (Dist × Nat)) (v : Nat) :
    ((dij_visit m u st v).1.dp = st.1.dp ∧ (dij_visit m u st v).2 = st.2 ∧
      (mutw m u v ≠ 0 →
        wget st.1.dp v ≤ wget st.1.dp u + mutw m u v)) ∨
    (mutw m u v ≠ 0 ∧
      wget st.1.dp u + mutw m u v < wget st.1.dp v ∧
      (dij_visit m u st v).1.dp
        = st.1.dp.set v (wget st.1.dp u + mutw m u v) ∧
      (dij_visit m u st v).2
        = st.2 ++ [(wget st.1.dp u + mutw m u v, v)]) := by
  unfold dij_visit
  by_cases h0 : mutw m u v ≠ 0
  · rw [if_pos h0]
    by_cases h1 : wget st.1.dp u + mutw m u v < wget st.1.dp v
    · rw [if_pos h1]
      exact Or.inr ⟨h0, h1, rfl, rfl⟩
    · rw [if_neg h1]
      by_cases h2 : wget st.1.dp u + mutw m u v = wget st.1.dp v ∧
          wget st.1.dp v ≠ ⊤
      · rw [if_pos h2]
        exact Or.inl ⟨rfl, rfl, fun _ => le_of_not_lt h1⟩
      · rw [if_neg h2]
        exact Or.inl ⟨rfl, rfl, fun _ => le_of_not_lt h1⟩
  · rw [if_neg h0]
    push_neg at h0
    exact Or.inl ⟨rfl, rfl, fun hh => absurd h0 hh⟩

/-- In the strict-relaxation branch the scanned pair is a real
off-diagonal edge, the relaxing endpoint is finite, and the new value is
the old value plus the true weight. -/
theorem dij_update_facts {m : Mat} (hdiag : ∀ w, entry m w w = 0)
    {u v : Nat} {dp : List Dist}
    (h0 : mutw m u v ≠ 0)
    (hlt : wget dp u + mutw m u v < wget dp v) :
    u ≠ v ∧ entry m u v ≠ 0 ∧ wget dp u ≠ ⊤ ∧
      wget dp u + mutw m u v
        = wget dp u + ((entry m u v : Int) : Dist) := by
  have hne : wget dp u + mutw m u v ≠ ⊤ := ne_top_of_lt hlt
  have hmt : mutw m u v ≠ ⊤ := by
    intro hh
    apply hne
    rw [hh, WithTop.add_top]
  have hut : wget dp u ≠ ⊤ := by
    intro hh
    apply hne
    rw [hh, WithTop.top_add]
  obtain ⟨h1, h2, h3⟩ := mutw_real hdiag h0 hmt
  exact ⟨h1, h2, hut, by rw [h3]⟩

/-- Postcondition of the inner `for v in range(n)` scan from state `a`:
lengths and achievability are preserved, distances only decrease, the
scanned vertex `u` keeps its value, the heap only grows, every changed
distance was pushed, and every edge out of `u` into the scanned list is
relaxed; the termination measure does not increase. -/
abbrev DijPost (m : Mat) (s u : Nat) (l : List Nat)
    (a r : SPState × List (Dist × Nat)) : Prop :=
  r.1.dp.length = a.1.dp.length ∧
  AchInv m s r.1.dp ∧
  (∀ w, wget r.1.dp w ≤ wget a.1.dp w) ∧
  wget r.1.dp u = wget a.1.dp u ∧
  (∀ e, e ∈ a.2 → e ∈ r.2) ∧
  (∀ w, wget r.1.dp w ≠ wget a.1.dp w → (wget r.1.dp w, w) ∈ r.2) ∧
  (∀ w, w ∈ l → u ≠ w → entry m u w ≠ 0 →
    wget r.1.dp w ≤ wget a.1.dp u + ((entry m u w : Int) : Dist)) ∧
  r.2.length + SumRank m.length (distBound m) r.1.dp ≤
    a.2.length + SumRank m.length (distBound m) a.1.dp

theorem dij_fold_ok {m : Mat} (hsq : IsSquare m) {s : Nat}
    (hs : s < m.length) (hac : ¬ HasCycleRel (Edge m))
    (hnn : ∀ i j, 0 ≤ entry m i j) (u : Nat) :
    ∀ (l : List Nat) (a : SPState × List (Dist × Nat)),
      (∀ w ∈ l, w < a.1.dp.length) →
      a.1.dp.length = m.length →
      AchInv m s a.1.dp →
      DijPost m s u l a (l.foldl (dij_visit m u) a) := by
  intro l
  induction l with
  | nil =>
    intro a _ _ hach
    rw [List.foldl_nil]
    exact ⟨rfl, hach, fun w => le_refl _, rfl, fun e he => he,
      fun w hw => absurd rfl hw,
      fun w hw => absurd hw (List.not_mem_nil w), le_refl _⟩
  | cons v t ih =>
    intro a hl hlen hach
    rw [List.foldl_cons]
    have hv_lt : v < a.1.dp.length := hl v (List.mem_cons_self v t)
    have hdiag := diag_zero_of_acyclic hac
    rcases dij_visit_cases m u a v with ⟨hdp, hhp, hrel⟩ | ⟨h0, hlt, hdp, hhp⟩
    · have hl2 : ∀ w ∈ t, w < (dij_visit m u a v).1.dp.length := by
        intro w hw
        rw [hdp]
        exact hl w (List.mem_cons_of_mem v hw)
      have hlen2 : (dij_visit m u a v).1.dp.length = m.length := by
        rw [hdp]
        exact hlen
      have hach2 : AchInv m s (dij_visit m u a v).1.dp := by
        rw [hdp]
        exact hach
      obtain ⟨P1, P2, P3, P4, P5, P6, P7, P8⟩ :=
        ih (dij_visit m u a v) hl2 hlen2 hach2
      refine ⟨?_, P2, ?_, ?_, ?_, ?_, ?_, ?_⟩
      · rw [P1, hdp]
      · intro w
        have h3 := P3 w
        rw [hdp] at h3
        exact h3
      · rw [P4, hdp]
      · intro e he
        apply P5
        rw [hhp]
        exact he
      · intro w hw
        apply P6
        rw [hdp]
        exact hw
      · intro w hw huw hE
        rcases List.mem_cons.mp hw with hwv | hwt
        · subst hwv
          have hmut : mutw m u w ≠ 0 := by
            rw [mutw_of_edge hE]
            intro hh
            exact hE (dist_coe_eq_zero.mp hh)
          have h1 := hrel hmut
          rw [mutw_of_edge hE] at h1
          have h3 := P3 w
          rw [hdp] at h3
          exact le_trans h3 h1
        · have h7 := P7 w hwt huw hE
          rw [hdp] at h7
          exact h7
      · rw [hdp, hhp] at P8
        exact P8
    · obtain ⟨huv, hE, hut, hrw⟩ := dij_update_facts hdiag h0 hlt
      have hach_u : Ach m s u (wget a.1.dp u) := by
        rcases hach u with h | h
        · exact absurd h hut
        · exact h
      have hach_nd : Ach m s v (wget a.1.dp u + mutw m u v) := by
        rw [hrw]
        exact Ach.step hach_u huv hE
      have hb0 := ach_val_bound hsq hs hac hnn hach_nd
      have hlen_b : (dij_visit m u a v).1.dp.length = a.1.dp.length := by
        rw [hdp, List.length_set]
      have hwb_v : wget (dij_visit m u a v).1.dp v
          = wget a.1.dp u + mutw m u v := by
        rw [hdp]
        exact wget_set_self hv_lt
      have hwb_ne : ∀ w, w ≠ v →
          wget (dij_visit m u a v).1.dp w = wget a.1.dp w := by
        intro w hwv
        rw [hdp]
        exact wget_set_ne (fun hh => hwv hh.symm)
      have hmono_b : ∀ w,
          wget (dij_visit m u a v).1.dp w ≤ wget a.1.dp w := by
        intro w
        rw [hdp]
        exact wget_set_le (le_of_lt hlt) w
      have hu_b : wget (dij_visit m u a v).1.dp u = wget a.1.dp u :=
        hwb_ne u huv
      have hach_b : AchInv m s (dij_visit m u a v).1.dp := by
        intro w
        by_cases hwv : w = v
        · subst hwv
          right
          rw [hwb_v]
          exact hach_nd
        · rw [hwb_ne w hwv]
          exact hach w
      have hl2 : ∀ w ∈ t, w < (dij_visit m u a v).1.dp.length := by
        intro w hw
        rw [hlen_b]
        exact hl w (List.mem_cons_of_mem v hw)
      have hlen2 : (dij_visit m u a v).1.dp.length = m.length := by
        rw [hlen_b]
        exact hlen
      obtain ⟨P1, P2, P3, P4, P5, P6, P7, P8⟩ :=
        ih (dij_visit m u a v) hl2 hlen2 hach_b
      refine ⟨?_, P2, ?_, ?_, ?_, ?_, ?_, ?_⟩
      · rw [P1, hlen_b]
      · intro w
        exact le_trans (P3 w) (hmono_b w)
      · rw [P4, hu_b]
      · intro e he
        apply P5
        rw [hhp]
        exact List.mem_append_left _ he
      · intro w hw
        by_cases hch : wget (t.foldl (dij_visit m u) (dij_visit m u a v)).1.dp w
            = wget (dij_visit m u a v).1.dp w
        · have hwv : w = v := by
            by_contra hwv
            apply hw
            rw [hch, hwb_ne w hwv]
          subst hwv
          rw [hch, hwb_v]
          apply P5
          rw [hhp]
          apply List.mem_append_right
          exact List.mem_singleton.mpr rfl
        · exact P6 w hch
      · intro w hw huw hE2
        rcases List.mem_cons.mp hw with hwv | hwt
        · subst hwv
          refine le_trans (P3 w) ?_
          rw [hwb_v, hrw]
        · have h7 := P7 w hwt huw hE2
          rw [hu_b] at h7
          exact h7
      · have hSb : SumRank m.length (distBound m) (dij_visit m u a v).1.dp
            < SumRank m.length (distBound m) a.1.dp := by
          refine sumRank_lt_of_update (hlen ▸ hv_lt) ?_ ?_
          · intro w hwn
            apply rankD_mono (hmono_b w)
            intro hne2
            rcases hach_b w with h | h
            · exact absurd h hne2
            · exact (ach_val_bound hsq hs hac hnn h).2
          · rw [hwb_v]
            exact rankD_lt hb0.1 hb0.2 hlt
        have hLb : (dij_visit m u a v).2.length = a.2.length + 1 := by
          rw [hhp, List.length_append, List.length_singleton]
        omega

theorem dij_loop_none {m : Mat} {fuel : Nat} {st : SPState}
    {heap : List (Dist × Nat)} (h : heapMin heap = none) :
    dij_loop m (fuel + 1) st heap = some (st.dp, st.paths) := by
  simp only [dij_loop]
  rw [h]

theorem dij_loop_skip {m : Mat} {fuel : Nat} {st : SPState}
    {heap : List (Dist × Nat)} {e : Dist × Nat} (h : heapMin heap = some e)
    (hskip : wget st.dp e.2 < e.1) :
    dij_loop m (fuel + 1) st heap = dij_loop m fuel st (heap.erase e) := by
  simp only [dij_loop]
  rw [h]
  show (if wget st.dp e.2 < e.1 then dij_loop m fuel st (heap.erase e)
    else
      let r := (List.range m.length).foldl (dij_visit m e.2)
        (st, heap.erase e)
      dij_loop m fuel r.1 r.2) = dij_loop m fuel st (heap.erase e)
  rw [if_pos hskip]

theorem dij_loop_proc {m : Mat} {fuel : Nat} {st : SPState}
    {heap : List (Dist × Nat)} {e : Dist × Nat} (h : heapMin heap = some e)
    (hskip : ¬ wget st.dp e.2 < e.1) :
    dij_loop m (fuel + 1) st heap
      = dij_loop m fuel
        ((List.range m.length).foldl (dij_visit m e.2) (st, heap.erase e)).1
        ((List.range m.length).foldl (dij_visit m e.2)
          (st, heap.erase e)).2 := by
  simp only [dij_loop]
  rw [h]
  show (if wget st.dp e.2 < e.1 then dij_loop m fuel st (heap.erase e)
    else
      let r := (List.range m.length).foldl (dij_visit m e.2)
        (st, heap.erase e)
      dij_loop m fuel r.1 r.2)
    = dij_loop m fuel
        ((List.range m.length).foldl (dij_visit m e.2) (st, heap.erase e)).1
        ((List.range m.length).foldl (dij_visit m e.2) (st, heap.erase e)).2
  rw [if_neg hskip]

/-- Loop invariant of `while min_heap`: sizes and achievability, the
source stays at `0`, and every vertex with a finite distance is either
still represented in the heap at its current value or already fully
relaxed towards all its out-neighbors. -/
abbrev DijInv (m : Mat) (s : Nat) (st : SPState)
    (heap : List (Dist × Nat)) : Prop :=
  st.dp.length = m.length ∧
  AchInv m s st.dp ∧
  wget st.dp s ≤ 0 ∧
  ∀ u, wget st.dp u ≠ ⊤ →
    (wget st.dp u, u) ∈ heap ∨
    ∀ v, u ≠ v → entry m u v ≠ 0 →
      wget st.dp v ≤ wget st.dp u + ((entry m u v : Int) : Dist)

theorem dij_loop_ok {m : Mat} (hsq : IsSquare m) {s : Nat}
    (hs : s < m.length) (hac : ¬ HasCycleRel (Edge m))
    (hnn : ∀ i j, 0 ≤ entry m i j) :
    ∀ (fuel : Nat) (st : SPState) (heap : List (Dist × Nat)),
      DijInv m s st heap →
      heap.length + SumRank m.length (distBound m) st.dp < fuel →
      ∃ res, dij_loop m fuel st heap = some res ∧
        res.1.length = m.length ∧ PreFix m s res.1 ∧ AchVals m s res.1 := by
  intro fuel
  induction fuel with
  | zero =>
    intro st heap _ hm
    omega
  | succ fuel ih =>
    intro st heap hinv hm
    obtain ⟨hlen, hach, hsrc, hI4⟩ := hinv
    cases hmin0 : heapMin heap with
    | none =>
      have hnil : heap = [] := heapMin_eq_none.mp hmin0
      refine ⟨(st.dp, st.paths), dij_loop_none hmin0, hlen,
        ⟨hsrc, ?_⟩, fun v _ => hach v⟩
      intro u v huv hE
      by_cases hut : wget st.dp u = ⊤
      · rw [hut, WithTop.top_add]
        exact le_top
      · rcases hI4 u hut with hmem | hset
        · rw [hnil] at hmem
          exact absurd hmem (List.not_mem_nil _)
        · exact hset v huv hE
    | some e =>
      have hemem := heapMin_mem hmin0
      have hpos : 0 < heap.length :=
        List.length_pos.mpr (List.ne_nil_of_mem hemem)
      have hel : (heap.erase e).length = heap.length - 1 :=
        List.length_erase_of_mem hemem
      by_cases hskip : wget st.dp e.2 < e.1
      · rw [dij_loop_skip hmin0 hskip]
        refine ih st (heap.erase e) ⟨hlen, hach, hsrc, ?_⟩ (by omega)
        intro u hut
        rcases hI4 u hut with hmem | hset
        · left
          refine (List.mem_erase_of_ne ?_).mpr hmem
          intro heq
          rw [← heq] at hskip
          exact absurd hskip (lt_irrefl _)
        · exact Or.inr hset
      · rw [dij_loop_proc hmin0 hskip]
        have hfold := dij_fold_ok hsq hs hac hnn e.2 (List.range m.length)
          (st, heap.erase e)
          (by
            intro w hw
            show w < st.dp.length
            rw [hlen]
            exact List.mem_range.mp hw)
          hlen hach
        obtain ⟨F1, F2, F3, F4, F5, F6, F7, F8⟩ := hfold
        refine ih _ _ ⟨?_, F2, ?_, ?_⟩ ?_
        · exact F1.trans hlen
        · exact le_trans (F3 s) hsrc
        · intro u hu
          by_cases hch :
              wget ((List.range m.length).foldl (dij_visit m e.2)
                (st, heap.erase e)).1.dp u = wget st.dp u
          · have hut : wget st.dp u ≠ ⊤ := by
              rw [← hch]
              exact hu
            rcases hI4 u hut with hmem | hset
            · by_cases heq : (wget st.dp u, u) = e
              · right
                intro v huv hE
                have hu2 : u = e.2 := congrArg Prod.snd heq
                subst hu2
                have hvn : v < m.length := Edge.tgt_lt hsq hE
                have h7 := F7 v (List.mem_range.mpr hvn) huv hE
                rw [hch]
                exact h7
              · left
                have hmem2 : (wget st.dp u, u) ∈ heap.erase e :=
                  (List.mem_erase_of_ne heq).mpr hmem
                have h5 := F5 _ hmem2
                rw [hch]
                exact h5
            · right
              intro v huv hE
              calc wget ((List.range m.length).foldl (dij_visit m e.2)
                    (st, heap.erase e)).1.dp v
                  ≤ wget st.dp v := F3 v
                _ ≤ wget st.dp u + ((entry m u v : Int) : Dist) :=
                    hset v huv hE
                _ = wget ((List.range m.length).foldl (dij_visit m e.2)
                    (st, heap.erase e)).1.dp u
                    + ((entry m u v : Int) : Dist) := by rw [hch]
          · left
            exact F6 u hch
        · have hF8 : ((List.range m.length).foldl (dij_visit m e.2)
              (st, heap.erase e)).2.length
              + SumRank m.length (distBound m)
                ((List.range m.length).foldl (dij_visit m e.2)
                  (st, heap.erase e)).1.dp
              ≤ (heap.erase e).length
                + SumRank m.length (distBound m) st.dp := F8
          omega

theorem dijkstra_ok {m : Mat} (hsq : IsSquare m) {s : Nat}
    (hs : s < m.length) (hac : ¬ HasCycleRel (Edge m))
    (hnn : ∀ i j, 0 ≤ entry m i j) :
    ∃ res, dijkstra m s = some res ∧ res.1.length = m.length ∧
      PreFix m s res.1 ∧ AchVals m s res.1 := by
  unfold dijkstra
  apply dij_loop_ok hsq hs hac hnn
  · refine ⟨length_sp_init _ _, ?_, ?_, ?_⟩
    · intro v
      by_cases hv : v = s
      · subst hv
        right
        rw [wget_sp_init_src hs]
        exact Ach.src
      · left
        exact wget_sp_init_ne hv
    · rw [wget_sp_init_src hs]
    · intro u hu
      by_cases hus : u = s
      · subst hus
        left
        rw [wget_sp_init_src hs]
        exact List.mem_singleton.mpr rfl
      · exact absurd (wget_sp_init_ne hus) hu
  · have hb : SumRank m.length (distBound m) (sp_init m.length s).dp
        ≤ m.length * (distBound m + 1) := by
      apply sumRank_le_card
      intro v hv
      apply rankD_le
      intro hne
      by_cases hvs : v = s
      · subst hvs
        rw [wget_sp_init_src hs, ← WithTop.coe_zero, WithTop.coe_le_coe]
        exact Int.natCast_nonneg _
      · exact absurd (wget_sp_init_ne hvs) hne
    have h1 : dij_fuel m = m.length * (distBound m + 2) + 2 := by
      unfold dij_fuel distBound
      ring
    have h2 : m.length * (distBound m + 1)
        = m.length * distBound m + m.length := by ring
    have h3 : m.length * (distBound m + 2)
        = m.length * distBound m + 2 * m.length := by ring
    simp only [List.length_singleton]
    omega

/-- C2 (amended): on a square, acyclic, non-negatively weighted
adjacency matrix that is moreover topologically sorted (every stored
edge goes up in index, the property `is_topo_sorted` checks), the DAG
dynamic-programming engine, Dijkstra and Bellman-Ford all succeed and
return the same distance value for every vertex, infinity sentinel
included.  Without the sortedness hypothesis the claim fails:
`c2_dag_disagreement` exhibits a DAG where the DP engine leaves a
reachable vertex at infinity while Bellman-Ford and Dijkstra both reach
it. -/
theorem c2_sorted_dag_agreement {m : Mat} (hsq : IsSquare m)
    (hsorted : is_topo_sorted m = true) (hcyc : find_cycles m = [])
    (hnn : ∀ i, i < m.length → ∀ j, j < (m.getD i []).length →
      0 ≤ entry m i j)
    {s : Nat} (hs : s < m.length) :
    ∃ bf dij, bellman_ford m s = some bf ∧ dijkstra m s = some dij ∧
      ∀ v, v < m.length →
        wget bf.1 v = wget (shortest_paths_dp m s).1 v ∧
        wget dij.1 v = wget (shortest_paths_dp m s).1 v := by
  have hac : ¬ HasCycleRel (Edge m) := acyclic_of_find_cycles_nil hcyc
  have hup : ∀ u v, entry m u v ≠ 0 → u < v := edges_up hsq hsorted hac
  have hnn2 : ∀ i j, 0 ≤ entry m i j := nonneg_entries_of_forall_lt hnn
  obtain ⟨bf, hbf, hbfl, hbfp, hbfa⟩ := bellman_ford_ok hsq hs hac
  obtain ⟨dij, hdij, hdijl, hdijp, hdija⟩ := dijkstra_ok hsq hs hac hnn2
  obtain ⟨hdpl, hdpp, hdpa⟩ := dp_ok hsq hs hup
  refine ⟨bf, dij, hbf, hdij, ?_⟩
  intro v hv
  exact ⟨valid_unique hbfp hbfa hdpp hdpa v hv,
    valid_unique hdijp hdija hdpp hdpa v hv⟩

/-- The agreement theorem evaluated on the topologically sorted DAG
`[[0,4,0],[0,0,3],[0,0,0]]` with source `0`, whose hypotheses are all
checked by evaluation. -/
theorem c2_sorted_dag_agreement_witness :
    ∃ bf dij,
      bellman_ford [[0, 4, 0], [0, 0, 3], [0, 0, 0]] 0 = some bf ∧
      dijkstra [[0, 4, 0], [0, 0, 3], [0, 0, 0]] 0 = some dij ∧
      ∀ v, v < ([[0, 4, 0], [0, 0, 3], [0, 0, 0]] : Mat).length →
        wget bf.1 v
          = wget (shortest_paths_dp [[0, 4, 0], [0, 0, 3], [0, 0, 0]] 0).1 v ∧
        wget dij.1 v
          = wget (shortest_paths_dp [[0, 4, 0], [0, 0, 3], [0, 0, 0]] 0).1 v :=
  c2_sorted_dag_agreement (by decide) (by decide) (by decide) (by decide)
    (by decide)

end GraphAnalyzer
